import Mathlib

/-!
Shallow embedding of `src/backend.py` (class `PSApp`): a two-file
bill-of-materials database with fixed-size component records (`.prd`)
and specification records (`.prs`), intrusive singly-linked lists,
soft deletion, cycle checking and offline compaction.

Modelling conventions:
* the pair of open files is a `PSApp` value: the header fields plus the
  two record regions as lists of records in physical order; a record's
  `off` field stores its byte offset, exactly as the Python dataclasses do;
* `_prd_read` / `_prs_read` at an offset look the record up by its `off`
  field; reading an offset that holds no record models Python's
  `struct.error` on a short/garbage read and is surfaced as `Err.badRead`;
* `_prs_write` fails with `Err.structError` when `qty` leaves the `i16`
  range, modelling `struct.pack("<h", …)` raising `struct.error`
  (the bytes Python writes before the raise coincide with the bytes
  already on disk, or lie beyond `free` where no read ever looks,
  so the observable state is unchanged);
* Python `while` loops over `next_` chains carry no cycle protection and
  can diverge on a corrupt database; they are embedded as fuel-indexed
  recursions whose exhaustion is the dedicated marker `Err.fuel`
  (never reachable from a well-formed state);
* names are modelled as ASCII strings (`encode("ascii", "ignore")`
  filters high characters; `str.lower` agrees with `Char.toLower` on
  ASCII); byte-for-byte name-field packing is modelled by the
  encode-then-decode round trip `fieldRoundtrip`, since any later read
  of the record decodes exactly what was packed.
-/

namespace PS

/-- Header sizes from backend.py: PRD_HDR_SIZE = 2 + 2 + 4 + 4 + 16. -/
def PRD_HDR_SIZE : Int := 28

/-- Header size of the spec file: PRS_HDR_SIZE = 4 + 4. -/
def PRS_HDR_SIZE : Int := 8

/-- Characters stripped by Python str.strip() with no argument. -/
def pySpace (c : Char) : Bool :=
  c == ' ' || c == '\t' || c == '\n' || c == '\r' || c == '\x0b' || c == '\x0c'

/-- Python str.strip(): drop leading and trailing whitespace. -/
def stripStr (s : String) : String :=
  ⟨((s.data.dropWhile pySpace).reverse.dropWhile pySpace).reverse⟩

/-- Python str.rstrip(" "): drop trailing spaces only. -/
def rstripSpaces (s : String) : String :=
  ⟨(s.data.reverse.dropWhile (· == ' ')).reverse⟩

/-- Python str.lower() restricted to ASCII (all stored names are ASCII). -/
def lowerStr (s : String) : String :=
  ⟨s.data.map Char.toLower⟩

/-- Python bytes.encode("ascii", "ignore"): drop non-ASCII characters. -/
def asciiOnly (s : String) : String :=
  ⟨s.data.filter (fun c => c.toNat < 128)⟩

/-- Take the first n characters of a string (Python slicing s[:n]). -/
def takeStr (n : Nat) (s : String) : String :=
  ⟨s.data.take n⟩

/-- Drop the first n characters of a string (Python slicing s[n:]). -/
def dropStr (n : Nat) (s : String) : String :=
  ⟨s.data.drop n⟩

/-- backend.py `norm`: strip the string ("" for None is irrelevant here). -/
def norm (s : String) : String := stripStr s

/-- backend.py `eq`: case-insensitive comparison of stripped strings. -/
def eqPy (a b : String) : Bool :=
  lowerStr (stripStr a) == lowerStr (stripStr b)

/-- Lexicographic less-or-equal on strings by code point, as Python string
comparison used through sort keys. -/
def lexLe : List Char → List Char → Bool
  | [], _ => true
  | _ :: _, [] => false
  | a :: as, b :: bs =>
    if a.toNat < b.toNat then true
    else if a == b then lexLe as bs
    else false

/-- Comparison of two records by the Python sort key `x.name.lower()`. -/
def keyLe (a b : String) : Bool :=
  lexLe (lowerStr a).data (lowerStr b).data

/-- Python string `<` by code point, via the `lexLe` embedding. -/
def keyLt (a b : String) : Bool :=
  keyLe a b && !(keyLe b a)

/-- Stable insertion of an element after every strictly-smaller element;
building block of `pySort`. -/
def insStable (le : α → α → Bool) (a : α) : List α → List α
  | [] => [a]
  | b :: bs =>
    if le b a && !(le a b) then b :: insStable le a bs
    else a :: b :: bs

/-- Stable sort modelling Python `list.sort`: ascending, equal keys keep
their original relative order. -/
def pySort (le : α → α → Bool) : List α → List α
  | [] => []
  | a :: as => insStable le a (pySort le as)

/-- Component record, as the dataclass `PrdRec` of backend.py. -/
structure PrdRec where
  off : Int
  del_ : Int
  first_spec : Int
  next_ : Int
  typ : String
  name : String
deriving Repr, DecidableEq

/-- Specification record, as the dataclass `PrsRec` of backend.py. -/
structure PrsRec where
  off : Int
  del_ : Int
  comp_off : Int
  qty : Int
  next_ : Int
deriving Repr, DecidableEq

/-- Open database state: header fields of both files plus the record
regions, in physical order. -/
structure PSApp where
  data_len : Nat
  prd_head : Int
  prd_free : Int
  prs_head : Int
  prs_free : Int
  prd : List PrdRec
  prs : List PrsRec
deriving Repr, DecidableEq

/-- Error outcomes of the Python methods: `valueError m` is
`raise ValueError(m)`, `runtimeError m` is `raise RuntimeError(m)`,
`structError` is `struct.error` from packing an out-of-range i16,
`badRead` is `struct.error` from a short or misaligned read, and
`fuel` marks divergence of an unprotected chain walk. -/
inductive Err where
  | valueError (msg : String)
  | runtimeError (msg : String)
  | structError
  | badRead
  | fuel
deriving Repr, DecidableEq

/-- Size of one component record: 1 + 4 + 4 + data_len. -/
def prd_rec_size (s : PSApp) : Int := 9 + (s.data_len : Int)

/-- Size of one specification record: 1 + 4 + 2 + 4. -/
def prs_rec_size : Int := 11

/-- Decoding of a raw (already space-stripped) name field, as `_prd_read`:
a `T:` prefix yields the type letter, otherwise type defaults to "I". -/
def decodeField (raw : String) : String × String :=
  if raw.data.length ≥ 2 && raw.data.get? 1 == some ':' then
    (takeStr 1 raw, stripStr (dropStr 2 raw))
  else
    ("I", stripStr raw)

/-- Raw name field as later read back: `typ:name` ASCII-encoded, cut to
the field width, with the space padding (and any payload tail of spaces)
stripped again on read. -/
def encodeRaw (dl : Nat) (typ name : String) : String :=
  rstripSpaces (takeStr dl (asciiOnly (typ ++ ":" ++ name)))

/-- Write-then-read round trip of the name field: what `_prd_read` returns
for a record that `_prd_write` packed from `typ` and `name`. -/
def fieldRoundtrip (dl : Nat) (typ name : String) : String × String :=
  decodeField (encodeRaw dl typ name)

/-- Reading a component record at an offset (`_prd_read`): the record
stored there, or none when the offset holds no record. -/
def prdRead (s : PSApp) (off : Int) : Option PrdRec :=
  s.prd.find? (fun r => r.off == off)

/-- Record as stored by `_prd_write` and decoded by the next `_prd_read`:
the name field goes through the packing round trip. -/
def normRec (dl : Nat) (r : PrdRec) : PrdRec :=
  let tn := fieldRoundtrip dl r.typ r.name
  { r with typ := tn.1, name := tn.2 }

/-- Writing a component record (`_prd_write`): replaces the record at the
same offset, or appends at the end of the data region; the name field is
stored through the packing round trip. -/
def prdWrite (s : PSApp) (r : PrdRec) : PSApp :=
  if s.prd.any (fun x => x.off == r.off) then
    { s with prd := s.prd.map (fun x => if x.off == r.off then normRec s.data_len r else x) }
  else
    { s with prd := s.prd ++ [normRec s.data_len r] }

/-- Reading a specification record at an offset (`_prs_read`). -/
def prsRead (s : PSApp) (off : Int) : Option PrsRec :=
  s.prs.find? (fun r => r.off == off)

/-- Writing a specification record (`_prs_write`); `struct.pack("<h", qty)`
raises when `qty` leaves the i16 range. -/
def prsWrite (s : PSApp) (r : PrsRec) : Except Err PSApp :=
  if r.qty < -32768 || 32767 < r.qty then .error .structError
  else if s.prs.any (fun x => x.off == r.off) then
    .ok { s with prs := s.prs.map (fun x => if x.off == r.off then r else x) }
  else
    .ok { s with prs := s.prs ++ [r] }

/-- Sequence a list of optional reads; `none` anywhere is a failed read. -/
def seqOpt : List (Option α) → Option (List α)
  | [] => some []
  | none :: _ => none
  | some a :: rest => (seqOpt rest).map (a :: ·)

/-- Physical scan of the component region (`scan_prd_physical`): reads
records at offsets 28, 28+size, … while `off + size ≤ prd_free`. -/
def scan_prd_physical (s : PSApp) : Except Err (List PrdRec) :=
  let n := ((s.prd_free - PRD_HDR_SIZE).toNat) / (9 + s.data_len)
  match seqOpt ((List.range n).map
      (fun (i : Nat) => prdRead s (PRD_HDR_SIZE + (i : Int) * prd_rec_size s))) with
  | none => .error .badRead
  | some l => .ok l

/-- Physical scan of the specification region (`scan_prs_physical`). -/
def scan_prs_physical (s : PSApp) : Except Err (List PrsRec) :=
  let n := ((s.prs_free - PRS_HDR_SIZE).toNat) / 11
  match seqOpt ((List.range n).map
      (fun (i : Nat) => prsRead s (PRS_HDR_SIZE + (i : Int) * prs_rec_size))) with
  | none => .error .badRead
  | some l => .ok l

/-- Walk of the sorted logical list (`iter_prd_logical`): follows `next_`
from the head, yields active records, raises on a revisited offset. -/
def iterLogicalAux (s : PSApp) : Nat → Int → List Int → Except Err (List PrdRec)
  | 0, _, _ => .error .fuel
  | fuel+1, ptr, seen =>
    if ptr == -1 then .ok []
    else if seen.contains ptr then .error (.runtimeError "cycle in logical prd list")
    else
      match prdRead s ptr with
      | none => .error .badRead
      | some r =>
        match iterLogicalAux s fuel r.next_ (ptr :: seen) with
        | .error e => .error e
        | .ok rest => .ok (if r.del_ == 0 then r :: rest else rest)

/-- Entry point of the logical walk; the seen-set bounds the loop by the
number of records, so this fuel is never the limiting factor. -/
def iter_prd_logical (s : PSApp) : Except Err (List PrdRec) :=
  iterLogicalAux s (s.prd.length + 1) s.prd_head []

/-- Linear name lookup over all records (`find_any`). -/
def find_any (s : PSApp) (name : String) : Except Err (Option PrdRec) :=
  match scan_prd_physical s with
  | .error e => .error e
  | .ok recs => .ok (recs.find? (fun r => eqPy r.name (norm name)))

/-- Linear name lookup over active records only (`find_active`). -/
def find_active (s : PSApp) (name : String) : Except Err (Option PrdRec) :=
  match scan_prd_physical s with
  | .error e => .error e
  | .ok recs => .ok (recs.find? (fun r => r.del_ == 0 && eqPy r.name (norm name)))

/-- Walk of `_insert_sorted`: from the head, keep `(prev, cur)` and stop at
the first record whose lowercase name is strictly above the new key. -/
def insertWalk (s : PSApp) (key : String) : Nat → Int → Int → Except Err (Int × Int)
  | 0, _, _ => .error .fuel
  | fuel+1, prev, cur =>
    if cur == -1 then .ok (prev, cur)
    else
      match prdRead s cur with
      | none => .error .badRead
      | some c =>
        if keyLt key c.name then .ok (prev, cur)
        else insertWalk s key fuel cur c.next_

/-- Splice of a freshly written record into the sorted logical list
(`_insert_sorted`). -/
def insert_sorted (s : PSApp) (new_off : Int) : Except Err PSApp :=
  match prdRead s new_off with
  | none => .error .badRead
  | some new0 =>
    if s.prd_head == -1 then
      .ok { prdWrite s { new0 with next_ := -1 } with prd_head := new_off }
    else
      match insertWalk s (lowerStr new0.name) (s.prd.length + 1) (-1) s.prd_head with
      | .error e => .error e
      | .ok (prev_off, cur_off) =>
        let s1 := prdWrite s { new0 with next_ := cur_off }
        if prev_off == -1 then
          .ok { s1 with prd_head := new_off }
        else
          match prdRead s1 prev_off with
          | none => .error .badRead
          | some prev => .ok (prdWrite s1 { prev with next_ := new_off })

/-- Relink pass of `rebuild_alphabetical`: rewrite each active record's
`next_` to its successor in the sorted order (or -1 at the tail). -/
def relinkChain (s : PSApp) : List PrdRec → PSApp
  | [] => s
  | [r] => prdWrite s { r with next_ := -1 }
  | r :: r2 :: rest => relinkChain (prdWrite s { r with next_ := r2.off }) (r2 :: rest)

/-- Full rebuild of the sorted list (`rebuild_alphabetical`): stable sort
of the active records by lowercase name, relink, reset the head. -/
def rebuild_alphabetical (s : PSApp) : Except Err PSApp :=
  match scan_prd_physical s with
  | .error e => .error e
  | .ok recs =>
    let active := pySort (fun a b => keyLe a.name b.name) (recs.filter (fun r => r.del_ == 0))
    let s' := relinkChain s active
    .ok { s' with prd_head := match active with | [] => -1 | r :: _ => r.off }

/-- Listing in logical order (`get_components`). -/
def get_components (s : PSApp) : Except Err (List (String × String)) :=
  match iter_prd_logical s with
  | .error e => .error e
  | .ok recs => .ok (recs.map (fun r => (r.name, r.typ)))

/-- Creation of a fresh pair of files (`create`); the path arguments are
outside the model, the state is the empty database. -/
def create (maxlen : Nat) : Except Err PSApp :=
  if maxlen < 4 then .error (.valueError "maxLen must be >= 4")
  else .ok { data_len := maxlen, prd_head := -1, prd_free := PRD_HDR_SIZE,
             prs_head := -1, prs_free := PRS_HDR_SIZE, prd := [], prs := [] }

/-- Addition of a component (`add_component`): reject empty and duplicate
names, write at `prd_free`, splice into the sorted list, advance `free`. -/
def add_component (s : PSApp) (name0 typ : String) : Except Err PSApp :=
  let name := norm name0
  if name == "" then .error (.valueError "empty name")
  else
    match find_any s name with
    | .error e => .error e
    | .ok (some _) => .error (.valueError "duplicate component name")
    | .ok none =>
      let rec0 : PrdRec :=
        { off := s.prd_free, del_ := 0, first_spec := -1, next_ := -1, typ := typ, name := name }
      let s1 := prdWrite s rec0
      match insert_sorted s1 s.prd_free with
      | .error e => .error e
      | .ok s2 => .ok { s2 with prd_free := s2.prd_free + prd_rec_size s }

/-- Scan of one spec chain for an active reference to `targetOff`
(the inner loop of `delete_component`). -/
def refScanChain (s : PSApp) (targetOff : Int) : Nat → Int → Except Err Bool
  | 0, _ => .error .fuel
  | fuel+1, ptr =>
    if ptr == -1 then .ok false
    else
      match prsRead s ptr with
      | none => .error .badRead
      | some sr =>
        if sr.del_ == 0 && sr.comp_off == targetOff then .ok true
        else refScanChain s targetOff fuel sr.next_

/-- Reference check of `delete_component`: does any other active component
hold an active spec pointing at the target? -/
def refScan (s : PSApp) (compOff : Int) : List PrdRec → Except Err Bool
  | [] => .ok false
  | c :: rest =>
    if c.del_ != 0 || c.off == compOff then refScan s compOff rest
    else
      match refScanChain s compOff (s.prs.length + 1) c.first_spec with
      | .error e => .error e
      | .ok true => .ok true
      | .ok false => refScan s compOff rest

/-- Chain pass shared by the delete cascade and `restore_one`: set `del_`
of every spec on the chain to `v`. -/
def markChain (v : Int) : Nat → PSApp → Int → Except Err PSApp
  | 0, _, _ => .error .fuel
  | fuel+1, s, ptr =>
    if ptr == -1 then .ok s
    else
      match prsRead s ptr with
      | none => .error .badRead
      | some sr =>
        match prsWrite s { sr with del_ := v } with
        | .error e => .error e
        | .ok s' => markChain v fuel s' sr.next_

/-- Logical deletion of a component (`delete_component`): fail when another
active component still references it, otherwise mark the record and its
whole spec chain deleted. -/
def delete_component (s : PSApp) (name : String) : Except Err PSApp :=
  match find_active s name with
  | .error e => .error e
  | .ok none => .error (.valueError "component not found")
  | .ok (some comp) =>
    match scan_prd_physical s with
    | .error e => .error e
    | .ok recs =>
      match refScan s comp.off recs with
      | .error e => .error e
      | .ok true => .error (.valueError "component is referenced by other specifications")
      | .ok false =>
        let s1 := prdWrite s { comp with del_ := -1 }
        markChain (-1) (s.prs.length + 1) s1 comp.first_spec

/-- Restoration of one component (`restore_one`): clear `del_` on the
record found by `find_any` and on every spec of its chain, then rebuild
the sorted list. -/
def restore_one (s : PSApp) (name : String) : Except Err PSApp :=
  match find_any s name with
  | .error e => .error e
  | .ok none => .error (.valueError "component not found")
  | .ok (some comp) =>
    let s1 := prdWrite s { comp with del_ := 0 }
    match markChain 0 (s.prs.length + 1) s1 comp.first_spec with
    | .error e => .error e
    | .ok s2 => rebuild_alphabetical s2

/-- Un-deletion loops of `restore_all` over the component region. -/
def restoreAllPrd (s : PSApp) : List PrdRec → PSApp
  | [] => s
  | c :: rest =>
    if c.del_ != 0 then restoreAllPrd (prdWrite s { c with del_ := 0 }) rest
    else restoreAllPrd s rest

/-- Un-deletion loop of `restore_all` over the specification region. -/
def restoreAllPrs (s : PSApp) : List PrsRec → Except Err PSApp
  | [] => .ok s
  | c :: rest =>
    if c.del_ != 0 then
      match prsWrite s { c with del_ := 0 } with
      | .error e => .error e
      | .ok s' => restoreAllPrs s' rest
    else restoreAllPrs s rest

/-- Restoration of every record in both files (`restore_all`). -/
def restore_all (s : PSApp) : Except Err PSApp :=
  match scan_prd_physical s with
  | .error e => .error e
  | .ok recs =>
    let s1 := restoreAllPrd s recs
    match scan_prs_physical s1 with
    | .error e => .error e
    | .ok specs =>
      match restoreAllPrs s1 specs with
      | .error e => .error e
      | .ok s2 => rebuild_alphabetical s2

/-- Collection of active children along one spec chain, in chain order
(the inner loop of `_has_path`): offsets of active children of active
specs. -/
def chainChildren (s : PSApp) : Nat → Int → Except Err (List Int)
  | 0, _ => .error .fuel
  | fuel+1, ptr =>
    if ptr == -1 then .ok []
    else
      match prsRead s ptr with
      | none => .error .badRead
      | some sr =>
        match chainChildren s fuel sr.next_ with
        | .error e => .error e
        | .ok rest =>
          if sr.del_ == 0 then
            match prdRead s sr.comp_off with
            | none => .error .badRead
            | some child =>
              .ok (if child.del_ == 0 then sr.comp_off :: rest else rest)
          else .ok rest

/-- Depth-first search of `_has_path`: explicit stack (top at the head) and
a visited set; the target test precedes the visited test, exactly as in
the source. -/
def hasPathLoop (s : PSApp) (target : Int) : Nat → List Int → List Int → Except Err Bool
  | 0, _, _ => .error .fuel
  | fuel+1, stack, visited =>
    match stack with
    | [] => .ok false
    | cur :: rest =>
      if cur == target then .ok true
      else if visited.contains cur then hasPathLoop s target fuel rest visited
      else
        match prdRead s cur with
        | none => .error .badRead
        | some c =>
          match chainChildren s (s.prs.length + 1) c.first_spec with
          | .error e => .error e
          | .ok pushes =>
            hasPathLoop s target fuel (pushes.reverse ++ rest) (cur :: visited)

/-- Reachability check of `_has_path`, started from a singleton stack. -/
def has_path (s : PSApp) (start_off target_off : Int) : Except Err Bool :=
  hasPathLoop s target_off ((s.prd.length + 1) * (s.prs.length + 1) + 1) [start_off] []

/-- Cycle guard of `add_spec` (`_would_create_cycle`): identical offsets,
or a path from the child back to the parent. -/
def would_create_cycle (s : PSApp) (parent_off child_off : Int) : Except Err Bool :=
  if parent_off == child_off then .ok true
  else has_path s child_off parent_off

/-- Merge walk of `add_spec`: the first active spec of the parent chain
pointing at the child gets its quantity increased in place. -/
def mergeWalk (s : PSApp) (child_off qty : Int) : Nat → Int → Except Err (Option PSApp)
  | 0, _ => .error .fuel
  | fuel+1, ptr =>
    if ptr == -1 then .ok none
    else
      match prsRead s ptr with
      | none => .error .badRead
      | some sr =>
        if sr.del_ == 0 && sr.comp_off == child_off then
          match prsWrite s { sr with qty := sr.qty + qty } with
          | .error e => .error e
          | .ok s' => .ok (some s')
        else mergeWalk s child_off qty fuel sr.next_

/-- Tail walk of `add_spec`: the offset of the last node of a nonempty
chain (`last` starts at -1 as in the source). -/
def tailWalk (s : PSApp) : Nat → Int → Int → Except Err Int
  | 0, _, _ => .error .fuel
  | fuel+1, last, cur =>
    if cur == -1 then .ok last
    else
      match prsRead s cur with
      | none => .error .badRead
      | some r => tailWalk s fuel cur r.next_

/-- Addition of a specification link (`add_spec`): validity checks, cycle
guard, merge into an existing active link, or append a new record at
`prs_free` and link it at the tail of the parent chain. -/
def add_spec (s : PSApp) (a0 b0 : String) (qty : Int) : Except Err PSApp :=
  let a := norm a0
  let b := norm b0
  match find_active s a with
  | .error e => .error e
  | .ok none => .error (.valueError "A component not found.")
  | .ok (some parent) =>
    if parent.typ == "D" then .error (.valueError "Specification is not allowed for Detail.")
    else
      match find_active s b with
      | .error e => .error e
      | .ok none => .error (.valueError "B component not found.")
      | .ok (some child) =>
        if qty < 1 then .error (.valueError "qty must be >= 1.")
        else
          match would_create_cycle s parent.off child.off with
          | .error e => .error e
          | .ok true => .error (.valueError "Cycle detected: this link would create a loop.")
          | .ok false =>
            match mergeWalk s child.off qty (s.prs.length + 1) parent.first_spec with
            | .error e => .error e
            | .ok (some s') => .ok s'
            | .ok none =>
              let sr : PrsRec :=
                { off := s.prs_free, del_ := 0, comp_off := child.off, qty := qty, next_ := -1 }
              match prsWrite s sr with
              | .error e => .error e
              | .ok s1 =>
                let link : Except Err PSApp :=
                  if parent.first_spec == -1 then
                    .ok (prdWrite s1 { parent with first_spec := sr.off })
                  else
                    match tailWalk s1 (s1.prs.length + 1) (-1) parent.first_spec with
                    | .error e => .error e
                    | .ok last =>
                      match prsRead s1 last with
                      | none => .error .badRead
                      | some tail => prsWrite s1 { tail with next_ := sr.off }
                match link with
                | .error e => .error e
                | .ok s2 => .ok { s2 with prs_free := s2.prs_free + prs_rec_size }

/-- Deletion walk of `delete_spec`: mark the first matching active spec of
the parent chain as deleted. -/
def deleteSpecWalk (s : PSApp) (child_off : Int) : Nat → Int → Except Err (Option PSApp)
  | 0, _ => .error .fuel
  | fuel+1, ptr =>
    if ptr == -1 then .ok none
    else
      match prsRead s ptr with
      | none => .error .badRead
      | some sr =>
        if sr.del_ == 0 && sr.comp_off == child_off then
          match prsWrite s { sr with del_ := -1 } with
          | .error e => .error e
          | .ok s' => .ok (some s')
        else deleteSpecWalk s child_off fuel sr.next_

/-- Logical deletion of one specification link (`delete_spec`). -/
def delete_spec (s : PSApp) (a0 b0 : String) : Except Err PSApp :=
  let a := norm a0
  let b := norm b0
  match find_active s a with
  | .error e => .error e
  | .ok none => .error (.valueError "A component not found.")
  | .ok (some parent) =>
    if parent.typ == "D" then .error (.valueError "Specification is not allowed for Detail.")
    else
      match find_active s b with
      | .error e => .error e
      | .ok none => .error (.valueError "B component not found.")
      | .ok (some child) =>
        match deleteSpecWalk s child.off (s.prs.length + 1) parent.first_spec with
        | .error e => .error e
        | .ok (some s') => .ok s'
        | .ok none => .error (.valueError "A/B link not found.")

/-- Collection loop of `get_spec`: `(name, type, qty)` of every active spec
of the chain whose child component is active, in chain order. -/
def specItems (s : PSApp) : Nat → Int → Except Err (List (String × String × Int))
  | 0, _ => .error .fuel
  | fuel+1, ptr =>
    if ptr == -1 then .ok []
    else
      match prsRead s ptr with
      | none => .error .badRead
      | some sr =>
        match specItems s fuel sr.next_ with
        | .error e => .error e
        | .ok rest =>
          if sr.del_ == 0 then
            match prdRead s sr.comp_off with
            | none => .error .badRead
            | some child =>
              .ok (if child.del_ == 0 then (child.name, child.typ, sr.qty) :: rest else rest)
          else .ok rest

/-- Specification listing of one parent (`get_spec`), sorted by lowercase
child name. -/
def get_spec (s : PSApp) (a0 : String) : Except Err (List (String × String × Int)) :=
  let a := norm a0
  match find_active s a with
  | .error e => .error e
  | .ok none => .error (.valueError "Component not found.")
  | .ok (some parent) =>
    if parent.typ == "D" then .error (.valueError "Specification is not allowed for Detail.")
    else
      match specItems s (s.prs.length + 1) parent.first_spec with
      | .error e => .error e
      | .ok items => .ok (pySort (fun x y => keyLe x.1 y.1) items)

/-- Per-level loop of `_tree_dfs` over the sorted spec items: branch glyph
by position, ` xN` suffix when the quantity is not 1, recursion (through
`go`) into non-Detail children with the continuation prefix. -/
def treeItems (s : PSApp) (go : PrdRec → String → Except Err (List String))
    (pre : String) (n : Nat) : Nat → List (String × String × Int) → Except Err (List String)
  | _, [] => .ok []
  | i, (child_name, child_typ, qty) :: rest =>
    let last := i == n - 1
    let branch := if last then "└─ " else "├─ "
    let suffix := if qty != 1 then " x" ++ toString qty else ""
    let line := pre ++ branch ++ child_name ++ suffix
    let subE : Except Err (List String) :=
      if child_typ != "D" then
        match find_active s child_name with
        | .error e => .error e
        | .ok none => .ok []
        | .ok (some child_rec) => go child_rec (pre ++ (if last then "   " else "│  "))
      else .ok []
    match subE with
    | .error e => .error e
    | .ok sub =>
      match treeItems s go pre n (i+1) rest with
      | .error e => .error e
      | .ok tl => .ok (line :: sub ++ tl)

/-- Recursive tree renderer (`_tree_dfs`): ancestor-offset guard first,
then the item loop; the ancestor set grows downward only, as the Python
set is removed from on exit. -/
def treeDfs (s : PSApp) : Nat → PrdRec → String → List Int → Except Err (List String)
  | 0, _, _, _ => .error .fuel
  | fuel+1, node, pre, stk =>
    if stk.contains node.off then .ok [pre ++ "└─ [cycle detected]"]
    else
      match get_spec s node.name with
      | .error e => .error e
      | .ok items =>
        treeItems s (fun cr pre2 => treeDfs s fuel cr pre2 (node.off :: stk))
          pre items.length 0 items

/-- Tree rendering entry point (`build_tree_text`): root line plus the
recursive walk, joined by newlines. -/
def build_tree_text (s : PSApp) (name : String) : Except Err String :=
  match find_active s name with
  | .error e => .error e
  | .ok none => .error (.valueError "Component not found.")
  | .ok (some root) =>
    if root.typ == "D" then .error (.valueError "Tree is not allowed for Detail.")
    else
      match treeDfs s (s.prd.length + 2) root "" [] with
      | .error e => .error e
      | .ok lines => .ok (String.intercalate "\n" (root.name :: lines))

/-- Offset remapping of `truncate`: the i-th active component moves to
`28 + i * rec_size`. -/
def buildOffMap (size : Int) : Int → List PrdRec → List (Int × Int)
  | _, [] => []
  | w, c :: rest => (c.off, w) :: buildOffMap size (w + size) rest

/-- Association lookup in an old-to-new offset map. -/
def lookupOff (m : List (Int × Int)) (k : Int) : Option Int :=
  (m.find? (fun p => p.1 == k)).map (fun p => p.2)

/-- Chain filter of `truncate`: keep `(comp_off, qty)` of active specs
whose child is in the new offset map. -/
def keepWalk (s : PSApp) (m : List (Int × Int)) : Nat → Int → Except Err (List (Int × Int))
  | 0, _ => .error .fuel
  | fuel+1, ptr =>
    if ptr == -1 then .ok []
    else
      match prsRead s ptr with
      | none => .error .badRead
      | some sr =>
        match keepWalk s m fuel sr.next_ with
        | .error e => .error e
        | .ok rest =>
          .ok (if sr.del_ == 0 && (lookupOff m sr.comp_off).isSome then
                 (sr.comp_off, sr.qty) :: rest
               else rest)

/-- Bucket pass of `truncate`: one kept-spec list per active parent, in
sorted parent order. -/
def bucketsOf (s : PSApp) (m : List (Int × Int)) :
    List PrdRec → Except Err (List (Int × List (Int × Int)))
  | [] => .ok []
  | p :: rest =>
    match keepWalk s m (s.prs.length + 1) p.first_spec with
    | .error e => .error e
    | .ok keep =>
      match bucketsOf s m rest with
      | .error e => .error e
      | .ok bs => .ok ((p.off, keep) :: bs)

/-- Component-record pass of `truncate`: densely renumbered records with
`first_spec = -1`, `next_` chaining to the following slot, and the name
field re-encoded from the old record. -/
def truncCompRecs (dl : Nat) : Int → List PrdRec → List PrdRec
  | _, [] => []
  | w, old :: rest =>
    let nxt : Int := if rest.isEmpty then -1 else w + (9 + (dl : Int))
    let tn := fieldRoundtrip dl old.typ old.name
    { off := w, del_ := 0, first_spec := -1, next_ := nxt, typ := tn.1, name := tn.2 }
      :: truncCompRecs dl (w + (9 + (dl : Int))) rest

/-- One parent's contiguous spec block in the new file, chained internally
and ending with -1. -/
def truncSpecBlock (m : List (Int × Int)) : Int → List (Int × Int) → Except Err (List PrsRec)
  | _, [] => .ok []
  | w, (child_old, qty) :: rest =>
    if qty < -32768 || 32767 < qty then .error .structError
    else
      match lookupOff m child_old with
      | none => .error .badRead
      | some child_new =>
        let nxt : Int := if rest.isEmpty then -1 else w + 11
        match truncSpecBlock m (w + 11) rest with
        | .error e => .error e
        | .ok blk =>
          .ok ({ off := w, del_ := 0, comp_off := child_new, qty := qty, next_ := nxt } :: blk)

/-- Spec pass of `truncate` over the parents: returns the written records,
the `first_spec` rewrites `(parent_new_off, block_start)`, the final write
offset, and the first written spec offset. -/
def truncSpecs (m : List (Int × Int)) :
    Int → List (Int × List (Int × Int)) →
    Except Err (List PrsRec × List (Int × Int) × Int × Option Int)
  | w, [] => .ok ([], [], w, none)
  | w, (pOld, items) :: rest =>
    if items.isEmpty then truncSpecs m w rest
    else
      match truncSpecBlock m w items with
      | .error e => .error e
      | .ok blk =>
        match truncSpecs m (w + 11 * (items.length : Int)) rest with
        | .error e => .error e
        | .ok (specs, upds, wEnd, _) =>
          match lookupOff m pOld with
          | none => .error .badRead
          | some pNew => .ok (blk ++ specs, (pNew, w) :: upds, wEnd, some w)

/-- Targeted `first_spec` rewrites of `truncate` (the seek to
`parent_new + 1` followed by one i32 write). -/
def applyFirstSpec (upds : List (Int × Int)) (recs : List PrdRec) : List PrdRec :=
  recs.map (fun r =>
    match lookupOff upds r.off with
    | some fs => { r with first_spec := fs }
    | none => r)

/-- Offline compaction (`truncate`): rebuild both files from the active
records only, renumbering offsets densely, then reopen. -/
def truncate (s : PSApp) : Except Err PSApp :=
  match scan_prd_physical s with
  | .error e => .error e
  | .ok recs =>
    let active := pySort (fun a b => keyLe a.name b.name) (recs.filter (fun r => r.del_ == 0))
    let m := buildOffMap (prd_rec_size s) PRD_HDR_SIZE active
    match bucketsOf s m active with
    | .error e => .error e
    | .ok buckets =>
      let comps := truncCompRecs s.data_len PRD_HDR_SIZE active
      match truncSpecs m PRS_HDR_SIZE buckets with
      | .error e => .error e
      | .ok (specs, upds, wEnd, first') =>
        .ok { data_len := s.data_len,
              prd_head := if active.isEmpty then -1 else PRD_HDR_SIZE,
              prd_free := PRD_HDR_SIZE + prd_rec_size s * (active.length : Int),
              prs_head := first'.getD (-1),
              prs_free := wEnd,
              prd := applyFirstSpec upds comps,
              prs := specs }

/-- Raw chain collector used by the well-formedness predicate and by the
claim statements: the records of one `next_` chain, in chain order. -/
def prsChain (s : PSApp) : Nat → Int → Except Err (List PrsRec)
  | 0, _ => .error .fuel
  | fuel+1, ptr =>
    if ptr == -1 then .ok []
    else
      match prsRead s ptr with
      | none => .error .badRead
      | some sr =>
        match prsChain s fuel sr.next_ with
        | .error e => .error e
        | .ok rest => .ok (sr :: rest)

/-- Chain of specification records hanging off a pointer, at the fuel the
backend loops always have available; empty when the walk fails. -/
def chainOf (s : PSApp) (ptr : Int) : List PrsRec :=
  match prsChain s (s.prs.length + 1) ptr with
  | .ok ch => ch
  | .error _ => []

/-- The reference test performed by `delete_component`: some other active
component carries an active spec whose `comp_off` equals the target. -/
def referenced (s : PSApp) (target : Int) : Bool :=
  s.prd.any (fun c =>
    !(c.del_ != 0 || c.off == target) &&
    (chainOf s c.first_spec).any (fun sr => sr.del_ == 0 && sr.comp_off == target))

/-- An active specification record whose child component record is itself
active: the links the cycle-check DFS follows. -/
def activeChildB (s : PSApp) (sr : PrsRec) : Bool :=
  sr.del_ == 0 &&
    match prdRead s sr.comp_off with
    | some child => child.del_ == 0
    | none => false

/-- One hop of the dependency graph walked by the cycle check: an active
spec on the chain of the record at `u` leads to the active component at
`v`. -/
def Edge (s : PSApp) (u v : Int) : Prop :=
  ∃ c, prdRead s u = some c ∧
    ∃ sr ∈ chainOf s c.first_spec, activeChildB s sr = true ∧ sr.comp_off = v

/-- Reachability of `target` through the dependency graph: the relation the
depth-first search of `_has_path` decides. -/
inductive Reach (s : PSApp) (target : Int) : Int → Prop
  | refl : Reach s target target
  | step {u v : Int} : Edge s u v → Reach s target v → Reach s target u

/-- Boolean test for a ValueError outcome: the representation the backend
gives to the InvalidArgument/NotFound/Duplicate/TypeRule conditions. -/
def isValueError : Except Err α → Bool
  | .error (.valueError _) => true
  | _ => false

/-- Boolean success test for an Except outcome. -/
def exceptOk : Except ε α → Bool
  | .ok _ => true
  | .error _ => false

instance [DecidableEq ε] [DecidableEq α] : DecidableEq (Except ε α) := by
  intro a b
  cases a <;> cases b
  case error.error e1 e2 =>
    exact if h : e1 = e2 then .isTrue (by rw [h]) else .isFalse (by intro hc; cases hc; exact h rfl)
  case ok.ok a1 a2 =>
    exact if h : a1 = a2 then .isTrue (by rw [h]) else .isFalse (by intro hc; cases hc; exact h rfl)
  case error.ok e1 a2 => exact .isFalse (by intro hc; cases hc)
  case ok.error a1 e2 => exact .isFalse (by intro hc; cases hc)

/-- Dense physical layout of the component region: the record at list
position i sits at byte offset `w + i * size`. -/
def prdPositional (size : Int) : Int → List PrdRec → Bool
  | _, [] => true
  | w, r :: rest => r.off == w && prdPositional size (w + size) rest

/-- Dense physical layout of the specification region. -/
def prsPositional : Int → List PrsRec → Bool
  | _, [] => true
  | w, r :: rest => r.off == w && prsPositional (w + prs_rec_size) rest

/-- Active records in stable sorted order of lowercase name: the value the
logical list realises in every reachable state. -/
def sortedActive (s : PSApp) : List PrdRec :=
  pySort (fun a b => keyLe a.name b.name) (s.prd.filter (fun r => r.del_ == 0))

/-- Well-formedness of an open database state, as maintained by every
committed operation: dense record layout with `free` at the end of each
file, a 4-byte-or-wider name field, name fields stable under the packing
round trip, case-insensitively unique names, the logical list realising
exactly the sorted active records, walkable spec chains, resolvable
child offsets, and i16-range quantities. -/
def WF (s : PSApp) : Prop :=
  4 ≤ s.data_len ∧
  prdPositional (prd_rec_size s) PRD_HDR_SIZE s.prd = true ∧
  s.prd_free = PRD_HDR_SIZE + (s.prd.length : Int) * prd_rec_size s ∧
  prsPositional PRS_HDR_SIZE s.prs = true ∧
  s.prs_free = PRS_HDR_SIZE + (s.prs.length : Int) * prs_rec_size ∧
  (∀ r ∈ s.prd, fieldRoundtrip s.data_len r.typ r.name = (r.typ, r.name)) ∧
  (s.prd.map (fun r => lowerStr (stripStr r.name))).Nodup ∧
  iter_prd_logical s = .ok (sortedActive s) ∧
  (∀ r ∈ s.prd, exceptOk (prsChain s (s.prs.length + 1) r.first_spec) = true) ∧
  (∀ p ∈ s.prs, (prdRead s p.comp_off).isSome = true) ∧
  (∀ p ∈ s.prs, -32768 ≤ p.qty ∧ p.qty ≤ 32767)

instance (s : PSApp) : Decidable (WF s) := by
  unfold WF
  infer_instance

/-- Linked-list shape of the component chain starting at a pointer: the
listed records are read in order, each linking to the next. -/
def LChain (s : PSApp) : Int → List PrdRec → Prop
  | p, [] => p = -1
  | p, r :: rest => p = r.off ∧ prdRead s p = some r ∧ LChain s r.next_ rest

/-- Linked-list shape of a specification chain starting at a pointer. -/
def SChain (s : PSApp) : Int → List PrsRec → Prop
  | p, [] => p = -1
  | p, sr :: rest => p = sr.off ∧ prsRead s p = some sr ∧ SChain s sr.next_ rest

/-- Offset of the last record of a specification chain, or the initial
value: the `last` pointer after `add_spec`'s tail walk. -/
def sWalkPrev (prev : Int) : List PrsRec → Int
  | [] => prev
  | r :: rest => sWalkPrev r.off rest

/-- Listing entries carried by one chain, in chain order: what the
collection loop of `get_spec` gathers before sorting. -/
def itemsOf (s : PSApp) : List PrsRec → List (String × String × Int)
  | [] => []
  | sr :: rest =>
    if sr.del_ == 0 then
      match prdRead s sr.comp_off with
      | some child =>
        if child.del_ == 0 then (child.name, child.typ, sr.qty) :: itemsOf s rest
        else itemsOf s rest
      | none => itemsOf s rest
    else itemsOf s rest

/-- Kept entries of one chain during compaction: active specs whose child
is in the new offset map. -/
def keepOf (m : List (Int × Int)) (ch : List PrsRec) : List (Int × Int) :=
  (ch.filter (fun sr => sr.del_ == 0 && (lookupOff m sr.comp_off).isSome)).map
    (fun sr => (sr.comp_off, sr.qty))

/-- Active-child pushes of one chain during the cycle-check DFS. -/
def childrenOf (s : PSApp) : List PrsRec → List Int
  | [] => []
  | sr :: rest =>
    if sr.del_ == 0 then
      match prdRead s sr.comp_off with
      | some child =>
        if child.del_ == 0 then sr.comp_off :: childrenOf s rest
        else childrenOf s rest
      | none => childrenOf s rest
    else childrenOf s rest

/-- Offset of the last record of a walked prefix, or the initial value:
the `prev` pointer after `_insert_sorted`'s walk passes the listed
records. -/
def walkPrev (prev : Int) : List PrdRec → Int
  | [] => prev
  | r :: rest => walkPrev r.off rest

/-- Offset of the first listed record, or the default: the `cur` pointer
where `_insert_sorted`'s walk stops. -/
def headOffOr (d : Int) : List PrdRec → Int
  | [] => d
  | r :: _ => r.off

/-- Chain segment from a pointer through the listed records to a
continuation pointer: the building block of splicing arguments about the
logical list. -/
def LSeg (s : PSApp) : Int → List PrdRec → Int → Prop
  | p, [], q => p = q
  | p, r :: rest, q => p = r.off ∧ prdRead s p = some r ∧ LSeg s r.next_ rest q

/-- Records of the relink pass with their rewritten successors: each
record points at the next of the list, the last at -1. -/
def relinked : List PrdRec → List PrdRec
  | [] => []
  | [r] => [{ r with next_ := -1 }]
  | r :: r2 :: rest => { r with next_ := r2.off } :: relinked (r2 :: rest)

/-- One user-level operation of the component workflows. -/
inductive Op where
  | add (name typ : String)
  | del (name : String)
  | restore (name : String)
  | restoreAll
deriving Repr, DecidableEq

/-- Application of one operation to a state. -/
def applyOp (s : PSApp) : Op → Except Err PSApp
  | .add name typ => add_component s name typ
  | .del name => delete_component s name
  | .restore name => restore_one s name
  | .restoreAll => restore_all s

/-- A sequence of operations; each operation that raises does so before
mutating the files, so a failing operation leaves the state unchanged. -/
def runOps (s : PSApp) : List Op → PSApp
  | [] => s
  | op :: rest =>
    match applyOp s op with
    | .ok s' => runOps s' rest
    | .error _ => runOps s rest

/-- Well-behaved operation arguments: additions carry a one-character
ASCII type letter, as every documented type letter is. -/
def okOp : Op → Bool
  | .add _ typ => typ.data.length == 1 && typ.data.all (fun c => decide (c.toNat < 128))
  | _ => true

/-- Shape of the logical component list: a duplicate-free chain from the
head that carries every active record and is wholly sorted by lowercase
name. -/
def chainInv (s : PSApp) (path : List PrdRec) : Prop :=
  LChain s s.prd_head path ∧
  (path.map (fun r => r.off)).Nodup ∧
  (∀ x ∈ path, x.off ≠ -1) ∧
  (∀ r ∈ s.prd, r.del_ = 0 → r ∈ path) ∧
  path.Pairwise (fun x y => keyLe x.name y.name = true)

/-- Invariant of every state reachable from a fresh database through the
component operations alone: dense layout, stored name fields stable under
the packing round trip, records without spec chains, an empty
specification file, and a sorted logical list covering the active
records. -/
def INV (s : PSApp) : Prop :=
  4 ≤ s.data_len ∧
  prdPositional (prd_rec_size s) PRD_HDR_SIZE s.prd = true ∧
  s.prd_free = PRD_HDR_SIZE + (s.prd.length : Int) * prd_rec_size s ∧
  (∀ r ∈ s.prd, fieldRoundtrip s.data_len r.typ r.name = (r.typ, r.name)) ∧
  (∀ r ∈ s.prd, r.first_spec = -1) ∧
  s.prs = [] ∧
  s.prs_free = PRS_HDR_SIZE ∧
  ∃ path, chainInv s path

/-- Pointer/record shape of a spec chain, independent of any state: each
listed record sits at the incoming pointer and hands on its `next_`. -/
def SShape : Int → List PrsRec → Prop
  | p, [] => p = -1
  | p, r :: rest => p = r.off ∧ SShape r.next_ rest

/-- Pointer/record shape of a component chain, independent of any state. -/
def LShape : Int → List PrdRec → Prop
  | p, [] => p = -1
  | p, r :: rest => p = r.off ∧ LShape r.next_ rest

/-- Name and type stored at a component offset, with a fixed default on a
failed read; the pair `get_spec` and the tree renderer show for a child. -/
def childNT (s : PSApp) (o : Int) : String × String :=
  match prdRead s o with
  | some c => (c.name, c.typ)
  | none => ("", "I")

/-- Correspondence between a pre-compaction record and its rebuilt image:
same visible fields, active, and a chain listing the same entries. -/
def TRecRel (s t : PSApp) (p P : PrdRec) : Prop :=
  P.name = p.name ∧ P.typ = p.typ ∧ P.del_ = 0 ∧
  specItems t (t.prs.length + 1) P.first_spec
    = .ok (itemsOf s (chainOf s p.first_spec))

/-- Simulation record connecting a well-formed state to its compaction:
everything the listing functions observe is preserved. -/
structure TruncSim (s t : PSApp) : Prop where
  dlEq : t.data_len = s.data_len
  prdPos : prdPositional (prd_rec_size t) PRD_HDR_SIZE t.prd = true
  prdFree : t.prd_free = PRD_HDR_SIZE + (t.prd.length : Int) * prd_rec_size t
  prsPos : prsPositional PRS_HDR_SIZE t.prs = true
  prsFree : t.prs_free = PRS_HDR_SIZE + (t.prs.length : Int) * prs_rec_size
  allAct : ∀ r ∈ t.prd, r.del_ = 0
  iterEq : iter_prd_logical t = .ok t.prd
  corr : List.Forall₂ (TRecRel s t) (sortedActive s) t.prd
  chains : ∀ P ∈ t.prd, exceptOk (prsChain t (t.prs.length + 1) P.first_spec) = true
  compRes : ∀ p ∈ t.prs, (prdRead t p.comp_off).isSome = true
  qtyRange : ∀ p ∈ t.prs, -32768 ≤ p.qty ∧ p.qty ≤ 32767
  lenPrs : t.prs.length
    = (((sortedActive s).map
        (fun p => (itemsOf s (chainOf s p.first_spec)).length)).sum)

section SortLemmas

variable {α : Type _} {le : α → α → Bool}

theorem insStable_perm (a : α) (l : List α) :
    List.Perm (insStable le a l) (a :: l) := by
  induction l with
  | nil => simp [insStable]
  | cons b bs ih =>
    by_cases h : (le b a && !le a b) = true
    · simp only [insStable, h, if_pos]
      exact (ih.cons b).trans (List.Perm.swap a b bs)
    · simp [insStable, h]

theorem mem_insStable {a x : α} {l : List α} :
    x ∈ insStable le a l ↔ x = a ∨ x ∈ l := by
  have := (@insStable_perm α le a l).mem_iff (a := x)
  simpa using this

theorem pySort_perm (l : List α) : List.Perm (pySort le l) l := by
  induction l with
  | nil => simp [pySort]
  | cons a as ih =>
    exact (insStable_perm a (pySort le as)).trans (ih.cons a)

theorem mem_pySort {x : α} {l : List α} : x ∈ pySort le l ↔ x ∈ l :=
  (pySort_perm l).mem_iff

theorem length_pySort (l : List α) : (pySort le l).length = l.length :=
  (pySort_perm l).length_eq

theorem insStable_sorted
    (htot : ∀ a b : α, (le a b || le b a) = true)
    (htrans : ∀ a b c : α, le a b = true → le b c = true → le a c = true)
    (a : α) {l : List α} (hl : l.Pairwise (fun x y => le x y = true)) :
    (insStable le a l).Pairwise (fun x y => le x y = true) := by
  induction l with
  | nil => simp [insStable]
  | cons b bs ih =>
    rcases List.pairwise_cons.mp hl with ⟨hb, hbs⟩
    by_cases h : (le b a && !le a b) = true
    · simp only [insStable, h, if_pos]
      refine List.pairwise_cons.mpr ⟨?_, ih hbs⟩
      intro x hx
      rcases mem_insStable.mp hx with rfl | hx
      · exact (Bool.and_eq_true_iff.mp h).1
      · exact hb x hx
    · have hab : le a b = true := by
        cases h1 : le a b
        · have h2 : le b a = false := by
            cases h2 : le b a
            · rfl
            · exact absurd (by simp [h1, h2]) h
          have := htot a b
          simp [h1, h2] at this
        · rfl
      simp only [insStable, h, if_neg]
      refine List.pairwise_cons.mpr ⟨?_, hl⟩
      intro x hx
      rcases List.mem_cons.mp hx with rfl | hx
      · exact hab
      · exact htrans a b x hab (hb x hx)

theorem pySort_sorted
    (htot : ∀ a b : α, (le a b || le b a) = true)
    (htrans : ∀ a b c : α, le a b = true → le b c = true → le a c = true)
    (l : List α) :
    (pySort le l).Pairwise (fun x y => le x y = true) := by
  induction l with
  | nil => simp [pySort]
  | cons a as ih => exact insStable_sorted htot htrans a ih

theorem insStable_of_le (a : α) {l : List α}
    (h : ∀ x ∈ l, le a x = true) : insStable le a l = a :: l := by
  cases l with
  | nil => rfl
  | cons b bs =>
    have hab := h b (by simp)
    simp [insStable, hab]

theorem pySort_of_sorted
    {l : List α} (hl : l.Pairwise (fun x y => le x y = true)) :
    pySort le l = l := by
  induction l with
  | nil => rfl
  | cons a as ih =>
    rcases List.pairwise_cons.mp hl with ⟨ha, has⟩
    simp only [pySort, ih has]
    exact insStable_of_le a ha

end SortLemmas

section LexLemmas

theorem char_eq_of_toNat_eq {x y : Char} (h : x.toNat = y.toNat) : x = y :=
  Char.ext (UInt32.toNat.inj h)

theorem lexLe_cons_iff {x y : Char} {xs ys : List Char} :
    lexLe (x :: xs) (y :: ys) = true ↔
      x.toNat < y.toNat ∨ (x = y ∧ lexLe xs ys = true) := by
  by_cases hlt : x.toNat < y.toNat
  · simp [lexLe, hlt]
  · by_cases heq : x = y
    · subst heq
      simp [lexLe, hlt]
    · have : (x == y) = false := by simpa using heq
      simp [lexLe, hlt, this, heq]

theorem lexLe_total : ∀ a b : List Char, (lexLe a b || lexLe b a) = true := by
  intro a
  induction a with
  | nil => intro b; simp [lexLe]
  | cons x xs ih =>
    intro b
    cases b with
    | nil => simp [lexLe]
    | cons y ys =>
      rcases Nat.lt_trichotomy x.toNat y.toNat with hlt | heq | hgt
      · have : lexLe (x :: xs) (y :: ys) = true := lexLe_cons_iff.mpr (Or.inl hlt)
        simp [this]
      · have hx : x = y := char_eq_of_toNat_eq heq
        subst hx
        rcases Bool.or_eq_true_iff.mp (ih ys) with h | h
        · have : lexLe (x :: xs) (x :: ys) = true := lexLe_cons_iff.mpr (Or.inr ⟨rfl, h⟩)
          simp [this]
        · have : lexLe (x :: ys) (x :: xs) = true := lexLe_cons_iff.mpr (Or.inr ⟨rfl, h⟩)
          simp [this]
      · have : lexLe (y :: ys) (x :: xs) = true := lexLe_cons_iff.mpr (Or.inl hgt)
        simp [this]

theorem lexLe_trans : ∀ a b c : List Char,
    lexLe a b = true → lexLe b c = true → lexLe a c = true := by
  intro a
  induction a with
  | nil => intro b c _ _; simp [lexLe]
  | cons x xs ih =>
    intro b c hab hbc
    cases b with
    | nil => simp [lexLe] at hab
    | cons y ys =>
      cases c with
      | nil => simp [lexLe] at hbc
      | cons z zs =>
        rcases lexLe_cons_iff.mp hab with hxy | ⟨hxy, hxs⟩
        · rcases lexLe_cons_iff.mp hbc with hyz | ⟨hyz, hys⟩
          · exact lexLe_cons_iff.mpr (Or.inl (Nat.lt_trans hxy hyz))
          · subst hyz
            exact lexLe_cons_iff.mpr (Or.inl hxy)
        · subst hxy
          rcases lexLe_cons_iff.mp hbc with hyz | ⟨hyz, hys⟩
          · exact lexLe_cons_iff.mpr (Or.inl hyz)
          · subst hyz
            exact lexLe_cons_iff.mpr (Or.inr ⟨rfl, ih ys zs hxs hys⟩)

theorem keyLe_total (a b : String) : (keyLe a b || keyLe b a) = true :=
  lexLe_total _ _

theorem keyLe_trans (a b c : String) :
    keyLe a b = true → keyLe b c = true → keyLe a c = true :=
  lexLe_trans _ _ _

theorem keyLe_refl (a : String) : keyLe a a = true := by
  rcases Bool.or_eq_true_iff.mp (keyLe_total a a) with h | h <;> exact h

end LexLemmas

section FindLemmas

variable {α : Type _} (f : α → Int)

theorem beq_int_false {a b : Int} (h : a ≠ b) : (a == b) = false := by
  cases hx : (a == b)
  · rfl
  · exact absurd (beq_iff_eq.mp hx) h

theorem find?_cons_pos {p : α → Bool} {a : α} (l : List α) (h : p a = true) :
    List.find? p (a :: l) = some a := by
  simp [List.find?, h]

theorem find?_cons_neg {p : α → Bool} {a : α} (l : List α) (h : p a = false) :
    List.find? p (a :: l) = List.find? p l := by
  simp [List.find?, h]

theorem find?_replace_self {l : List α} {ro : Int} {r' : α}
    (hmem : ∃ x ∈ l, f x = ro) (hro : f r' = ro) :
    (l.map (fun x => if f x == ro then r' else x)).find? (fun x => f x == ro) = some r' := by
  induction l with
  | nil => simp at hmem
  | cons a as ih =>
    simp only [List.map_cons]
    by_cases ha : f a = ro
    · rw [if_pos (beq_iff_eq.mpr ha)]
      exact find?_cons_pos _ (beq_iff_eq.mpr hro)
    · rw [if_neg (by rw [beq_int_false ha]; exact Bool.false_ne_true)]
      refine (find?_cons_neg _ ?_).trans ?_
      · exact beq_int_false ha
      · rcases hmem with ⟨x, hx, hfx⟩
        rcases List.mem_cons.mp hx with rfl | hx
        · exact absurd hfx ha
        · exact ih ⟨x, hx, hfx⟩

theorem find?_replace_other {l : List α} {ro o : Int} {r' : α}
    (ho : o ≠ ro) (hro : f r' = ro) :
    (l.map (fun x => if f x == ro then r' else x)).find? (fun x => f x == o)
      = l.find? (fun x => f x == o) := by
  induction l with
  | nil => rfl
  | cons a as ih =>
    simp only [List.map_cons]
    by_cases ha : f a = ro
    · rw [if_pos (beq_iff_eq.mpr ha)]
      refine ((find?_cons_neg _ ?_).trans ?_).trans (find?_cons_neg _ ?_).symm
      · exact beq_int_false (by rw [hro]; exact fun h => ho h.symm)
      · exact ih
      · exact beq_int_false (by rw [ha]; exact fun h => ho h.symm)
    · rw [if_neg (by rw [beq_int_false ha]; exact Bool.false_ne_true)]
      by_cases hao : f a = o
      · refine (find?_cons_pos _ ?_).trans (find?_cons_pos _ ?_).symm
        · exact beq_iff_eq.mpr hao
        · exact beq_iff_eq.mpr hao
      · refine ((find?_cons_neg _ ?_).trans ?_).trans (find?_cons_neg _ ?_).symm
        · exact beq_int_false hao
        · exact ih
        · exact beq_int_false hao

theorem find?_append_self {l : List α} {ro : Int} {r' : α}
    (hnone : ∀ x ∈ l, f x ≠ ro) (hro : f r' = ro) :
    (l ++ [r']).find? (fun x => f x == ro) = some r' := by
  induction l with
  | nil =>
    simp only [List.nil_append]
    exact find?_cons_pos _ (beq_iff_eq.mpr hro)
  | cons a as ih =>
    simp only [List.cons_append]
    refine (find?_cons_neg _ ?_).trans ?_
    · exact beq_int_false (hnone a (by simp))
    · exact ih (fun x hx => hnone x (by simp [hx]))

theorem find?_append_other {l : List α} {ro o : Int} {r' : α}
    (ho : o ≠ ro) (hro : f r' = ro) :
    (l ++ [r']).find? (fun x => f x == o) = l.find? (fun x => f x == o) := by
  induction l with
  | nil =>
    simp only [List.nil_append]
    refine (find?_cons_neg _ ?_).trans ?_
    · exact beq_int_false (by rw [hro]; exact fun h => ho h.symm)
    · rfl
  | cons a as ih =>
    simp only [List.cons_append]
    by_cases hao : f a = o
    · refine (find?_cons_pos _ ?_).trans (find?_cons_pos _ ?_).symm
      · exact beq_iff_eq.mpr hao
      · exact beq_iff_eq.mpr hao
    · refine ((find?_cons_neg _ ?_).trans ?_).trans (find?_cons_neg _ ?_).symm
      · exact beq_int_false hao
      · exact ih
      · exact beq_int_false hao

end FindLemmas

section PositionalLemmas

theorem prdPositional_cons {size w : Int} {a : PrdRec} {as : List PrdRec}
    (h : prdPositional size w (a :: as) = true) :
    a.off = w ∧ prdPositional size (w + size) as = true := by
  simpa [prdPositional] using h

theorem prsPositional_cons {w : Int} {a : PrsRec} {as : List PrsRec}
    (h : prsPositional w (a :: as) = true) :
    a.off = w ∧ prsPositional (w + prs_rec_size) as = true := by
  simpa [prsPositional] using h

theorem prdPositional_lb {size : Int} (hsz : 0 < size) :
    ∀ {w : Int} {l : List PrdRec}, prdPositional size w l = true →
      ∀ r ∈ l, w ≤ r.off := by
  intro w l
  induction l generalizing w with
  | nil => intro _ r hr; simp at hr
  | cons a as ih =>
    intro h r hr
    rcases prdPositional_cons h with ⟨ha', has⟩
    rcases List.mem_cons.mp hr with rfl | hr
    · omega
    · have := ih has r hr
      omega

theorem prdPositional_find? {size : Int} (hsz : 0 < size) :
    ∀ {w : Int} {l : List PrdRec}, prdPositional size w l = true →
      ∀ r ∈ l, l.find? (fun x => x.off == r.off) = some r := by
  intro w l
  induction l generalizing w with
  | nil => intro _ r hr; simp at hr
  | cons a as ih =>
    intro h r hr
    rcases prdPositional_cons h with ⟨ha', has⟩
    rcases List.mem_cons.mp hr with rfl | hr
    · exact find?_cons_pos _ (beq_iff_eq.mpr rfl)
    · have hlb := prdPositional_lb hsz has r hr
      refine (find?_cons_neg _ ?_).trans ?_
      · exact beq_int_false (by omega)
      · exact ih has r hr

theorem prdPositional_get {size : Int} :
    ∀ {w : Int} {l : List PrdRec}, prdPositional size w l = true →
      ∀ (i : Nat) (h : i < l.length), (l.get ⟨i, h⟩).off = w + (i : Int) * size := by
  intro w l
  induction l generalizing w with
  | nil => intro _ i h; simp at h
  | cons a as ih =>
    intro hp i h
    rcases prdPositional_cons hp with ⟨ha', has⟩
    cases i with
    | zero => simpa using ha'
    | succ j =>
      have := ih has j (Nat.lt_of_succ_lt_succ h)
      simp only [List.get]
      rw [this]
      push_cast
      ring

theorem prdPositional_nodup {size : Int} (hsz : 0 < size) :
    ∀ {w : Int} {l : List PrdRec}, prdPositional size w l = true →
      (l.map (fun r => r.off)).Nodup := by
  intro w l
  induction l generalizing w with
  | nil => intro _; simp
  | cons a as ih =>
    intro h
    rcases prdPositional_cons h with ⟨ha', has⟩
    refine List.nodup_cons.mpr ⟨?_, ih has⟩
    intro hmem
    rcases List.mem_map.mp hmem with ⟨r, hr, hoff⟩
    have hoff' : r.off = a.off := hoff
    have := prdPositional_lb hsz has r hr
    omega

theorem prsPositional_lb :
    ∀ {w : Int} {l : List PrsRec}, prsPositional w l = true →
      ∀ r ∈ l, w ≤ r.off := by
  intro w l
  induction l generalizing w with
  | nil => intro _ r hr; simp at hr
  | cons a as ih =>
    intro h r hr
    rcases prsPositional_cons h with ⟨ha', has⟩
    rcases List.mem_cons.mp hr with rfl | hr
    · omega
    · have := ih has r hr
      simp only [prs_rec_size] at this
      omega

theorem prsPositional_find? :
    ∀ {w : Int} {l : List PrsRec}, prsPositional w l = true →
      ∀ r ∈ l, l.find? (fun x => x.off == r.off) = some r := by
  intro w l
  induction l generalizing w with
  | nil => intro _ r hr; simp at hr
  | cons a as ih =>
    intro h r hr
    rcases prsPositional_cons h with ⟨ha', has⟩
    rcases List.mem_cons.mp hr with rfl | hr
    · exact find?_cons_pos _ (beq_iff_eq.mpr rfl)
    · have hlb := prsPositional_lb has r hr
      refine (find?_cons_neg _ ?_).trans ?_
      · refine beq_int_false ?_
        simp only [prs_rec_size] at hlb
        omega
      · exact ih has r hr

theorem prsPositional_get :
    ∀ {w : Int} {l : List PrsRec}, prsPositional w l = true →
      ∀ (i : Nat) (h : i < l.length), (l.get ⟨i, h⟩).off = w + (i : Int) * prs_rec_size := by
  intro w l
  induction l generalizing w with
  | nil => intro _ i h; simp at h
  | cons a as ih =>
    intro hp i h
    rcases prsPositional_cons hp with ⟨ha', has⟩
    cases i with
    | zero => simpa using ha'
    | succ j =>
      have := ih has j (Nat.lt_of_succ_lt_succ h)
      simp only [List.get]
      rw [this]
      push_cast
      ring

end PositionalLemmas

section StateLemmas

theorem prd_rec_size_pos (s : PSApp) : 0 < prd_rec_size s := by
  simp only [prd_rec_size]
  omega

theorem normRec_off (dl : Nat) (r : PrdRec) : (normRec dl r).off = r.off := rfl

theorem normRec_del (dl : Nat) (r : PrdRec) : (normRec dl r).del_ = r.del_ := rfl

theorem normRec_first_spec (dl : Nat) (r : PrdRec) : (normRec dl r).first_spec = r.first_spec := rfl

theorem normRec_next (dl : Nat) (r : PrdRec) : (normRec dl r).next_ = r.next_ := rfl

theorem normRec_eq_self {dl : Nat} {r : PrdRec}
    (h : fieldRoundtrip dl r.typ r.name = (r.typ, r.name)) : normRec dl r = r := by
  unfold normRec
  rw [h]

theorem prdRead_mem {s : PSApp}
    (hpos : prdPositional (prd_rec_size s) PRD_HDR_SIZE s.prd = true)
    {r : PrdRec} (hr : r ∈ s.prd) : prdRead s r.off = some r :=
  prdPositional_find? (prd_rec_size_pos s) hpos r hr

theorem prdRead_some {s : PSApp} {o : Int} {r : PrdRec} (h : prdRead s o = some r) :
    r ∈ s.prd ∧ r.off = o := by
  refine ⟨List.mem_of_find?_eq_some h, ?_⟩
  have := List.find?_some h
  simpa using this

theorem prsRead_mem {s : PSApp}
    (hpos : prsPositional PRS_HDR_SIZE s.prs = true)
    {r : PrsRec} (hr : r ∈ s.prs) : prsRead s r.off = some r :=
  prsPositional_find? hpos r hr

theorem prsRead_some {s : PSApp} {o : Int} {r : PrsRec} (h : prsRead s o = some r) :
    r ∈ s.prs ∧ r.off = o := by
  refine ⟨List.mem_of_find?_eq_some h, ?_⟩
  have := List.find?_some h
  simpa using this

theorem seqOpt_ok {β : Type _} :
    ∀ (l : List β) (g : Nat → Option β),
      (∀ i (hi : i < l.length), g i = some (l.get ⟨i, hi⟩)) →
      seqOpt ((List.range l.length).map g) = some l := by
  intro l
  induction l with
  | nil => intro g _; rfl
  | cons x rest ih =>
    intro g hg
    have hr : List.range (rest.length + 1) = 0 :: (List.range rest.length).map Nat.succ :=
      List.range_succ_eq_map rest.length
    simp only [List.length_cons, hr, List.map_cons, List.map_map]
    have h0 : g 0 = some x := hg 0 (Nat.succ_pos _)
    have hih := ih (fun i => g (i + 1)) (fun i hi => hg (i + 1) (Nat.succ_lt_succ hi))
    simp only [seqOpt, h0]
    have : (List.range rest.length).map (g ∘ Nat.succ)
        = (List.range rest.length).map (fun i => g (i + 1)) := by
      apply List.map_congr_left
      intro i _
      rfl
    rw [this, hih]
    rfl

theorem scan_prd_eq {s : PSApp}
    (hpos : prdPositional (prd_rec_size s) PRD_HDR_SIZE s.prd = true)
    (hfree : s.prd_free = PRD_HDR_SIZE + (s.prd.length : Int) * prd_rec_size s) :
    scan_prd_physical s = .ok s.prd := by
  have hn : ((s.prd_free - PRD_HDR_SIZE).toNat) / (9 + s.data_len) = s.prd.length := by
    rw [hfree]
    simp only [PRD_HDR_SIZE, prd_rec_size]
    have h1 : (28 : Int) + (s.prd.length : Int) * (9 + (s.data_len : Int)) - 28
        = ((s.prd.length * (9 + s.data_len) : Nat) : Int) := by
      push_cast
      ring
    rw [h1, Int.toNat_ofNat]
    exact Nat.mul_div_cancel _ (by omega)
  have hread : ∀ i (hi : i < s.prd.length),
      prdRead s (PRD_HDR_SIZE + (i : Int) * prd_rec_size s) = some (s.prd.get ⟨i, hi⟩) := by
    intro i hi
    have hoff := prdPositional_get hpos i hi
    rw [← hoff]
    exact prdRead_mem hpos (s.prd.get_mem _ _)
  simp only [scan_prd_physical, hn]
  rw [seqOpt_ok s.prd _ hread]

theorem scan_prs_eq {s : PSApp}
    (hpos : prsPositional PRS_HDR_SIZE s.prs = true)
    (hfree : s.prs_free = PRS_HDR_SIZE + (s.prs.length : Int) * prs_rec_size) :
    scan_prs_physical s = .ok s.prs := by
  have hn : ((s.prs_free - PRS_HDR_SIZE).toNat) / 11 = s.prs.length := by
    rw [hfree]
    simp only [PRS_HDR_SIZE, prs_rec_size]
    have h1 : (8 : Int) + (s.prs.length : Int) * 11 - 8
        = ((s.prs.length * 11 : Nat) : Int) := by
      push_cast
      ring
    rw [h1, Int.toNat_ofNat]
    exact Nat.mul_div_cancel _ (by omega)
  have hread : ∀ i (hi : i < s.prs.length),
      prsRead s (PRS_HDR_SIZE + (i : Int) * prs_rec_size) = some (s.prs.get ⟨i, hi⟩) := by
    intro i hi
    have hoff := prsPositional_get hpos i hi
    rw [← hoff]
    exact prsRead_mem hpos (s.prs.get_mem _ _)
  simp only [scan_prs_physical, hn]
  rw [seqOpt_ok s.prs _ hread]

theorem prdWrite_of_mem {s : PSApp} {r : PrdRec} (h : ∃ x ∈ s.prd, x.off = r.off) :
    prdWrite s r =
      { s with prd := s.prd.map (fun x => if x.off == r.off then normRec s.data_len r else x) } := by
  unfold prdWrite
  rw [if_pos]
  rcases h with ⟨x, hx, hoff⟩
  exact List.any_eq_true.mpr ⟨x, hx, beq_iff_eq.mpr hoff⟩

theorem prdWrite_of_notmem {s : PSApp} {r : PrdRec} (h : ∀ x ∈ s.prd, x.off ≠ r.off) :
    prdWrite s r = { s with prd := s.prd ++ [normRec s.data_len r] } := by
  unfold prdWrite
  rw [if_neg]
  intro hc
  rcases List.any_eq_true.mp hc with ⟨x, hx, hoff⟩
  exact h x hx (beq_iff_eq.mp hoff)

theorem prdRead_write_self {s : PSApp} {r : PrdRec} :
    prdRead (prdWrite s r) r.off = some (normRec s.data_len r) := by
  by_cases h : ∃ x ∈ s.prd, x.off = r.off
  · rw [prdWrite_of_mem h]
    exact find?_replace_self _ h (normRec_off _ _)
  · push_neg at h
    rw [prdWrite_of_notmem h]
    exact find?_append_self _ h (normRec_off _ _)

theorem prdRead_write_other {s : PSApp} {r : PrdRec} {o : Int} (ho : o ≠ r.off) :
    prdRead (prdWrite s r) o = prdRead s o := by
  by_cases h : ∃ x ∈ s.prd, x.off = r.off
  · rw [prdWrite_of_mem h]
    exact find?_replace_other _ ho (normRec_off _ _)
  · push_neg at h
    rw [prdWrite_of_notmem h]
    exact find?_append_other _ ho (normRec_off _ _)

theorem prdWrite_fields {s : PSApp} (r : PrdRec) :
    (prdWrite s r).data_len = s.data_len ∧
    (prdWrite s r).prd_head = s.prd_head ∧
    (prdWrite s r).prd_free = s.prd_free ∧
    (prdWrite s r).prs_head = s.prs_head ∧
    (prdWrite s r).prs_free = s.prs_free ∧
    (prdWrite s r).prs = s.prs := by
  unfold prdWrite
  split <;> exact ⟨rfl, rfl, rfl, rfl, rfl, rfl⟩

theorem prsWrite_of_mem {s : PSApp} {r : PrsRec}
    (hq : ¬ (r.qty < -32768 || 32767 < r.qty) = true)
    (h : ∃ x ∈ s.prs, x.off = r.off) :
    prsWrite s r =
      .ok { s with prs := s.prs.map (fun x => if x.off == r.off then r else x) } := by
  unfold prsWrite
  rw [if_neg hq, if_pos]
  rcases h with ⟨x, hx, hoff⟩
  exact List.any_eq_true.mpr ⟨x, hx, beq_iff_eq.mpr hoff⟩

theorem prsWrite_of_notmem {s : PSApp} {r : PrsRec}
    (hq : ¬ (r.qty < -32768 || 32767 < r.qty) = true)
    (h : ∀ x ∈ s.prs, x.off ≠ r.off) :
    prsWrite s r = .ok { s with prs := s.prs ++ [r] } := by
  unfold prsWrite
  rw [if_neg hq, if_neg]
  intro hc
  rcases List.any_eq_true.mp hc with ⟨x, hx, hoff⟩
  exact h x hx (beq_iff_eq.mp hoff)

end StateLemmas

section ChainLemmas

theorem LChain_congr {s s' : PSApp} :
    ∀ {ptr : Int} {path : List PrdRec}, LChain s ptr path →
      (∀ r ∈ path, prdRead s' r.off = prdRead s r.off) → LChain s' ptr path := by
  intro ptr path
  induction path generalizing ptr with
  | nil => intro h _; exact h
  | cons r rest ih =>
    intro h hr
    rcases h with ⟨hp, hread, hrest⟩
    subst hp
    refine ⟨rfl, ?_, ih hrest (fun x hx => hr x (by simp [hx]))⟩
    rw [hr r (by simp)]
    exact hread

theorem LChain_mem {s : PSApp} :
    ∀ {ptr : Int} {path : List PrdRec}, LChain s ptr path →
      ∀ r ∈ path, r ∈ s.prd := by
  intro ptr path
  induction path generalizing ptr with
  | nil => intro _ r hr; simp at hr
  | cons x rest ih =>
    intro h r hr
    rcases h with ⟨hp, hread, hrest⟩
    rcases List.mem_cons.mp hr with rfl | hr
    · exact (prdRead_some hread).1
    · exact ih hrest r hr

theorem iter_ok_chain {s : PSApp} :
    ∀ {F : Nat} {ptr : Int} {seen : List Int} {l : List PrdRec},
      iterLogicalAux s F ptr seen = .ok l →
      ∃ path, LChain s ptr path ∧ l = path.filter (fun r => r.del_ == 0) ∧
        (∀ o ∈ path.map (fun r => r.off), o ∉ seen) ∧
        (path.map (fun r => r.off)).Nodup := by
  intro F
  induction F with
  | zero => intro ptr seen l h; simp [iterLogicalAux] at h
  | succ F ih =>
    intro ptr seen l h
    by_cases hptr : ptr = -1
    · refine ⟨[], hptr, ?_, by simp, by simp⟩
      simp only [iterLogicalAux, hptr] at h
      simpa using (Except.ok.inj h).symm
    · have hb : (ptr == -1) = false := beq_int_false hptr
      simp only [iterLogicalAux, hb, Bool.false_eq_true, if_false] at h
      by_cases hseen : ptr ∈ seen
      · rw [if_pos (by simpa using hseen)] at h
        cases h
      · rw [if_neg (by simpa using hseen)] at h
        cases hread : prdRead s ptr with
        | none => simp only [hread] at h; cases h
        | some r =>
          simp only [hread] at h
          cases hrec : iterLogicalAux s F r.next_ (ptr :: seen) with
          | error e => simp only [hrec] at h; cases h
          | ok rest =>
            simp only [hrec] at h
            rcases ih hrec with ⟨path, hch, hfil, hdisj, hnd⟩
            have hoff : r.off = ptr := (prdRead_some hread).2
            refine ⟨r :: path, ?_, ?_, ?_, ?_⟩
            · exact ⟨hoff.symm, hread, hch⟩
            · split at h
              · rename_i hdel
                have hdel' : r.del_ = 0 := by simpa using hdel
                have hl : r :: rest = l := Except.ok.inj h
                rw [← hl, hfil]
                simp [List.filter, beq_iff_eq.mpr hdel']
              · rename_i hdel
                have hdel' : ¬ r.del_ = 0 := by simpa using hdel
                have hl : rest = l := Except.ok.inj h
                rw [← hl, hfil]
                simp [List.filter, beq_int_false hdel']
            · intro o ho
              simp only [List.map_cons, List.mem_cons] at ho
              rcases ho with rfl | ho'
              · rw [hoff]
                exact hseen
              · have := hdisj o ho'
                intro hc
                exact this (List.mem_cons_of_mem _ hc)
            · simp only [List.map_cons]
              refine List.nodup_cons.mpr ⟨?_, hnd⟩
              intro hc
              have := hdisj r.off hc
              rw [hoff] at this
              exact this (List.mem_cons_self _ _)

theorem iter_of_chain {s : PSApp} :
    ∀ {path : List PrdRec} {F : Nat} {ptr : Int} {seen : List Int},
      LChain s ptr path →
      (∀ o ∈ path.map (fun r => r.off), o ∉ seen) →
      (path.map (fun r => r.off)).Nodup →
      (∀ x ∈ path, x.off ≠ -1) →
      path.length < F →
      iterLogicalAux s F ptr seen = .ok (path.filter (fun r => r.del_ == 0)) := by
  intro path
  induction path with
  | nil =>
    intro F ptr seen hch _ _ _ hF
    cases F with
    | zero => omega
    | succ F =>
      have : ptr = -1 := hch
      simp [iterLogicalAux, this]
  | cons r rest ih =>
    intro F ptr seen hch hdisj hnd hne hF
    cases F with
    | zero => omega
    | succ F =>
      rcases hch with ⟨hp, hread, hrest⟩
      subst hp
      have hb : (r.off == -1) = false := beq_int_false (hne r (by simp))
      have hmem : r.off ∉ seen := hdisj r.off (by simp)
      have hnd' : r.off ∉ rest.map (fun x => x.off) ∧ (rest.map (fun x => x.off)).Nodup := by
        simp only [List.map_cons] at hnd
        exact List.nodup_cons.mp hnd
      have hih := ih hrest
        (fun o ho => by
          intro hc
          rcases List.mem_cons.mp hc with rfl | hcs
          · exact hnd'.1 ho
          · exact hdisj o (List.mem_cons_of_mem _ ho) hcs)
        hnd'.2
        (fun x hx => hne x (List.mem_cons_of_mem _ hx))
        (Nat.lt_of_succ_lt_succ hF)
      have hmem' : seen.contains r.off = false := by
        cases hc : seen.contains r.off
        · rfl
        · exact absurd (List.mem_of_elem_eq_true hc) hmem
      simp only [iterLogicalAux, hb, Bool.false_eq_true, if_false, hread, hih]
      rw [if_neg (by simpa using hmem)]
      by_cases hdel : r.del_ = 0
      · rw [if_pos (by simpa using hdel)]
        simp [List.filter, beq_iff_eq.mpr hdel]
      · rw [if_neg (by simpa using hdel)]
        simp [List.filter, beq_int_false hdel]

theorem prdPositional_ub {size : Int} (hsz : 0 < size) :
    ∀ {w : Int} {l : List PrdRec}, prdPositional size w l = true →
      ∀ r ∈ l, r.off < w + (l.length : Int) * size := by
  intro w l
  induction l generalizing w with
  | nil => intro _ r hr; simp at hr
  | cons a as ih =>
    intro h r hr
    rcases prdPositional_cons h with ⟨ha', has⟩
    rcases List.mem_cons.mp hr with rfl | hr
    · have : (0 : Int) ≤ (as.length : Int) * size := by positivity
      simp only [List.length_cons]
      push_cast
      nlinarith
    · have := ih has r hr
      simp only [List.length_cons]
      push_cast
      push_cast at this
      nlinarith

theorem prsPositional_ub :
    ∀ {w : Int} {l : List PrsRec}, prsPositional w l = true →
      ∀ r ∈ l, r.off < w + (l.length : Int) * prs_rec_size := by
  intro w l
  induction l generalizing w with
  | nil => intro _ r hr; simp at hr
  | cons a as ih =>
    intro h r hr
    rcases prsPositional_cons h with ⟨ha', has⟩
    rcases List.mem_cons.mp hr with rfl | hr
    · have : (0 : Int) ≤ (as.length : Int) * prs_rec_size := by
        simp only [prs_rec_size]
        positivity
      simp only [List.length_cons, prs_rec_size] at *
      push_cast
      nlinarith
    · have := ih has r hr
      simp only [List.length_cons, prs_rec_size] at *
      push_cast
      nlinarith

theorem walkPrev_cases (prev : Int) :
    ∀ l : List PrdRec, walkPrev prev l = prev ∨ ∃ r ∈ l, walkPrev prev l = r.off := by
  intro l
  induction l generalizing prev with
  | nil => exact Or.inl rfl
  | cons r rest ih =>
    rcases ih r.off with h | ⟨x, hx, hoff⟩
    · exact Or.inr ⟨r, by simp, h⟩
    · exact Or.inr ⟨x, by simp [hx], hoff⟩

theorem LChain_length_le {s : PSApp} {ptr : Int} {path : List PrdRec}
    (h : LChain s ptr path) (hnd : (path.map (fun r => r.off)).Nodup) :
    path.length ≤ s.prd.length := by
  have hsub : path.map (fun r => r.off) ⊆ s.prd.map (fun r => r.off) := by
    intro o ho
    rcases List.mem_map.mp ho with ⟨r, hr, hoff⟩
    exact List.mem_map.mpr ⟨r, LChain_mem h r hr, hoff⟩
  have := (hnd.subperm hsub).length_le
  simpa using this

theorem insertWalk_split {s : PSApp} {key : String} :
    ∀ {path : List PrdRec} {F : Nat} {prev ptr : Int},
      LChain s ptr path →
      (∀ x ∈ path, x.off ≠ -1) →
      path.length < F →
      insertWalk s key F prev ptr =
        .ok (walkPrev prev (path.takeWhile (fun r => !(keyLt key r.name))),
             headOffOr (-1) (path.dropWhile (fun r => !(keyLt key r.name)))) := by
  intro path
  induction path with
  | nil =>
    intro F prev ptr hch _ hF
    cases F with
    | zero => omega
    | succ F =>
      have : ptr = -1 := hch
      simp [insertWalk, this, walkPrev, headOffOr]
  | cons r rest ih =>
    intro F prev ptr hch hne hF
    cases F with
    | zero => omega
    | succ F =>
      rcases hch with ⟨hp, hread, hrest⟩
      subst hp
      have hb : (r.off == -1) = false := beq_int_false (hne r (by simp))
      simp only [insertWalk, hb, Bool.false_eq_true, if_false, hread]
      by_cases hlt : keyLt key r.name = true
      · simp only [hlt, if_true]
        have ht : List.takeWhile (fun x => !keyLt key x.name) (r :: rest) = [] := by
          simp [List.takeWhile, hlt]
        have hd : List.dropWhile (fun x => !keyLt key x.name) (r :: rest) = r :: rest := by
          simp [List.dropWhile, hlt]
        rw [ht, hd]
        rfl
      · have hlt' : keyLt key r.name = false := by
          cases hc : keyLt key r.name
          · rfl
          · exact absurd hc hlt
        rw [if_neg (by rw [hlt']; exact Bool.false_ne_true)]
        have hihx := @ih F r.off r.next_ hrest (fun x hx => hne x (List.mem_cons_of_mem _ hx))
          (Nat.lt_of_succ_lt_succ hF)
        rw [hihx]
        simp [List.takeWhile, List.dropWhile, hlt', walkPrev]

end ChainLemmas

section StripLemmas

theorem dropWhile_cons_false {p : Char → Bool} :
    ∀ {l : List Char} {x : Char} {xs : List Char},
      l.dropWhile p = x :: xs → p x = false := by
  intro l
  induction l with
  | nil => intro x xs h; cases h
  | cons a as ih =>
    intro x xs h
    by_cases hp : p a = true
    · rw [List.dropWhile_cons_of_pos hp] at h
      exact ih h
    · have hp' : p a = false := by
        cases hc : p a
        · rfl
        · exact absurd hc hp
      rw [List.dropWhile_cons_of_neg (by simp [hp'])] at h
      cases h
      exact hp'

theorem dropWhile_idem (p : Char → Bool) (l : List Char) :
    (l.dropWhile p).dropWhile p = l.dropWhile p := by
  cases hd : l.dropWhile p with
  | nil => rfl
  | cons x xs =>
    have := dropWhile_cons_false hd
    rw [List.dropWhile_cons_of_neg (by simp [this])]

theorem prefix_dropWhile_eq {p : Char → Bool} {A B : List Char}
    (hpre : B <+: A) (hA : A.dropWhile p = A) : B.dropWhile p = B := by
  cases B with
  | nil => rfl
  | cons x xs =>
    rcases hpre with ⟨t, ht⟩
    have hx : p x = false := by
      by_cases hp : p x = true
      · rw [← ht] at hA
        rw [List.cons_append, List.dropWhile_cons_of_pos hp] at hA
        have h1 : (List.dropWhile p (xs ++ t)).length ≤ (xs ++ t).length :=
          (List.dropWhile_suffix p).length_le
        rw [hA] at h1
        simp at h1
      · cases hc : p x
        · rfl
        · exact absurd hc hp
    rw [List.dropWhile_cons_of_neg (by simp [hx])]

theorem stripStr_idem (x : String) : stripStr (stripStr x) = stripStr x := by
  unfold stripStr
  cases x with
  | mk l =>
    simp only
    congr 1
    set p := pySpace with hp
    set A := l.dropWhile p with hA
    set E := A.reverse.dropWhile p with hE
    have h1 : A.dropWhile p = A := dropWhile_idem p l
    have h2 : E.dropWhile p = E := dropWhile_idem p A.reverse
    have h3 : E.reverse <+: A := by
      have hsuf : E <:+ A.reverse := List.dropWhile_suffix p
      have h := hsuf.reverse
      rwa [List.reverse_reverse] at h
    have h4 : E.reverse.dropWhile p = E.reverse := prefix_dropWhile_eq h3 h1
    rw [h4]
    simp only [List.reverse_reverse]
    rw [h2]

theorem eqPy_norm_right (a b : String) : eqPy a (norm b) = eqPy a b := by
  unfold eqPy norm
  rw [stripStr_idem]

theorem find_any_norm (s : PSApp) (n : String) : find_any s (norm n) = find_any s n := by
  unfold find_any
  have : (fun (r : PrdRec) => eqPy r.name (norm (norm n)))
      = (fun (r : PrdRec) => eqPy r.name (norm n)) := by
    funext r
    exact eqPy_norm_right r.name (norm n)
  rw [this]

theorem find_active_norm (s : PSApp) (n : String) :
    find_active s (norm n) = find_active s n := by
  unfold find_active
  have : (fun (r : PrdRec) => r.del_ == 0 && eqPy r.name (norm (norm n)))
      = (fun (r : PrdRec) => r.del_ == 0 && eqPy r.name (norm n)) := by
    funext r
    rw [eqPy_norm_right r.name (norm n)]
  rw [this]

end StripLemmas

section RoundtripLemmas

theorem toLower_toLower (c : Char) : c.toLower.toLower = c.toLower := by
  simp only [Char.toLower]
  by_cases h : c.toNat ≥ 65 ∧ c.toNat ≤ 90
  · rw [if_pos h]
    have hval : (c.toNat + 32).isValidChar := Or.inl (by omega)
    have htn : (Char.ofNat (c.toNat + 32)).toNat = c.toNat + 32 := by
      simp only [Char.ofNat]
      rw [dif_pos hval]
      rfl
    rw [if_neg (by rw [htn]; omega)]
  · rw [if_neg h, if_neg h]

theorem lowerStr_idem (a : String) : lowerStr (lowerStr a) = lowerStr a := by
  cases a with
  | mk l =>
    show String.mk ((l.map Char.toLower).map Char.toLower) = String.mk (l.map Char.toLower)
    congr 1
    rw [List.map_map]
    refine List.map_congr_left ?_
    intro c _
    exact toLower_toLower c

theorem keyLe_lowerL (a b : String) : keyLe (lowerStr a) b = keyLe a b := by
  unfold keyLe
  rw [lowerStr_idem]

theorem keyLe_lowerR (a b : String) : keyLe a (lowerStr b) = keyLe a b := by
  unfold keyLe
  rw [lowerStr_idem]

theorem keyLt_lowerL (a b : String) : keyLt (lowerStr a) b = keyLt a b := by
  unfold keyLt
  rw [keyLe_lowerL, keyLe_lowerR]

theorem keyLe_of_keyLt {a b : String} (h : keyLt a b = true) : keyLe a b = true :=
  (Bool.and_eq_true_iff.mp h).1

theorem keyLe_of_not_keyLt {a b : String} (h : keyLt a b = false) : keyLe b a = true := by
  cases hba : keyLe b a
  · have htot := keyLe_total a b
    rw [hba] at htot
    simp only [Bool.or_false] at htot
    unfold keyLt at h
    rw [htot, hba] at h
    simp at h
  · rfl

theorem dropWhile_sub {q P : Char → Bool} (himp : ∀ c, q c = true → P c = true) :
    ∀ l : List Char, (l.dropWhile P).dropWhile q = l.dropWhile P := by
  intro l
  induction l with
  | nil => rfl
  | cons a as ih =>
    by_cases hP : P a = true
    · rw [List.dropWhile_cons_of_pos hP]
      exact ih
    · rw [List.dropWhile_cons_of_neg hP]
      have hq : q a = false := by
        cases hc : q a
        · rfl
        · exact absurd (himp a hc) hP
      rw [List.dropWhile_cons_of_neg (by rw [hq]; exact Bool.false_ne_true)]

theorem rstrip_cons2 (c : Char) (X : List Char) :
    rstripSpaces ⟨c :: ':' :: X⟩ = ⟨c :: ':' :: (rstripSpaces ⟨X⟩).data⟩ := by
  show String.mk (((c :: ':' :: X).reverse.dropWhile (· == ' ')).reverse)
      = String.mk (c :: ':' :: (X.reverse.dropWhile (· == ' ')).reverse)
  congr 1
  rw [show (c :: ':' :: X).reverse = X.reverse ++ [':', c] from by simp]
  rw [List.dropWhile_append]
  by_cases he : ((X.reverse.dropWhile (· == ' ')).isEmpty) = true
  · rw [if_pos he]
    have hXe : X.reverse.dropWhile (· == ' ') = [] := by
      cases hcc : X.reverse.dropWhile (· == ' ')
      · rfl
      · rw [hcc] at he
        cases he
    rw [hXe]
    rfl
  · rw [if_neg he]
    simp

theorem rstrip_strip (x : String) : rstripSpaces (stripStr x) = stripStr x := by
  cases x with
  | mk l =>
    show String.mk (((((l.dropWhile pySpace).reverse.dropWhile pySpace).reverse).reverse.dropWhile
        (· == ' ')).reverse)
      = String.mk (((l.dropWhile pySpace).reverse.dropWhile pySpace).reverse)
    congr 1
    rw [List.reverse_reverse]
    rw [dropWhile_sub (fun c hc => by simp [pySpace, hc]) ((l.dropWhile pySpace).reverse)]

theorem mem_stripStr {c : Char} {x : String} (h : c ∈ (stripStr x).data) : c ∈ x.data := by
  unfold stripStr at h
  simp only at h
  rw [List.mem_reverse] at h
  have h1 := (List.dropWhile_suffix pySpace).subset h
  rw [List.mem_reverse] at h1
  exact (List.dropWhile_suffix pySpace).subset h1

theorem length_stripStr (x : String) : (stripStr x).data.length ≤ x.data.length := by
  unfold stripStr
  simp only
  rw [List.length_reverse]
  calc ((x.data.dropWhile pySpace).reverse.dropWhile pySpace).length
      ≤ (x.data.dropWhile pySpace).reverse.length := (List.dropWhile_suffix pySpace).length_le
    _ = (x.data.dropWhile pySpace).length := List.length_reverse _
    _ ≤ x.data.length := (List.dropWhile_suffix pySpace).length_le

theorem mem_rstrip {c : Char} {x : String} (h : c ∈ (rstripSpaces x).data) : c ∈ x.data := by
  unfold rstripSpaces at h
  simp only at h
  rw [List.mem_reverse] at h
  have h1 := (List.dropWhile_suffix (· == ' ')).subset h
  rwa [List.mem_reverse] at h1

theorem length_rstrip (x : String) : (rstripSpaces x).data.length ≤ x.data.length := by
  unfold rstripSpaces
  simp only
  rw [List.length_reverse]
  calc (x.data.reverse.dropWhile (· == ' ')).length
      ≤ x.data.reverse.length := (List.dropWhile_suffix (· == ' ')).length_le
    _ = x.data.length := List.length_reverse _

theorem asciiOnly_eq_self {x : String} (h : ∀ c ∈ x.data, c.toNat < 128) : asciiOnly x = x := by
  cases x with
  | mk l =>
    show String.mk (l.filter (fun c => decide (c.toNat < 128))) = String.mk l
    congr 1
    refine List.filter_eq_self.mpr ?_
    intro c hc
    exact decide_eq_true (h c hc)

theorem takeStr_of_le {n : Nat} {x : String} (h : x.data.length ≤ n) : takeStr n x = x := by
  cases x with
  | mk l =>
    show String.mk (l.take n) = String.mk l
    congr 1
    exact List.take_all_of_le h

theorem encodeRaw_single {dl : Nat} (hdl : 2 ≤ dl) {c : Char} (hc : c.toNat < 128)
    (name : String) :
    encodeRaw dl ⟨[c]⟩ name
      = ⟨c :: ':' ::
          (rstripSpaces
            ⟨(name.data.filter (fun ch => decide (ch.toNat < 128))).take (dl - 2)⟩).data⟩ := by
  obtain ⟨d, rfl⟩ : ∃ d, dl = d + 2 := ⟨dl - 2, by omega⟩
  cases name with
  | mk ln =>
    show rstripSpaces ⟨((c :: ':' :: ln).filter (fun ch => decide (ch.toNat < 128))).take (d + 2)⟩
        = ⟨c :: ':' ::
            (rstripSpaces ⟨(ln.filter (fun ch => decide (ch.toNat < 128))).take (d + 2 - 2)⟩).data⟩
    have hfc : (c :: ':' :: ln).filter (fun ch => decide (ch.toNat < 128))
        = c :: ':' :: ln.filter (fun ch => decide (ch.toNat < 128)) := by
      rw [List.filter_cons, if_pos (decide_eq_true hc), List.filter_cons, if_pos (by decide)]
    rw [hfc]
    rw [show ((c :: ':' :: ln.filter (fun ch => decide (ch.toNat < 128))).take (d + 2))
        = c :: ':' :: (ln.filter (fun ch => decide (ch.toNat < 128))).take d from rfl]
    rw [rstrip_cons2]
    rw [show d + 2 - 2 = d from by omega]

theorem decodeField_cons2 (c : Char) (T : List Char) :
    decodeField ⟨c :: ':' :: T⟩ = (⟨[c]⟩, stripStr ⟨T⟩) := by
  unfold decodeField
  rw [if_pos]
  · rfl
  · refine Bool.and_eq_true_iff.mpr ⟨?_, ?_⟩
    · exact decide_eq_true (by simp only [List.length_cons]; omega)
    · rfl

theorem fieldRoundtrip_fixed {dl : Nat} (hdl : 2 ≤ dl) {c : Char} (hc : c.toNat < 128)
    (name : String) :
    fieldRoundtrip dl (fieldRoundtrip dl ⟨[c]⟩ name).1 (fieldRoundtrip dl ⟨[c]⟩ name).2
      = fieldRoundtrip dl ⟨[c]⟩ name := by
  have henc := encodeRaw_single hdl hc name
  have hfr : fieldRoundtrip dl ⟨[c]⟩ name
      = (⟨[c]⟩, stripStr ⟨(rstripSpaces
          ⟨(name.data.filter (fun ch => decide (ch.toNat < 128))).take (dl - 2)⟩).data⟩) := by
    unfold fieldRoundtrip
    rw [henc]
    exact decodeField_cons2 c _
  rw [hfr]
  have hNascii : ∀ ch ∈ (stripStr ⟨(rstripSpaces
      ⟨(name.data.filter (fun ch => decide (ch.toNat < 128))).take (dl - 2)⟩).data⟩).data,
      ch.toNat < 128 := by
    intro ch hch
    have h1 := mem_stripStr hch
    have h2 := mem_rstrip (x := ⟨(name.data.filter
      (fun ch => decide (ch.toNat < 128))).take (dl - 2)⟩) h1
    have h3 := List.take_subset _ _ h2
    exact of_decide_eq_true (List.mem_filter.mp h3).2
  have hNlen : (stripStr ⟨(rstripSpaces
      ⟨(name.data.filter (fun ch => decide (ch.toNat < 128))).take (dl - 2)⟩).data⟩).data.length
      ≤ dl - 2 := by
    calc _ ≤ (rstripSpaces
          ⟨(name.data.filter (fun ch => decide (ch.toNat < 128))).take (dl - 2)⟩).data.length :=
        length_stripStr _
      _ ≤ ((name.data.filter (fun ch => decide (ch.toNat < 128))).take (dl - 2)).length :=
        length_rstrip _
      _ ≤ dl - 2 := List.length_take_le _ _
  set N : String := stripStr ⟨(rstripSpaces
      ⟨(name.data.filter (fun ch => decide (ch.toNat < 128))).take (dl - 2)⟩).data⟩ with hN
  have hdataN : ((⟨[c]⟩ : String) ++ ":" ++ N).data = c :: ':' :: N.data := rfl
  have henc2 : encodeRaw dl ⟨[c]⟩ N = ⟨c :: ':' :: N.data⟩ := by
    unfold encodeRaw
    rw [asciiOnly_eq_self (by
      intro ch hch
      rw [hdataN] at hch
      rcases List.mem_cons.mp hch with rfl | hch
      · exact hc
      · rcases List.mem_cons.mp hch with rfl | hch
        · decide
        · exact hNascii ch hch)]
    rw [takeStr_of_le (by
      rw [hdataN]
      simp only [List.length_cons]
      omega)]
    rw [show ((⟨[c]⟩ : String) ++ ":" ++ N) = (⟨c :: ':' :: N.data⟩ : String) from rfl]
    rw [rstrip_cons2]
    rw [show (⟨N.data⟩ : String) = N from rfl]
    rw [show rstripSpaces N = N from by rw [hN]; exact rstrip_strip _]
  show fieldRoundtrip dl ⟨[c]⟩ N = (⟨[c]⟩, N)
  unfold fieldRoundtrip
  rw [henc2, decodeField_cons2]
  rw [show (⟨N.data⟩ : String) = N from rfl]
  rw [show stripStr N = N from by rw [hN]; exact stripStr_idem _]

theorem typ_single {typ : String}
    (h : (typ.data.length == 1 && typ.data.all (fun c => decide (c.toNat < 128))) = true) :
    ∃ c : Char, typ = ⟨[c]⟩ ∧ c.toNat < 128 := by
  rcases Bool.and_eq_true_iff.mp h with ⟨h1, h2⟩
  have hl : typ.data.length = 1 := by simpa using h1
  rcases List.length_eq_one.mp hl with ⟨c, hc⟩
  refine ⟨c, ?_, ?_⟩
  · cases typ with
    | mk l =>
      show String.mk l = String.mk [c]
      rw [show l = [c] from hc]
  · have := List.all_eq_true.mp h2 c (by rw [hc]; exact List.mem_singleton.mpr rfl)
    exact of_decide_eq_true this

end RoundtripLemmas

section WFLemmas

variable {s : PSApp}

theorem WF_dl (h : WF s) : 4 ≤ s.data_len := h.1

theorem WF_prdPos (h : WF s) :
    prdPositional (prd_rec_size s) PRD_HDR_SIZE s.prd = true := h.2.1

theorem WF_prdFree (h : WF s) :
    s.prd_free = PRD_HDR_SIZE + (s.prd.length : Int) * prd_rec_size s := h.2.2.1

theorem WF_prsPos (h : WF s) : prsPositional PRS_HDR_SIZE s.prs = true := h.2.2.2.1

theorem WF_prsFree (h : WF s) :
    s.prs_free = PRS_HDR_SIZE + (s.prs.length : Int) * prs_rec_size := h.2.2.2.2.1

theorem WF_normFix (h : WF s) :
    ∀ r ∈ s.prd, fieldRoundtrip s.data_len r.typ r.name = (r.typ, r.name) := h.2.2.2.2.2.1

theorem WF_names (h : WF s) :
    (s.prd.map (fun r => lowerStr (stripStr r.name))).Nodup := h.2.2.2.2.2.2.1

theorem WF_iter (h : WF s) : iter_prd_logical s = .ok (sortedActive s) :=
  h.2.2.2.2.2.2.2.1

theorem WF_chains (h : WF s) :
    ∀ r ∈ s.prd, exceptOk (prsChain s (s.prs.length + 1) r.first_spec) = true :=
  h.2.2.2.2.2.2.2.2.1

theorem WF_comp (h : WF s) : ∀ p ∈ s.prs, (prdRead s p.comp_off).isSome = true :=
  h.2.2.2.2.2.2.2.2.2.1

theorem WF_qty (h : WF s) : ∀ p ∈ s.prs, -32768 ≤ p.qty ∧ p.qty ≤ 32767 :=
  h.2.2.2.2.2.2.2.2.2.2

theorem WF_scan_prd (h : WF s) : scan_prd_physical s = .ok s.prd :=
  scan_prd_eq (WF_prdPos h) (WF_prdFree h)

theorem WF_scan_prs (h : WF s) : scan_prs_physical s = .ok s.prs :=
  scan_prs_eq (WF_prsPos h) (WF_prsFree h)

theorem WF_off_lt_free (h : WF s) : ∀ x ∈ s.prd, x.off < s.prd_free := by
  intro x hx
  have := prdPositional_ub (prd_rec_size_pos s) (WF_prdPos h) x hx
  rw [WF_prdFree h]
  exact this

theorem WF_off_ge (h : WF s) : ∀ x ∈ s.prd, PRD_HDR_SIZE ≤ x.off :=
  prdPositional_lb (prd_rec_size_pos s) (WF_prdPos h)

theorem WF_off_ne_neg1 (h : WF s) : ∀ x ∈ s.prd, x.off ≠ -1 := by
  intro x hx hc
  have := WF_off_ge h x hx
  rw [hc] at this
  simp [PRD_HDR_SIZE] at this

theorem WF_soff_lt_free (h : WF s) : ∀ x ∈ s.prs, x.off < s.prs_free := by
  intro x hx
  have := prsPositional_ub (WF_prsPos h) x hx
  rw [WF_prsFree h]
  exact this

theorem WF_soff_ge (h : WF s) : ∀ x ∈ s.prs, PRS_HDR_SIZE ≤ x.off :=
  prsPositional_lb (WF_prsPos h)

theorem WF_find_any (h : WF s) (n : String) :
    find_any s n = .ok (s.prd.find? (fun r => eqPy r.name (norm n))) := by
  unfold find_any
  rw [WF_scan_prd h]

theorem WF_find_active (h : WF s) (n : String) :
    find_active s n = .ok (s.prd.find? (fun r => r.del_ == 0 && eqPy r.name (norm n))) := by
  unfold find_active
  rw [WF_scan_prd h]

end WFLemmas

section InsertLemmas

theorem LChain_read {s : PSApp} :
    ∀ {ptr : Int} {path : List PrdRec}, LChain s ptr path →
      ∀ r ∈ path, prdRead s r.off = some r := by
  intro ptr path
  induction path generalizing ptr with
  | nil => intro _ r hr; simp at hr
  | cons x rest ih =>
    intro h r hr
    rcases h with ⟨hp, hread, hrest⟩
    rcases List.mem_cons.mp hr with rfl | hr
    · rw [hp] at hread
      exact hread
    · exact ih hrest r hr

theorem prdWrite_length_of_mem {s : PSApp} {r : PrdRec}
    (h : ∃ x ∈ s.prd, x.off = r.off) :
    (prdWrite s r).prd.length = s.prd.length := by
  rw [prdWrite_of_mem h]
  simp

theorem insert_sorted_ok {s1 : PSApp} {new_off : Int} {path : List PrdRec}
    (hread : (prdRead s1 new_off).isSome = true)
    (hch : LChain s1 s1.prd_head path)
    (hnd : (path.map (fun r => r.off)).Nodup)
    (hne : ∀ x ∈ path, x.off ≠ -1)
    (hlen : path.length < s1.prd.length + 1) :
    ∃ s2, insert_sorted s1 new_off = .ok s2 ∧ s2.prd.length = s1.prd.length ∧
      s2.data_len = s1.data_len ∧ s2.prd_free = s1.prd_free ∧ s2.prs = s1.prs ∧
      s2.prs_free = s1.prs_free ∧ s2.prs_head = s1.prs_head := by
  cases hr : prdRead s1 new_off with
  | none => rw [hr] at hread; cases hread
  | some n0 =>
    have hn0 : n0 ∈ s1.prd ∧ n0.off = new_off := prdRead_some hr
    have hmemw : ∀ (z : PrdRec), z.off = new_off →
        ∃ x ∈ s1.prd, x.off = z.off := fun z hz => ⟨n0, hn0.1, by rw [hz, hn0.2]⟩
    simp only [insert_sorted, hr]
    by_cases hh : s1.prd_head = -1
    · rw [if_pos (beq_iff_eq.mpr hh)]
      refine ⟨_, rfl, ?_⟩
      rw [@prdWrite_of_mem s1 { n0 with next_ := -1 } (hmemw _ hn0.2)]
      simp
    · rw [if_neg (by rw [beq_int_false hh]; exact Bool.false_ne_true)]
      rw [insertWalk_split hch hne hlen]
      simp only []
      set cOff := headOffOr (-1)
        (path.dropWhile (fun r => !(keyLt (lowerStr n0.name) r.name))) with hco
      set p1 := path.takeWhile (fun r => !(keyLt (lowerStr n0.name) r.name)) with hp1
      set pOff := walkPrev (-1) p1 with hpo
      by_cases hp : pOff = -1
      · rw [hp]
        rw [if_pos (beq_iff_eq.mpr rfl)]
        refine ⟨_, rfl, ?_⟩
        rw [@prdWrite_of_mem s1 { n0 with next_ := cOff } (hmemw _ hn0.2)]
        simp
      · rw [if_neg (by rw [beq_int_false hp]; exact Bool.false_ne_true)]
        rcases walkPrev_cases (-1) p1 with hcase | ⟨x, hx, hoff⟩
        · exact absurd (hpo.trans hcase) hp
        · have hxpath : x ∈ path := (List.takeWhile_prefix _).subset hx
          have hxoff : pOff = x.off := hpo.trans hoff
          by_cases hxn : x.off = new_off
          · have hprev : prdRead (prdWrite s1 { n0 with next_ := cOff }) pOff
                = some (normRec s1.data_len { n0 with next_ := cOff }) := by
              rw [hxoff, hxn, ← hn0.2]
              exact prdRead_write_self
            rw [hprev]
            refine ⟨_, rfl, ?_⟩
            have hmem2 : ∃ y ∈ (prdWrite s1 { n0 with next_ := cOff }).prd,
                y.off = PrdRec.off { normRec s1.data_len { n0 with next_ := cOff } with
                  next_ := new_off } :=
              ⟨_, (prdRead_some hprev).1, rfl⟩
            rw [@prdWrite_of_mem (prdWrite s1 { n0 with next_ := cOff })
                  { normRec s1.data_len { n0 with next_ := cOff } with next_ := new_off } hmem2,
                @prdWrite_of_mem s1 { n0 with next_ := cOff } (hmemw _ hn0.2)]
            simp
          · have hprev : prdRead (prdWrite s1 { n0 with next_ := cOff }) pOff = some x := by
              rw [hxoff]
              rw [prdRead_write_other (by show x.off ≠ n0.off; rw [hn0.2]; exact hxn)]
              exact LChain_read hch x hxpath
            rw [hprev]
            refine ⟨_, rfl, ?_⟩
            have hmem2 : ∃ y ∈ (prdWrite s1 { n0 with next_ := cOff }).prd,
                y.off = PrdRec.off { x with next_ := new_off } :=
              ⟨x, (prdRead_some hprev).1, rfl⟩
            rw [@prdWrite_of_mem (prdWrite s1 { n0 with next_ := cOff })
                  { x with next_ := new_off } hmem2,
                @prdWrite_of_mem s1 { n0 with next_ := cOff } (hmemw _ hn0.2)]
            simp

theorem add_component_ok {s : PSApp} (h : WF s) (name0 typ : String)
    (hname : norm name0 ≠ "")
    (hdup : find_any s name0 = .ok none) :
    ∃ s', add_component s name0 typ = .ok s' ∧ s'.prd.length = s.prd.length + 1 := by
  have hbe : ¬ ((norm name0 == "") = true) := by
    intro hc
    exact hname (beq_iff_eq.mp hc)
  simp only [add_component]
  rw [if_neg hbe, find_any_norm, hdup]
  simp only []
  set rec0 : PrdRec :=
    { off := s.prd_free, del_ := 0, first_spec := -1, next_ := -1,
      typ := typ, name := norm name0 } with hrec0
  have hnotmem : ∀ x ∈ s.prd, x.off ≠ rec0.off := by
    intro x hx hc
    have := WF_off_lt_free h x hx
    rw [hc] at this
    exact absurd this (by simp)
  have hlen1 : (prdWrite s rec0).prd.length = s.prd.length + 1 := by
    rw [prdWrite_of_notmem hnotmem]
    simp
  rcases iter_ok_chain (WF_iter h) with ⟨path, hch, _, _, hnd⟩
  have hchain1 : LChain (prdWrite s rec0) (prdWrite s rec0).prd_head path := by
    have hhead : (prdWrite s rec0).prd_head = s.prd_head := (prdWrite_fields rec0).2.1
    rw [hhead]
    refine LChain_congr hch ?_
    intro r hr
    refine prdRead_write_other ?_
    exact hnotmem r (LChain_mem hch r hr)
  have hne : ∀ x ∈ path, x.off ≠ -1 := fun x hx =>
    WF_off_ne_neg1 h x (LChain_mem hch x hx)
  have hlenp : path.length < (prdWrite s rec0).prd.length + 1 := by
    have := LChain_length_le hch hnd
    omega
  have hrd : (prdRead (prdWrite s rec0) s.prd_free).isSome = true := by
    have : prdRead (prdWrite s rec0) rec0.off = some (normRec s.data_len rec0) :=
      prdRead_write_self
    rw [show rec0.off = s.prd_free from rfl] at this
    rw [this]
    rfl
  rcases insert_sorted_ok hrd hchain1 hnd hne hlenp with ⟨s2, hins, hlen2, _⟩
  rw [hins]
  exact ⟨_, rfl, by simpa [hlen2, hlen1] using rfl⟩

end InsertLemmas

section SChainLemmas

variable {s : PSApp}

theorem SChain_read :
    ∀ {ptr : Int} {ch : List PrsRec}, SChain s ptr ch →
      ∀ r ∈ ch, prsRead s r.off = some r := by
  intro ptr ch
  induction ch generalizing ptr with
  | nil => intro _ r hr; simp at hr
  | cons x rest ih =>
    intro h r hr
    rcases h with ⟨hp, hread, hrest⟩
    rcases List.mem_cons.mp hr with rfl | hr
    · rw [hp] at hread; exact hread
    · exact ih hrest r hr

theorem SChain_mem :
    ∀ {ptr : Int} {ch : List PrsRec}, SChain s ptr ch →
      ∀ r ∈ ch, r ∈ s.prs := by
  intro ptr ch
  induction ch generalizing ptr with
  | nil => intro _ r hr; simp at hr
  | cons x rest ih =>
    intro h r hr
    rcases h with ⟨hp, hread, hrest⟩
    rcases List.mem_cons.mp hr with rfl | hr
    · exact (prsRead_some hread).1
    · exact ih hrest r hr

theorem SChain_congr {s' : PSApp} :
    ∀ {ptr : Int} {ch : List PrsRec}, SChain s ptr ch →
      (∀ r ∈ ch, prsRead s' r.off = prsRead s r.off) → SChain s' ptr ch := by
  intro ptr ch
  induction ch generalizing ptr with
  | nil => intro h _; exact h
  | cons r rest ih =>
    intro h hr
    rcases h with ⟨hp, hread, hrest⟩
    subst hp
    exact ⟨rfl, by rw [hr r (by simp)]; exact hread,
      ih hrest (fun x hx => hr x (by simp [hx]))⟩

theorem prsChain_ok_chain :
    ∀ {F : Nat} {ptr : Int} {ch : List PrsRec},
      prsChain s F ptr = .ok ch → SChain s ptr ch ∧ ∀ x ∈ ch, x.off ≠ -1 := by
  intro F
  induction F with
  | zero => intro ptr ch h; simp [prsChain] at h
  | succ F ih =>
    intro ptr ch h
    by_cases hptr : ptr = -1
    · simp only [prsChain, hptr] at h
      have : ch = [] := by simpa using (Except.ok.inj h).symm
      subst this
      exact ⟨hptr, by simp⟩
    · have hb : (ptr == -1) = false := beq_int_false hptr
      simp only [prsChain, hb, Bool.false_eq_true, if_false] at h
      cases hread : prsRead s ptr with
      | none => simp only [hread] at h; cases h
      | some sr =>
        simp only [hread] at h
        cases hrec : prsChain s F sr.next_ with
        | error e => simp only [hrec] at h; cases h
        | ok rest =>
          simp only [hrec] at h
          have hch : ch = sr :: rest := (Except.ok.inj h).symm
          subst hch
          rcases ih hrec with ⟨hsc, hne⟩
          have hoff : sr.off = ptr := (prsRead_some hread).2
          refine ⟨⟨hoff.symm, hread, hsc⟩, ?_⟩
          intro x hx
          rcases List.mem_cons.mp hx with rfl | hx



          · rw [hoff]; exact hptr
          · exact hne x hx

theorem prsChain_of_chain :
    ∀ {ch : List PrsRec} {F : Nat} {ptr : Int},
      SChain s ptr ch → (∀ x ∈ ch, x.off ≠ -1) → ch.length < F →
      prsChain s F ptr = .ok ch := by
  intro ch
  induction ch with
  | nil =>
    intro F ptr hch _ hF
    cases F with
    | zero => omega
    | succ F =>
      have : ptr = -1 := hch
      simp [prsChain, this]
  | cons sr rest ih =>
    intro F ptr hch hne hF
    cases F with
    | zero => omega
    | succ F =>
      rcases hch with ⟨hp, hread, hrest⟩
      subst hp
      have hb : (sr.off == -1) = false := beq_int_false (hne sr (by simp))
      simp only [prsChain, hb, Bool.false_eq_true, if_false, hread]
      rw [ih hrest (fun x hx => hne x (List.mem_cons_of_mem _ hx))
        (Nat.lt_of_succ_lt_succ hF)]

theorem SChain_det :
    ∀ {ch₁ ch₂ : List PrsRec} {ptr : Int},
      SChain s ptr ch₁ → SChain s ptr ch₂ →
      (∀ x ∈ ch₁, x.off ≠ -1) → (∀ x ∈ ch₂, x.off ≠ -1) → ch₁ = ch₂ := by
  intro ch₁
  induction ch₁ with
  | nil =>
    intro ch₂ ptr h1 h2 _ hne₂
    cases ch₂ with
    | nil => rfl
    | cons y w =>
      rcases h2 with ⟨hp, _, _⟩
      exact absurd (hp ▸ h1 : y.off = -1).symm (Ne.symm (hne₂ y (by simp)))
  | cons x w₁ ih =>
    intro ch₂ ptr h1 h2 hne₁ hne₂
    cases ch₂ with
    | nil =>
      rcases h1 with ⟨hp, _, _⟩
      exact absurd (hp ▸ h2 : x.off = -1).symm (Ne.symm (hne₁ x (by simp)))
    | cons y w₂ =>
      rcases h1 with ⟨hp1, hr1, hrest1⟩
      rcases h2 with ⟨hp2, hr2, hrest2⟩
      have hxy : x = y := Option.some.inj (hr1.symm.trans hr2)
      subst hxy
      have := ih hrest1 hrest2 (fun z hz => hne₁ z (List.mem_cons_of_mem _ hz))
        (fun z hz => hne₂ z (List.mem_cons_of_mem _ hz))
      rw [this]

theorem SChain_suffix_at :
    ∀ {u : List PrsRec} {x : PrsRec} {w : List PrsRec} {p : Int},
      SChain s p (u ++ x :: w) → SChain s x.off (x :: w) := by
  intro u
  induction u with
  | nil =>
    intro x w p h
    rcases h with ⟨hp, hr, hrest⟩
    exact ⟨rfl, by rw [← hp]; exact hr, hrest⟩
  | cons a u ih =>
    intro x w p h
    rcases h with ⟨_, _, hrest⟩
    exact ih hrest

theorem prsChain_nodup :
    ∀ {F : Nat} {ptr : Int} {ch : List PrsRec},
      prsChain s F ptr = .ok ch → (ch.map (fun r => r.off)).Nodup := by
  intro F
  induction F with
  | zero => intro ptr ch h; simp [prsChain] at h
  | succ F ih =>
    intro ptr ch h
    by_cases hptr : ptr = -1
    · simp only [prsChain, hptr] at h
      have : ch = [] := by simpa using (Except.ok.inj h).symm
      subst this
      simp
    · have hb : (ptr == -1) = false := beq_int_false hptr
      simp only [prsChain, hb, Bool.false_eq_true, if_false] at h
      cases hread : prsRead s ptr with
      | none => simp only [hread] at h; cases h
      | some sr =>
        simp only [hread] at h
        cases hrec : prsChain s F sr.next_ with
        | error e => simp only [hrec] at h; cases h
        | ok rest =>
          simp only [hrec] at h
          have hch : ch = sr :: rest := (Except.ok.inj h).symm
          subst hch
          simp only [List.map_cons]
          refine List.nodup_cons.mpr ⟨?_, ih hrec⟩
          intro hc
          rcases List.mem_map.mp hc with ⟨x, hxmem, hxoff⟩
          have hxoff' : x.off = sr.off := hxoff
          rcases prsChain_ok_chain hrec with ⟨hsc, hne⟩
          have hx : x = sr := by
            have h1 := SChain_read hsc x hxmem
            rw [hxoff'] at h1
            have hoff : sr.off = ptr := (prsRead_some hread).2
            rw [hoff, hread] at h1
            exact (Option.some.inj h1).symm
          subst hx
          rcases List.append_of_mem hxmem with ⟨u, w, huw⟩
          have hsuf : SChain s x.off (x :: w) := SChain_suffix_at (huw ▸ hsc)
          have hfull : SChain s x.off (x :: rest) := by
            have hoff : x.off = ptr := (prsRead_some hread).2
            exact ⟨rfl, by rw [hoff]; exact hread, (prsChain_ok_chain hrec).1⟩
          have hne1 : ∀ z ∈ x :: rest, z.off ≠ -1 := by
            intro z hz
            rcases List.mem_cons.mp hz with rfl | hz
            · rw [(prsRead_some hread).2]; exact hptr
            · exact hne z hz
          have hne2 : ∀ z ∈ x :: w, z.off ≠ -1 := by
            intro z hz
            rcases List.mem_cons.mp hz with rfl | hz
            · rw [(prsRead_some hread).2]; exact hptr
            · exact hne z (huw ▸ List.mem_append_right u (List.mem_cons_of_mem _ hz))
          have heq := SChain_det hfull hsuf hne1 hne2
          have hlen : rest.length = w.length := by
            have := congrArg List.length heq
            simpa using this
          rw [huw] at hlen
          simp at hlen
          omega

theorem SChain_length_le {ptr : Int} {ch : List PrsRec}
    (h : SChain s ptr ch) (hnd : (ch.map (fun r => r.off)).Nodup) :
    ch.length ≤ s.prs.length := by
  have hsub : ch.map (fun r => r.off) ⊆ s.prs.map (fun r => r.off) := by
    intro o ho
    rcases List.mem_map.mp ho with ⟨r, hr, hoff⟩
    exact List.mem_map.mpr ⟨r, SChain_mem h r hr, hoff⟩
  have := (hnd.subperm hsub).length_le
  simpa using this

end SChainLemmas

section PrsWriteLemmas

variable {s s' : PSApp} {r : PrsRec}

theorem prsWrite_structError (hq : r.qty < -32768 ∨ 32767 < r.qty) :
    prsWrite s r = .error .structError := by
  unfold prsWrite
  rw [if_pos]
  rcases hq with hq | hq
  · simp [hq]
  · simp [hq]

theorem prsWrite_ok_of_range (hq : -32768 ≤ r.qty ∧ r.qty ≤ 32767) :
    ∃ s', prsWrite s r = .ok s' := by
  unfold prsWrite
  rw [if_neg (by simp; omega)]
  by_cases hmem : s.prs.any (fun x => x.off == r.off) = true
  · rw [if_pos hmem]
    exact ⟨_, rfl⟩
  · rw [if_neg hmem]
    exact ⟨_, rfl⟩

theorem prsWrite_qty_range (h : prsWrite s r = .ok s') :
    -32768 ≤ r.qty ∧ r.qty ≤ 32767 := by
  unfold prsWrite at h
  by_cases hq : (r.qty < -32768 || 32767 < r.qty) = true
  · rw [if_pos hq] at h
    cases h
  · constructor <;> (simp at hq; omega)

theorem prsWrite_cases (h : prsWrite s r = .ok s') :
    ((∃ x ∈ s.prs, x.off = r.off) ∧
      s' = { s with prs := s.prs.map (fun x => if x.off == r.off then r else x) }) ∨
    ((∀ x ∈ s.prs, x.off ≠ r.off) ∧ s' = { s with prs := s.prs ++ [r] }) := by
  unfold prsWrite at h
  by_cases hq : (r.qty < -32768 || 32767 < r.qty) = true
  · rw [if_pos hq] at h
    cases h
  · rw [if_neg hq] at h
    by_cases hmem : s.prs.any (fun x => x.off == r.off) = true
    · rw [if_pos hmem] at h
      rcases List.any_eq_true.mp hmem with ⟨x, hx, hoff⟩
      exact Or.inl ⟨⟨x, hx, beq_iff_eq.mp hoff⟩, (Except.ok.inj h).symm⟩
    · rw [if_neg hmem] at h
      refine Or.inr ⟨?_, (Except.ok.inj h).symm⟩
      intro x hx hc
      exact hmem (List.any_eq_true.mpr ⟨x, hx, beq_iff_eq.mpr hc⟩)

theorem prsWrite_read_self (h : prsWrite s r = .ok s') :
    prsRead s' r.off = some r := by
  rcases prsWrite_cases h with ⟨hmem, rfl⟩ | ⟨hnone, rfl⟩
  · exact find?_replace_self _ hmem rfl
  · exact find?_append_self _ hnone rfl

theorem prsWrite_read_other {o : Int} (h : prsWrite s r = .ok s') (ho : o ≠ r.off) :
    prsRead s' o = prsRead s o := by
  rcases prsWrite_cases h with ⟨_, rfl⟩ | ⟨_, rfl⟩
  · exact find?_replace_other _ ho rfl
  · exact find?_append_other _ ho rfl

theorem prsWrite_fields (h : prsWrite s r = .ok s') :
    s'.data_len = s.data_len ∧ s'.prd = s.prd ∧ s'.prd_head = s.prd_head ∧
    s'.prd_free = s.prd_free ∧ s'.prs_head = s.prs_head ∧ s'.prs_free = s.prs_free := by
  rcases prsWrite_cases h with ⟨_, rfl⟩ | ⟨_, rfl⟩ <;>
    exact ⟨rfl, rfl, rfl, rfl, rfl, rfl⟩

theorem prsWrite_length_of_mem (hmem : ∃ x ∈ s.prs, x.off = r.off)
    (h : prsWrite s r = .ok s') : s'.prs.length = s.prs.length := by
  rcases prsWrite_cases h with ⟨_, rfl⟩ | ⟨hnone, rfl⟩
  · simp
  · rcases hmem with ⟨x, hx, hoff⟩
    exact absurd hoff (hnone x hx)

end PrsWriteLemmas

section WalkEqLemmas

variable {s : PSApp}

theorem prsChain_succ_cases {F : Nat} {ptr : Int} {ch : List PrsRec}
    (h : prsChain s (F + 1) ptr = .ok ch) :
    (ptr = -1 ∧ ch = []) ∨
    (∃ sr rest, ptr ≠ -1 ∧ prsRead s ptr = some sr ∧
      prsChain s F sr.next_ = .ok rest ∧ ch = sr :: rest) := by
  by_cases hptr : ptr = -1
  · simp only [prsChain, hptr] at h
    exact Or.inl ⟨hptr, by simpa using (Except.ok.inj h).symm⟩
  · have hb : (ptr == -1) = false := beq_int_false hptr
    simp only [prsChain, hb, Bool.false_eq_true, if_false] at h
    cases hread : prsRead s ptr with
    | none => simp only [hread] at h; cases h
    | some sr =>
      simp only [hread] at h
      cases hrec : prsChain s F sr.next_ with
      | error e => simp only [hrec] at h; cases h
      | ok rest =>
        simp only [hrec] at h
        exact Or.inr ⟨sr, rest, hptr, rfl, hrec, (Except.ok.inj h).symm⟩

theorem mergeWalk_eq {co q : Int} :
    ∀ {F : Nat} {ptr : Int} {ch : List PrsRec}, prsChain s F ptr = .ok ch →
      mergeWalk s co q F ptr =
        match ch.find? (fun sr => sr.del_ == 0 && sr.comp_off == co) with
        | none => .ok none
        | some sr =>
          match prsWrite s { sr with qty := sr.qty + q } with
          | .error e => .error e
          | .ok s' => .ok (some s') := by
  intro F
  induction F with
  | zero => intro ptr ch h; simp [prsChain] at h
  | succ F ih =>
    intro ptr ch h
    rcases prsChain_succ_cases h with ⟨hptr, rfl⟩ | ⟨sr, rest, hptr, hread, hrec, rfl⟩
    · simp [mergeWalk, hptr]
    · have hb : (ptr == -1) = false := beq_int_false hptr
      simp only [mergeWalk, hb, Bool.false_eq_true, if_false, hread]
      by_cases hhit : (sr.del_ == 0 && sr.comp_off == co) = true
      · rw [if_pos hhit]
        have hfind : List.find? (fun x => x.del_ == 0 && x.comp_off == co) (sr :: rest)
            = some sr := find?_cons_pos _ hhit
        rw [hfind]
      · have hh : (sr.del_ == 0 && sr.comp_off == co) = false := by
          cases hc : (sr.del_ == 0 && sr.comp_off == co)
          · rfl
          · exact absurd hc hhit
        rw [if_neg (by rw [hh]; exact Bool.false_ne_true)]
        have hfind : List.find? (fun x => x.del_ == 0 && x.comp_off == co) (sr :: rest)
            = List.find? (fun x => x.del_ == 0 && x.comp_off == co) rest :=
          find?_cons_neg _ hh
        rw [hfind]
        exact ih hrec

theorem tailWalk_eq :
    ∀ {F : Nat} {prev ptr : Int} {ch : List PrsRec}, prsChain s F ptr = .ok ch →
      tailWalk s F prev ptr = .ok (sWalkPrev prev ch) := by
  intro F
  induction F with
  | zero => intro prev ptr ch h; simp [prsChain] at h
  | succ F ih =>
    intro prev ptr ch h
    rcases prsChain_succ_cases h with ⟨hptr, rfl⟩ | ⟨sr, rest, hptr, hread, hrec, rfl⟩
    · simp [tailWalk, hptr, sWalkPrev]
    · have hb : (ptr == -1) = false := beq_int_false hptr
      simp only [tailWalk, hb, Bool.false_eq_true, if_false, hread, sWalkPrev]
      have hoff : sr.off = ptr := (prsRead_some hread).2
      rw [ih hrec, hoff]

theorem refScanChain_eq {t : Int} :
    ∀ {F : Nat} {ptr : Int} {ch : List PrsRec}, prsChain s F ptr = .ok ch →
      refScanChain s t F ptr = .ok (ch.any (fun sr => sr.del_ == 0 && sr.comp_off == t)) := by
  intro F
  induction F with
  | zero => intro ptr ch h; simp [prsChain] at h
  | succ F ih =>
    intro ptr ch h
    rcases prsChain_succ_cases h with ⟨hptr, rfl⟩ | ⟨sr, rest, hptr, hread, hrec, rfl⟩
    · simp [refScanChain, hptr]
    · have hb : (ptr == -1) = false := beq_int_false hptr
      simp only [refScanChain, hb, Bool.false_eq_true, if_false, hread]
      by_cases hhit : (sr.del_ == 0 && sr.comp_off == t) = true
      · rw [if_pos hhit]
        simp [List.any_cons, hhit]
      · have hh : (sr.del_ == 0 && sr.comp_off == t) = false := by
          cases hc : (sr.del_ == 0 && sr.comp_off == t)
          · rfl
          · exact absurd hc hhit
        rw [if_neg (by rw [hh]; exact Bool.false_ne_true)]
        rw [ih hrec]
        simp [List.any_cons, hh]

theorem specItems_eq :
    ∀ {F : Nat} {ptr : Int} {ch : List PrsRec}, prsChain s F ptr = .ok ch →
      (∀ sr ∈ ch, sr.del_ = 0 → (prdRead s sr.comp_off).isSome = true) →
      specItems s F ptr = .ok (itemsOf s ch) := by
  intro F
  induction F with
  | zero => intro ptr ch h; simp [prsChain] at h
  | succ F ih =>
    intro ptr ch h hc
    rcases prsChain_succ_cases h with ⟨hptr, rfl⟩ | ⟨sr, rest, hptr, hread, hrec, rfl⟩
    · simp [specItems, hptr, itemsOf]
    · have hb : (ptr == -1) = false := beq_int_false hptr
      simp only [specItems, hb, Bool.false_eq_true, if_false, hread]
      rw [ih hrec (fun x hx hdel => hc x (List.mem_cons_of_mem _ hx) hdel)]
      simp only []
      by_cases hdel : sr.del_ = 0
      · have hd : (sr.del_ == 0) = true := beq_iff_eq.mpr hdel
        rw [if_pos hd]
        cases hcr : prdRead s sr.comp_off with
        | none =>
          have := hc sr (by simp) hdel
          rw [hcr] at this
          cases this
        | some child =>
          simp only [itemsOf, hd, if_true, hcr]
      · have hd : (sr.del_ == 0) = false := beq_int_false hdel
        rw [if_neg (by rw [hd]; exact Bool.false_ne_true)]
        simp only [itemsOf, hd]
        rw [if_neg Bool.false_ne_true]

theorem chainChildren_eq :
    ∀ {F : Nat} {ptr : Int} {ch : List PrsRec}, prsChain s F ptr = .ok ch →
      (∀ sr ∈ ch, sr.del_ = 0 → (prdRead s sr.comp_off).isSome = true) →
      chainChildren s F ptr = .ok (childrenOf s ch) := by
  intro F
  induction F with
  | zero => intro ptr ch h; simp [prsChain] at h
  | succ F ih =>
    intro ptr ch h hc
    rcases prsChain_succ_cases h with ⟨hptr, rfl⟩ | ⟨sr, rest, hptr, hread, hrec, rfl⟩
    · simp [chainChildren, hptr, childrenOf]
    · have hb : (ptr == -1) = false := beq_int_false hptr
      simp only [chainChildren, hb, Bool.false_eq_true, if_false, hread]
      rw [ih hrec (fun x hx hdel => hc x (List.mem_cons_of_mem _ hx) hdel)]
      simp only []
      by_cases hdel : sr.del_ = 0
      · have hd : (sr.del_ == 0) = true := beq_iff_eq.mpr hdel
        rw [if_pos hd]
        cases hcr : prdRead s sr.comp_off with
        | none =>
          have := hc sr (by simp) hdel
          rw [hcr] at this
          cases this
        | some child =>
          simp only [childrenOf, hd, if_true, hcr]
      · have hd : (sr.del_ == 0) = false := beq_int_false hdel
        rw [if_neg (by rw [hd]; exact Bool.false_ne_true)]
        simp only [childrenOf, hd]
        rw [if_neg Bool.false_ne_true]

theorem keepWalk_eq {m : List (Int × Int)} :
    ∀ {F : Nat} {ptr : Int} {ch : List PrsRec}, prsChain s F ptr = .ok ch →
      keepWalk s m F ptr = .ok (keepOf m ch) := by
  intro F
  induction F with
  | zero => intro ptr ch h; simp [prsChain] at h
  | succ F ih =>
    intro ptr ch h
    rcases prsChain_succ_cases h with ⟨hptr, rfl⟩ | ⟨sr, rest, hptr, hread, hrec, rfl⟩
    · simp [keepWalk, hptr, keepOf]
    · have hb : (ptr == -1) = false := beq_int_false hptr
      simp only [keepWalk, hb, Bool.false_eq_true, if_false, hread]
      rw [ih hrec]
      simp only []
      by_cases hhit : (sr.del_ == 0 && (lookupOff m sr.comp_off).isSome) = true
      · rw [if_pos hhit]
        simp [keepOf, List.filter, hhit]
      · have hh : (sr.del_ == 0 && (lookupOff m sr.comp_off).isSome) = false := by
          cases hc : (sr.del_ == 0 && (lookupOff m sr.comp_off).isSome)
          · rfl
          · exact absurd hc hhit
        rw [if_neg (by rw [hh]; exact Bool.false_ne_true)]
        simp [keepOf, List.filter, hh]

end WalkEqLemmas

theorem sWalkPrev_concat (p : Int) :
    ∀ (l : List PrsRec) (x : PrsRec), sWalkPrev p (l ++ [x]) = x.off := by
  intro l
  induction l generalizing p with
  | nil => intro x; rfl
  | cons a as ih => intro x; exact ih a.off x

section MarkRebuildLemmas

/-- Effect of the shared chain-marking pass: every record of the walked
chain has its `del_` field set to the given value, every other offset of
the specification file reads unchanged, and the component file and all
header fields are untouched. -/
theorem markChain_eq (v : Int) :
    ∀ {ch : List PrsRec} {s : PSApp} {F : Nat} {ptr : Int},
      SChain s ptr ch →
      (ch.map (fun r => r.off)).Nodup →
      (∀ x ∈ ch, x.off ≠ -1) →
      (∀ x ∈ ch, -32768 ≤ x.qty ∧ x.qty ≤ 32767) →
      ch.length < F →
      ∃ s', markChain v F s ptr = .ok s' ∧
        (∀ x ∈ ch, prsRead s' x.off = some { x with del_ := v }) ∧
        (∀ o : Int, o ∉ ch.map (fun r => r.off) → prsRead s' o = prsRead s o) ∧
        s'.prs.length = s.prs.length ∧
        s'.prd = s.prd ∧ s'.data_len = s.data_len ∧
        s'.prd_head = s.prd_head ∧ s'.prd_free = s.prd_free ∧
        s'.prs_head = s.prs_head ∧ s'.prs_free = s.prs_free := by
  intro ch
  induction ch with
  | nil =>
    intro s F ptr hch _ _ _ hF
    cases F with
    | zero => omega
    | succ F =>
      have hptr : ptr = -1 := hch
      refine ⟨s, ?_, ?_, ?_, rfl, rfl, rfl, rfl, rfl, rfl, rfl⟩
      · simp [markChain, hptr]
      · intro x hx
        simp at hx
      · intro o _
        rfl
  | cons sr rest ih =>
    intro s F ptr hch hnd hne hq hF
    cases F with
    | zero => omega
    | succ F =>
      rcases hch with ⟨hp, hread, hrest⟩
      subst hp
      have hb : (sr.off == -1) = false := beq_int_false (hne sr (List.mem_cons_self _ _))
      have hq0 := hq sr (List.mem_cons_self _ _)
      rcases @prsWrite_ok_of_range s { sr with del_ := v } hq0 with ⟨s1, hw⟩
      have hnd0 : ((sr :: rest).map (fun r => r.off)).Nodup := hnd
      rw [List.map_cons] at hnd0
      have hnotin : sr.off ∉ rest.map (fun r => r.off) := (List.nodup_cons.mp hnd0).1
      have hnd' : (rest.map (fun r => r.off)).Nodup := (List.nodup_cons.mp hnd0).2
      have hrest1 : SChain s1 sr.next_ rest := by
        refine SChain_congr hrest ?_
        intro x hx
        refine prsWrite_read_other hw ?_
        intro hc
        apply hnotin
        rw [show PrsRec.off { sr with del_ := v } = sr.off from rfl] at hc
        rw [← hc]
        exact List.mem_map.mpr ⟨x, hx, rfl⟩
      have hne' : ∀ x ∈ rest, x.off ≠ -1 := fun x hx => hne x (List.mem_cons_of_mem _ hx)
      have hq' : ∀ x ∈ rest, -32768 ≤ x.qty ∧ x.qty ≤ 32767 :=
        fun x hx => hq x (List.mem_cons_of_mem _ hx)
      have hF' : rest.length < F := by
        simp only [List.length_cons] at hF
        omega
      obtain ⟨s2, hm, hrd, hoth, hlen, hprd, hdl, hph, hpf, hsh, hsf⟩ :=
        ih hrest1 hnd' hne' hq' hF'
      have hwlen : s1.prs.length = s.prs.length :=
        @prsWrite_length_of_mem s s1 { sr with del_ := v }
          ⟨sr, (prsRead_some hread).1, rfl⟩ hw
      have hwf := prsWrite_fields hw
      refine ⟨s2, ?_, ?_, ?_, ?_, ?_, ?_, ?_, ?_, ?_, ?_⟩
      · simp only [markChain, hb, Bool.false_eq_true, if_false, hread, hw]
        exact hm
      · intro x hx
        rcases List.mem_cons.mp hx with rfl | hx
        · rw [hoth x.off hnotin]
          exact prsWrite_read_self hw
        · exact hrd x hx
      · intro o ho
        have ho1 : o ≠ sr.off := by
          intro hc
          exact ho (by rw [hc]; exact List.mem_map.mpr ⟨sr, List.mem_cons_self _ _, rfl⟩)
        have ho2 : o ∉ rest.map (fun r => r.off) := by
          intro hc
          rcases List.mem_map.mp hc with ⟨z, hz, hzoff⟩
          exact ho (List.mem_map.mpr ⟨z, List.mem_cons_of_mem _ hz, hzoff⟩)
        rw [hoth o ho2]
        exact prsWrite_read_other hw ho1
      · exact hlen.trans hwlen
      · exact hprd.trans hwf.2.1
      · exact hdl.trans hwf.1
      · exact hph.trans hwf.2.2.1
      · exact hpf.trans hwf.2.2.2.1
      · exact hsh.trans hwf.2.2.2.2.1
      · exact hsf.trans hwf.2.2.2.2.2

theorem prdWrite_offs_of_mem {s : PSApp} {r : PrdRec} (h : ∃ x ∈ s.prd, x.off = r.off) :
    (prdWrite s r).prd.map (fun x => x.off) = s.prd.map (fun x => x.off) := by
  rw [prdWrite_of_mem h]
  show (s.prd.map (fun x => if x.off == r.off then normRec s.data_len r else x)).map
      (fun x => x.off) = s.prd.map (fun x => x.off)
  rw [List.map_map]
  refine List.map_congr_left ?_
  intro x _
  show (if x.off == r.off then normRec s.data_len r else x).off = x.off
  by_cases hc : (x.off == r.off) = true
  · rw [if_pos hc, normRec_off]
    exact (beq_iff_eq.mp hc).symm
  · rw [if_neg hc]

theorem prdPositional_of_offs_eq {size : Int} :
    ∀ {l₁ l₂ : List PrdRec} {w : Int},
      l₁.map (fun r => r.off) = l₂.map (fun r => r.off) →
      prdPositional size w l₁ = prdPositional size w l₂ := by
  intro l₁
  induction l₁ with
  | nil =>
    intro l₂ w h
    cases l₂ with
    | nil => rfl
    | cons b bs => simp at h
  | cons a as ih =>
    intro l₂ w h
    cases l₂ with
    | nil => simp at h
    | cons b bs =>
      simp only [List.map_cons, List.cons.injEq] at h
      simp only [prdPositional]
      rw [h.1, ih h.2]

theorem prdWrite_prd_mem {s : PSApp} {r : PrdRec} :
    ∀ x ∈ (prdWrite s r).prd, x ∈ s.prd ∨ x = normRec s.data_len r := by
  intro x hx
  by_cases hmem : ∃ y ∈ s.prd, y.off = r.off
  · rw [prdWrite_of_mem hmem] at hx
    have hx' : x ∈ s.prd.map (fun y => if y.off == r.off then normRec s.data_len r else y) := hx
    rcases List.mem_map.mp hx' with ⟨y, hy, hyx⟩
    by_cases hc : (y.off == r.off) = true
    · right
      rw [← hyx, if_pos hc]
    · left
      rw [← hyx, if_neg hc]
      exact hy
  · push_neg at hmem
    rw [prdWrite_of_notmem hmem] at hx
    have hx' : x ∈ s.prd ++ [normRec s.data_len r] := hx
    rcases List.mem_append.mp hx' with h | h
    · exact Or.inl h
    · right
      simpa using h

theorem relinkChain_one (s : PSApp) (r : PrdRec) :
    relinkChain s [r] = prdWrite s { r with next_ := -1 } := rfl

theorem relinkChain_cons_cons (s : PSApp) (r r2 : PrdRec) (rest : List PrdRec) :
    relinkChain s (r :: r2 :: rest)
      = relinkChain (prdWrite s { r with next_ := r2.off }) (r2 :: rest) := rfl

/-- Effect of the relink pass of `rebuild_alphabetical`: each listed record
keeps all its fields except `next_`, which is rewritten to some successor;
offsets outside the list read unchanged, and the specification file and the
header fields are untouched. -/
theorem relink_reads :
    ∀ {recs : List PrdRec} {s : PSApp},
      (∀ r ∈ recs, ∃ x ∈ s.prd, x.off = r.off) →
      (∀ r ∈ recs, fieldRoundtrip s.data_len r.typ r.name = (r.typ, r.name)) →
      (recs.map (fun r => r.off)).Nodup →
      (relinkChain s recs).prs = s.prs ∧
      (relinkChain s recs).data_len = s.data_len ∧
      (relinkChain s recs).prd_free = s.prd_free ∧
      (relinkChain s recs).prs_free = s.prs_free ∧
      (relinkChain s recs).prd.length = s.prd.length ∧
      (∀ r ∈ recs, ∃ nx, prdRead (relinkChain s recs) r.off = some { r with next_ := nx }) ∧
      (∀ o : Int, o ∉ recs.map (fun r => r.off) → prdRead (relinkChain s recs) o = prdRead s o) := by
  intro recs
  induction recs with
  | nil =>
    intro s _ _ _
    refine ⟨rfl, rfl, rfl, rfl, rfl, ?_, ?_⟩
    · intro r hr
      simp at hr
    · intro o _
      rfl
  | cons r rest ih =>
    intro s hmem hnorm hnd
    cases rest with
    | nil =>
      have hm : ∃ x ∈ s.prd, x.off = PrdRec.off { r with next_ := -1 } := hmem r (by simp)
      rw [relinkChain_one]
      refine ⟨(prdWrite_fields _).2.2.2.2.2, (prdWrite_fields _).1, (prdWrite_fields _).2.2.1,
        (prdWrite_fields _).2.2.2.2.1, prdWrite_length_of_mem hm, ?_, ?_⟩
      · intro x hx
        rcases List.mem_cons.mp hx with rfl | hx
        · refine ⟨-1, ?_⟩
          have h1 := @prdRead_write_self s { x with next_ := -1 }
          rw [@normRec_eq_self s.data_len { x with next_ := -1 } (hnorm x (by simp))] at h1
          exact h1
        · simp at hx
      · intro o ho
        have ho1 : o ≠ r.off := by
          intro hc
          exact ho (by rw [hc]; exact List.mem_map.mpr ⟨r, List.mem_cons_self _ _, rfl⟩)
        exact prdRead_write_other ho1
    | cons r2 rest2 =>
      have hm : ∃ x ∈ s.prd, x.off = PrdRec.off { r with next_ := r2.off } := hmem r (by simp)
      have hoffs : (prdWrite s { r with next_ := r2.off }).prd.map (fun x => x.off)
          = s.prd.map (fun x => x.off) := prdWrite_offs_of_mem hm
      have hdl : (prdWrite s { r with next_ := r2.off }).data_len = s.data_len :=
        (prdWrite_fields _).1
      have hmem' : ∀ x ∈ r2 :: rest2,
          ∃ y ∈ (prdWrite s { r with next_ := r2.off }).prd, y.off = x.off := by
        intro x hx
        rcases hmem x (List.mem_cons_of_mem _ hx) with ⟨y, hy, hyoff⟩
        have hin : y.off ∈ (prdWrite s { r with next_ := r2.off }).prd.map (fun z => z.off) := by
          rw [hoffs]
          exact List.mem_map.mpr ⟨y, hy, rfl⟩
        rcases List.mem_map.mp hin with ⟨z, hz, hzoff⟩
        exact ⟨z, hz, by rw [hzoff, hyoff]⟩
      have hnorm' : ∀ x ∈ r2 :: rest2,
          fieldRoundtrip (prdWrite s { r with next_ := r2.off }).data_len x.typ x.name
            = (x.typ, x.name) := by
        intro x hx
        rw [hdl]
        exact hnorm x (List.mem_cons_of_mem _ hx)
      have hnd0 : ((r :: r2 :: rest2).map (fun x => x.off)).Nodup := hnd
      rw [List.map_cons] at hnd0
      have hnotin : r.off ∉ (r2 :: rest2).map (fun x => x.off) := (List.nodup_cons.mp hnd0).1
      have hnd' : ((r2 :: rest2).map (fun x => x.off)).Nodup := (List.nodup_cons.mp hnd0).2
      obtain ⟨ihprs, ihdl, ihpf, ihsf, ihlen, ihreads, ihoth⟩ := ih hmem' hnorm' hnd'
      rw [relinkChain_cons_cons]
      refine ⟨ihprs.trans (prdWrite_fields _).2.2.2.2.2, ihdl.trans (prdWrite_fields _).1,
        ihpf.trans (prdWrite_fields _).2.2.1, ihsf.trans (prdWrite_fields _).2.2.2.2.1,
        ihlen.trans (prdWrite_length_of_mem hm), ?_, ?_⟩
      · intro x hx
        rcases List.mem_cons.mp hx with rfl | hx
        · refine ⟨r2.off, ?_⟩
          rw [ihoth x.off hnotin]
          have h1 := @prdRead_write_self s { x with next_ := r2.off }
          rw [@normRec_eq_self s.data_len { x with next_ := r2.off } (hnorm x (by simp))] at h1
          exact h1
        · exact ihreads x hx
      · intro o ho
        have ho1 : o ≠ r.off := by
          intro hc
          exact ho (by rw [hc]; exact List.mem_map.mpr ⟨r, List.mem_cons_self _ _, rfl⟩)
        have ho2 : o ∉ (r2 :: rest2).map (fun x => x.off) := by
          intro hc
          rcases List.mem_map.mp hc with ⟨z, hz, hzoff⟩
          exact ho (List.mem_map.mpr ⟨z, List.mem_cons_of_mem _ hz, hzoff⟩)
        rw [ihoth o ho2]
        exact prdRead_write_other ho1

/-- Success and effect of `rebuild_alphabetical` on a state with a dense,
normalized component region: it only rewrites `next_` pointers of active
records and the list head, leaving the specification file, the sizes and
every other field of every record intact. -/
theorem rebuild_props {s : PSApp}
    (hpos : prdPositional (prd_rec_size s) PRD_HDR_SIZE s.prd = true)
    (hfree : s.prd_free = PRD_HDR_SIZE + (s.prd.length : Int) * prd_rec_size s)
    (hnormAll : ∀ r ∈ s.prd, fieldRoundtrip s.data_len r.typ r.name = (r.typ, r.name)) :
    ∃ s', rebuild_alphabetical s = .ok s' ∧
      s'.prs = s.prs ∧ s'.data_len = s.data_len ∧
      s'.prd_free = s.prd_free ∧ s'.prs_free = s.prs_free ∧
      s'.prd.length = s.prd.length ∧
      (∀ r ∈ s.prd, r.del_ = 0 → ∃ nx, prdRead s' r.off = some { r with next_ := nx }) := by
  have hscan : scan_prd_physical s = .ok s.prd := scan_prd_eq hpos hfree
  have hndall : (s.prd.map (fun r => r.off)).Nodup :=
    prdPositional_nodup (prd_rec_size_pos s) hpos
  have hsubmem : ∀ r ∈ pySort (fun a b => keyLe a.name b.name)
      (s.prd.filter (fun r => r.del_ == 0)), r ∈ s.prd :=
    fun r hr => List.mem_of_mem_filter (mem_pySort.mp hr)
  have hmemA : ∀ r ∈ pySort (fun a b => keyLe a.name b.name)
      (s.prd.filter (fun r => r.del_ == 0)), ∃ x ∈ s.prd, x.off = r.off :=
    fun r hr => ⟨r, hsubmem r hr, rfl⟩
  have hnormA : ∀ r ∈ pySort (fun a b => keyLe a.name b.name)
      (s.prd.filter (fun r => r.del_ == 0)),
      fieldRoundtrip s.data_len r.typ r.name = (r.typ, r.name) :=
    fun r hr => hnormAll r (hsubmem r hr)
  have hndA : ((pySort (fun a b => keyLe a.name b.name)
      (s.prd.filter (fun r => r.del_ == 0))).map (fun r => r.off)).Nodup := by
    have h1 : ((s.prd.filter (fun r => r.del_ == 0)).map (fun r => r.off)).Nodup :=
      List.Nodup.sublist (List.Sublist.map _ (List.filter_sublist _)) hndall
    have h2 := (@pySort_perm PrdRec (fun a b => keyLe a.name b.name)
      (s.prd.filter (fun r => r.del_ == 0))).map (fun r => r.off)
    exact h2.nodup_iff.mpr h1
  obtain ⟨hprs, hdl, hpf, hsf, hlen, hreads, hoth⟩ := relink_reads hmemA hnormA hndA
  refine ⟨{ relinkChain s (pySort (fun a b => keyLe a.name b.name)
        (s.prd.filter (fun r => r.del_ == 0))) with
      prd_head :=
        match pySort (fun a b => keyLe a.name b.name)
            (s.prd.filter (fun r => r.del_ == 0)) with
        | [] => -1
        | r :: _ => r.off },
    ?_, hprs, hdl, hpf, hsf, hlen, ?_⟩
  · simp only [rebuild_alphabetical, hscan]
  · intro r hr hdel
    have hrA : r ∈ pySort (fun a b => keyLe a.name b.name)
        (s.prd.filter (fun r => r.del_ == 0)) := by
      rw [mem_pySort]
      exact List.mem_filter.mpr ⟨hr, beq_iff_eq.mpr hdel⟩
    rcases hreads r hrA with ⟨nx, hread⟩
    exact ⟨nx, hread⟩

/-- The reference scan of `delete_component` computes exactly the
`referenced` predicate when every chain it has to walk is walkable. -/
theorem refScan_eq {s : PSApp} {t : Int} :
    ∀ recs : List PrdRec,
      (∀ c ∈ recs, exceptOk (prsChain s (s.prs.length + 1) c.first_spec) = true) →
      refScan s t recs = .ok (recs.any (fun c =>
        !(c.del_ != 0 || c.off == t) &&
        (chainOf s c.first_spec).any (fun sr => sr.del_ == 0 && sr.comp_off == t))) := by
  intro recs
  induction recs with
  | nil =>
    intro _
    rfl
  | cons c rest ih =>
    intro hok
    by_cases hskip : (c.del_ != 0 || c.off == t) = true
    · simp only [refScan]
      rw [if_pos hskip, ih (fun x hx => hok x (List.mem_cons_of_mem _ hx))]
      simp only [List.any_cons, hskip, Bool.not_true, Bool.false_and, Bool.false_or]
    · have hskipf : (c.del_ != 0 || c.off == t) = false := by
        cases hcv : (c.del_ != 0 || c.off == t)
        · rfl
        · exact absurd hcv hskip
      have hc0 := hok c (List.mem_cons_self _ _)
      cases hcc : prsChain s (s.prs.length + 1) c.first_spec with
      | error e =>
        rw [hcc] at hc0
        simp [exceptOk] at hc0
      | ok ch =>
        have hchain : chainOf s c.first_spec = ch := by
          unfold chainOf
          rw [hcc]
        simp only [refScan]
        rw [if_neg (by rw [hskipf]; exact Bool.false_ne_true)]
        rw [refScanChain_eq hcc]
        cases hb : ch.any (fun sr => sr.del_ == 0 && sr.comp_off == t) with
        | true =>
          simp only []
          simp only [List.any_cons, hskipf, Bool.not_false, Bool.true_and, hchain, hb,
            Bool.true_or]
        | false =>
          simp only []
          rw [ih (fun x hx => hok x (List.mem_cons_of_mem _ hx))]
          simp only [List.any_cons, hskipf, Bool.not_false, Bool.true_and, hchain, hb,
            Bool.false_or]

end MarkRebuildLemmas

section CycleLemmas

theorem activeChildB_read {s : PSApp} {sr : PrsRec} (h : activeChildB s sr = true) :
    ∃ child, prdRead s sr.comp_off = some child ∧ child.del_ = 0 := by
  unfold activeChildB at h
  rcases Bool.and_eq_true_iff.mp h with ⟨h1, h2⟩
  cases hcr : prdRead s sr.comp_off with
  | none =>
    simp only [hcr] at h2
    cases h2
  | some child =>
    simp only [hcr] at h2
    exact ⟨child, rfl, beq_iff_eq.mp h2⟩

theorem childrenOf_eq {s : PSApp} :
    ∀ ch : List PrsRec,
      childrenOf s ch = (ch.filter (activeChildB s)).map (fun sr => sr.comp_off) := by
  intro ch
  induction ch with
  | nil => rfl
  | cons sr rest ih =>
    by_cases hdel : sr.del_ = 0
    · have hd : (sr.del_ == 0) = true := beq_iff_eq.mpr hdel
      cases hcr : prdRead s sr.comp_off with
      | none =>
        have hact : activeChildB s sr = false := by
          simp [activeChildB, hd, hcr]
        simp [childrenOf, hd, hcr, List.filter_cons, hact, ih]
      | some child =>
        by_cases hcd : child.del_ = 0
        · have hcdb : (child.del_ == 0) = true := beq_iff_eq.mpr hcd
          have hact : activeChildB s sr = true := by
            simp [activeChildB, hd, hcr, hcdb]
          simp [childrenOf, hd, hcr, hcdb, List.filter_cons, hact, ih]
        · have hcdb : (child.del_ == 0) = false := beq_int_false hcd
          have hact : activeChildB s sr = false := by
            simp [activeChildB, hd, hcr, hcdb]
          simp [childrenOf, hd, hcr, hcdb, List.filter_cons, hact, ih]
    · have hd : (sr.del_ == 0) = false := beq_int_false hdel
      have hact : activeChildB s sr = false := by
        simp [activeChildB, hd]
      simp [childrenOf, hd, List.filter_cons, hact, ih]

theorem mem_childrenOf {s : PSApp} {ch : List PrsRec} {v : Int} :
    v ∈ childrenOf s ch ↔ ∃ sr ∈ ch, activeChildB s sr = true ∧ sr.comp_off = v := by
  rw [childrenOf_eq]
  constructor
  · intro hv
    rcases List.mem_map.mp hv with ⟨sr, hsr, hoff⟩
    rcases List.mem_filter.mp hsr with ⟨h1, h2⟩
    exact ⟨sr, h1, h2, hoff⟩
  · rintro ⟨sr, h1, h2, h3⟩
    exact List.mem_map.mpr ⟨sr, List.mem_filter.mpr ⟨h1, h2⟩, h3⟩

theorem childrenOf_length_le {s : PSApp} (ch : List PrsRec) :
    (childrenOf s ch).length ≤ ch.length := by
  rw [childrenOf_eq]
  simpa using List.length_filter_le (activeChildB s) ch

theorem chainChildren_ok {s : PSApp} (h : WF s) {c : PrdRec} (hc : c ∈ s.prd) :
    chainChildren s (s.prs.length + 1) c.first_spec
      = .ok (childrenOf s (chainOf s c.first_spec)) := by
  have hok := WF_chains h c hc
  cases hch : prsChain s (s.prs.length + 1) c.first_spec with
  | error e =>
    rw [hch] at hok
    simp [exceptOk] at hok
  | ok ch =>
    have hco : chainOf s c.first_spec = ch := by
      unfold chainOf
      rw [hch]
    rw [hco]
    exact chainChildren_eq hch
      (fun sr hsr _ => WF_comp h sr (SChain_mem (prsChain_ok_chain hch).1 sr hsr))

theorem Reach_closed {s : PSApp} {target : Int} {V : List Int}
    (hclosed : ∀ v ∈ V, ∀ w, Edge s v w → w ∈ V)
    (htarget : target ∉ V) :
    ∀ u, Reach s target u → u ∈ V → False := by
  intro u hr
  induction hr with
  | refl =>
    intro hu
    exact htarget hu
  | step e _ ih =>
    intro hu
    exact ih (hclosed _ hu _ e)

theorem hasPathLoop_true {s : PSApp} {target : Int} (h : WF s) :
    ∀ {fuel : Nat} {stack visited : List Int},
      hasPathLoop s target fuel stack visited = .ok true →
      ∃ u ∈ stack, Reach s target u := by
  intro fuel
  induction fuel with
  | zero =>
    intro stack visited hrun
    simp [hasPathLoop] at hrun
  | succ F ih =>
    intro stack visited hrun
    cases stack with
    | nil => simp [hasPathLoop] at hrun
    | cons cur rest =>
      simp only [hasPathLoop] at hrun
      by_cases hct : cur = target
      · exact ⟨cur, List.mem_cons_self _ _, by rw [hct]; exact Reach.refl⟩
      · rw [if_neg (by rw [beq_int_false hct]; exact Bool.false_ne_true)] at hrun
        by_cases hvis : visited.contains cur = true
        · rw [if_pos hvis] at hrun
          rcases ih hrun with ⟨u, hu, hr⟩
          exact ⟨u, List.mem_cons_of_mem _ hu, hr⟩
        · rw [if_neg hvis] at hrun
          cases hread : prdRead s cur with
          | none =>
            simp only [hread] at hrun
            cases hrun
          | some c =>
            simp only [hread] at hrun
            cases hcc : chainChildren s (s.prs.length + 1) c.first_spec with
            | error e =>
              simp only [hcc] at hrun
              cases hrun
            | ok pushes =>
              simp only [hcc] at hrun
              rcases ih hrun with ⟨u, hu, hr⟩
              rcases List.mem_append.mp hu with hu | hu
              · have hup : u ∈ pushes := List.mem_reverse.mp hu
                have hcmem : c ∈ s.prd := (prdRead_some hread).1
                have hcceq := chainChildren_ok h hcmem
                rw [hcc] at hcceq
                have hpe : pushes = childrenOf s (chainOf s c.first_spec) :=
                  Except.ok.inj hcceq
                rw [hpe] at hup
                rcases mem_childrenOf.mp hup with ⟨sr, hsr, hact, hoff⟩
                exact ⟨cur, List.mem_cons_self _ _,
                  Reach.step ⟨c, hread, sr, hsr, hact, hoff⟩ hr⟩
              · exact ⟨u, List.mem_cons_of_mem _ hu, hr⟩

theorem hasPathLoop_false {s : PSApp} {target : Int} (h : WF s) :
    ∀ {fuel : Nat} {stack visited : List Int},
      hasPathLoop s target fuel stack visited = .ok false →
      target ∉ visited →
      (∀ v ∈ visited, ∀ w, Edge s v w → w ∈ visited ∨ w ∈ stack) →
      ∀ u, u ∈ stack ∨ u ∈ visited → ¬ Reach s target u := by
  intro fuel
  induction fuel with
  | zero =>
    intro stack visited hrun
    simp [hasPathLoop] at hrun
  | succ F ih =>
    intro stack visited hrun htv hclo u hu
    cases stack with
    | nil =>
      have hclo' : ∀ v ∈ visited, ∀ w, Edge s v w → w ∈ visited := by
        intro v hv w hw
        rcases hclo v hv w hw with hin | hin
        · exact hin
        · exact absurd hin (List.not_mem_nil w)
      have hu' : u ∈ visited := by
        rcases hu with hin | hin
        · exact absurd hin (List.not_mem_nil u)
        · exact hin
      exact fun hr => Reach_closed hclo' htv u hr hu'
    | cons cur rest =>
      simp only [hasPathLoop] at hrun
      by_cases hct : cur = target
      · rw [if_pos (beq_iff_eq.mpr hct)] at hrun
        exact Bool.noConfusion (Except.ok.inj hrun)
      · rw [if_neg (by rw [beq_int_false hct]; exact Bool.false_ne_true)] at hrun
        by_cases hvis : visited.contains cur = true
        · rw [if_pos hvis] at hrun
          have hcurv : cur ∈ visited := List.mem_of_elem_eq_true hvis
          have hclo' : ∀ v ∈ visited, ∀ w, Edge s v w → w ∈ visited ∨ w ∈ rest := by
            intro v hv w hw
            rcases hclo v hv w hw with hin | hin
            · exact Or.inl hin
            · rcases List.mem_cons.mp hin with rfl | hin
              · exact Or.inl hcurv
              · exact Or.inr hin
          have hres := ih hrun htv hclo'
          rcases hu with hin | hin
          · rcases List.mem_cons.mp hin with rfl | hin
            · exact hres u (Or.inr hcurv)
            · exact hres u (Or.inl hin)
          · exact hres u (Or.inr hin)
        · rw [if_neg hvis] at hrun
          cases hread : prdRead s cur with
          | none =>
            simp only [hread] at hrun
            cases hrun
          | some c =>
            simp only [hread] at hrun
            cases hcc : chainChildren s (s.prs.length + 1) c.first_spec with
            | error e =>
              simp only [hcc] at hrun
              cases hrun
            | ok pushes =>
              simp only [hcc] at hrun
              have hcmem : c ∈ s.prd := (prdRead_some hread).1
              have hcceq := chainChildren_ok h hcmem
              rw [hcc] at hcceq
              have hpe : pushes = childrenOf s (chainOf s c.first_spec) :=
                Except.ok.inj hcceq
              have htv' : target ∉ cur :: visited := by
                intro hin
                rcases List.mem_cons.mp hin with heq | hin
                · exact hct heq.symm
                · exact htv hin
              have hclo' : ∀ v ∈ cur :: visited, ∀ w, Edge s v w →
                  w ∈ cur :: visited ∨ w ∈ pushes.reverse ++ rest := by
                intro v hv w hw
                rcases List.mem_cons.mp hv with rfl | hv
                · rcases hw with ⟨c', hread', sr, hsr, hact, hoff⟩
                  rw [hread] at hread'
                  have hc' : c' = c := (Option.some.inj hread').symm
                  rw [hc'] at hsr
                  refine Or.inr (List.mem_append.mpr (Or.inl ?_))
                  rw [List.mem_reverse, hpe]
                  exact mem_childrenOf.mpr ⟨sr, hsr, hact, hoff⟩
                · rcases hclo v hv w hw with hin | hin
                  · exact Or.inl (List.mem_cons_of_mem _ hin)
                  · rcases List.mem_cons.mp hin with rfl | hin
                    · exact Or.inl (List.mem_cons_self _ _)
                    · exact Or.inr (List.mem_append.mpr (Or.inr hin))
              have hres := ih hrun htv' hclo'
              rcases hu with hin | hin
              · rcases List.mem_cons.mp hin with rfl | hin
                · exact hres u (Or.inr (List.mem_cons_self _ _))
                · exact hres u (Or.inl (List.mem_append.mpr (Or.inr hin)))
              · exact hres u (Or.inr (List.mem_cons_of_mem _ hin))

theorem length_filter_cons_contains {l visited : List Int} {cur : Int}
    (hnd : l.Nodup) (hcur : cur ∈ l) (hvis : visited.contains cur = false) :
    (l.filter (fun o => !((cur :: visited).contains o))).length + 1
      = (l.filter (fun o => !(visited.contains o))).length := by
  have hstep : l.filter (fun o => !((cur :: visited).contains o))
      = (l.filter (fun o => !(visited.contains o))).filter (fun o => !(o == cur)) := by
    rw [List.filter_filter]
    refine List.filter_congr ?_
    intro o _
    rw [List.contains_cons, Bool.not_or]
  have hmemf : cur ∈ l.filter (fun o => !(visited.contains o)) :=
    List.mem_filter.mpr ⟨hcur, by rw [hvis]; rfl⟩
  have hndf : (l.filter (fun o => !(visited.contains o))).Nodup := hnd.filter _
  have herase : (l.filter (fun o => !(visited.contains o))).filter (fun o => !(o == cur))
      = (l.filter (fun o => !(visited.contains o))).erase cur := by
    rw [List.Nodup.erase_eq_filter hndf]
    refine List.filter_congr ?_
    intro o _
    simp [bne]
  have hlen : ((l.filter (fun o => !(visited.contains o))).erase cur).length
      = (l.filter (fun o => !(visited.contains o))).length - 1 :=
    List.length_erase_of_mem hmemf
  have hpos : 0 < (l.filter (fun o => !(visited.contains o))).length :=
    List.length_pos.mpr (List.ne_nil_of_mem hmemf)
  rw [hstep, herase, hlen]
  omega

theorem hasPathLoop_ok {s : PSApp} {target : Int} (h : WF s) :
    ∀ {fuel : Nat} {stack visited : List Int},
      (∀ u ∈ stack, u ∈ s.prd.map (fun r => r.off)) →
      stack.length
        + ((s.prd.map (fun r => r.off)).filter (fun o => !(visited.contains o))).length
          * (s.prs.length + 1) < fuel →
      ∃ b, hasPathLoop s target fuel stack visited = .ok b := by
  intro fuel
  induction fuel with
  | zero =>
    intro stack visited _ hF
    omega
  | succ F ih =>
    intro stack visited hmem hF
    cases stack with
    | nil => exact ⟨false, by simp [hasPathLoop]⟩
    | cons cur rest =>
      by_cases hct : cur = target
      · refine ⟨true, ?_⟩
        simp only [hasPathLoop]
        rw [if_pos (beq_iff_eq.mpr hct)]
      · by_cases hvis : visited.contains cur = true
        · have hF' : rest.length
              + ((s.prd.map (fun r => r.off)).filter
                  (fun o => !(visited.contains o))).length * (s.prs.length + 1) < F := by
            simp only [List.length_cons] at hF
            omega
          rcases ih (fun u hu => hmem u (List.mem_cons_of_mem _ hu)) hF' with ⟨b, hb⟩
          refine ⟨b, ?_⟩
          simp only [hasPathLoop]
          rw [if_neg (by rw [beq_int_false hct]; exact Bool.false_ne_true), if_pos hvis]
          exact hb
        · have hcur : cur ∈ s.prd.map (fun r => r.off) := hmem cur (List.mem_cons_self _ _)
          rcases List.mem_map.mp hcur with ⟨r, hr, hoff⟩
          have hread : prdRead s cur = some r := by
            rw [← hoff]
            exact prdRead_mem (WF_prdPos h) hr
          have hok := WF_chains h r hr
          cases hch : prsChain s (s.prs.length + 1) r.first_spec with
          | error e =>
            rw [hch] at hok
            simp [exceptOk] at hok
          | ok ch =>
            have hcceq : chainChildren s (s.prs.length + 1) r.first_spec
                = .ok (childrenOf s ch) :=
              chainChildren_eq hch
                (fun sr hsr _ => WF_comp h sr (SChain_mem (prsChain_ok_chain hch).1 sr hsr))
            have hchlen : ch.length ≤ s.prs.length :=
              SChain_length_le (prsChain_ok_chain hch).1 (prsChain_nodup hch)
            have hplen : (childrenOf s ch).length ≤ s.prs.length :=
              le_trans (childrenOf_length_le ch) hchlen
            have hmem' : ∀ u ∈ (childrenOf s ch).reverse ++ rest,
                u ∈ s.prd.map (fun r => r.off) := by
              intro u hu
              rcases List.mem_append.mp hu with hu | hu
              · have hup : u ∈ childrenOf s ch := List.mem_reverse.mp hu
                rcases mem_childrenOf.mp hup with ⟨sr, hsr, hact, hoffu⟩
                rcases activeChildB_read hact with ⟨child, hcr, _⟩
                rw [hoffu] at hcr
                rcases prdRead_some hcr with ⟨hcm, hcoff⟩
                exact List.mem_map.mpr ⟨child, hcm, hcoff⟩
              · exact hmem u (List.mem_cons_of_mem _ hu)
            have hvisf : visited.contains cur = false := by
              cases hv : visited.contains cur
              · rfl
              · exact absurd hv hvis
            have hndoffs : (s.prd.map (fun r => r.off)).Nodup :=
              prdPositional_nodup (prd_rec_size_pos s) (WF_prdPos h)
            have hU := length_filter_cons_contains hndoffs hcur hvisf
            have hF' : ((childrenOf s ch).reverse ++ rest).length
                + ((s.prd.map (fun r => r.off)).filter
                    (fun o => !((cur :: visited).contains o))).length * (s.prs.length + 1)
                  < F := by
              rw [List.length_append, List.length_reverse]
              simp only [List.length_cons] at hF
              rw [← hU] at hF
              have hexp : (((s.prd.map (fun r => r.off)).filter
                    (fun o => !((cur :: visited).contains o))).length + 1) * (s.prs.length + 1)
                  = ((s.prd.map (fun r => r.off)).filter
                    (fun o => !((cur :: visited).contains o))).length * (s.prs.length + 1)
                    + (s.prs.length + 1) := by
                ring
              rw [hexp] at hF
              omega
            rcases ih hmem' hF' with ⟨b, hb⟩
            refine ⟨b, ?_⟩
            simp only [hasPathLoop]
            rw [if_neg (by rw [beq_int_false hct]; exact Bool.false_ne_true), if_neg hvis]
            simp only [hread, hcceq]
            exact hb

theorem has_path_iff {s : PSApp} {start target : Int} {b : Bool} (h : WF s)
    (hstart : start ∈ s.prd.map (fun r => r.off))
    (hrun : has_path s start target = .ok b) :
    b = true ↔ Reach s target start := by
  constructor
  · intro hb
    subst hb
    rcases hasPathLoop_true h hrun with ⟨u, hu, hr⟩
    have hu' : u = start := by simpa using hu
    rwa [← hu']
  · intro hreach
    cases hb : b with
    | true => rfl
    | false =>
      rw [hb] at hrun
      exact absurd hreach
        (hasPathLoop_false h hrun (by simp) (fun v hv => absurd hv (List.not_mem_nil v))
          start (Or.inl (List.mem_cons_self _ _)))

end CycleLemmas

section SegLemmas

variable {s : PSApp}

theorem LChain_iff_seg : ∀ {ptr : Int} {l : List PrdRec}, LChain s ptr l ↔ LSeg s ptr l (-1) := by
  intro ptr l
  induction l generalizing ptr with
  | nil => exact Iff.rfl
  | cons r rest ih =>
    constructor
    · rintro ⟨hp, hr, hrest⟩
      exact ⟨hp, hr, ih.mp hrest⟩
    · rintro ⟨hp, hr, hrest⟩
      exact ⟨hp, hr, ih.mpr hrest⟩

theorem LSeg_append_of :
    ∀ {u v : List PrdRec} {p m q : Int}, LSeg s p u m → LSeg s m v q → LSeg s p (u ++ v) q := by
  intro u
  induction u with
  | nil =>
    intro v p m q h1 h2
    have hpm : p = m := h1
    rw [List.nil_append, hpm]
    exact h2
  | cons r rest ih =>
    intro v p m q h1 h2
    rcases h1 with ⟨hp, hr, hrest⟩
    exact ⟨hp, hr, ih hrest h2⟩

theorem LSeg_split :
    ∀ {u v : List PrdRec} {p q : Int}, LSeg s p (u ++ v) q →
      LSeg s p u (headOffOr q v) ∧ LSeg s (headOffOr q v) v q := by
  intro u
  induction u with
  | nil =>
    intro v p q h
    rw [List.nil_append] at h
    cases v with
    | nil =>
      have hpq : p = q := h
      exact ⟨hpq, rfl⟩
    | cons r rest =>
      rcases h with ⟨hp, hr, hrest⟩
      refine ⟨hp, rfl, ?_, hrest⟩
      show prdRead s r.off = some r
      rw [← hp]
      exact hr
  | cons r rest ih =>
    intro v p q h
    rcases h with ⟨hp, hr, hrest⟩
    rcases ih hrest with ⟨h1, h2⟩
    exact ⟨⟨hp, hr, h1⟩, h2⟩

theorem LSeg_congr {s' : PSApp} :
    ∀ {u : List PrdRec} {p q : Int}, LSeg s p u q →
      (∀ r ∈ u, prdRead s' r.off = prdRead s r.off) → LSeg s' p u q := by
  intro u
  induction u with
  | nil =>
    intro p q h _
    exact h
  | cons r rest ih =>
    intro p q h hreads
    rcases h with ⟨hp, hr, hrest⟩
    subst hp
    exact ⟨rfl, by rw [hreads r (List.mem_cons_self _ _)]; exact hr,
      ih hrest (fun x hx => hreads x (List.mem_cons_of_mem _ hx))⟩

theorem walkPrev_concat (p : Int) :
    ∀ (l : List PrdRec) (x : PrdRec), walkPrev p (l ++ [x]) = x.off := by
  intro l
  induction l generalizing p with
  | nil => intro x; rfl
  | cons a as ih => intro x; exact ih a.off x

theorem prdPositional_snoc {size : Int} :
    ∀ {l : List PrdRec} {w : Int} {r : PrdRec},
      prdPositional size w l = true → r.off = w + (l.length : Int) * size →
      prdPositional size w (l ++ [r]) = true := by
  intro l
  induction l with
  | nil =>
    intro w r _ hoff
    simp only [List.length_nil, Nat.cast_zero, zero_mul, add_zero] at hoff
    simp only [List.nil_append, prdPositional, Bool.and_eq_true]
    exact ⟨beq_iff_eq.mpr hoff, trivial⟩
  | cons a as ih =>
    intro w r h hoff
    rcases prdPositional_cons h with ⟨ha, has⟩
    simp only [List.cons_append, prdPositional, Bool.and_eq_true]
    refine ⟨beq_iff_eq.mpr ha, ?_⟩
    refine ih has ?_
    rw [hoff]
    simp only [List.length_cons]
    push_cast
    ring

theorem pos_off_lt_free {s : PSApp}
    (hpos : prdPositional (prd_rec_size s) PRD_HDR_SIZE s.prd = true)
    (hfree : s.prd_free = PRD_HDR_SIZE + (s.prd.length : Int) * prd_rec_size s) :
    ∀ x ∈ s.prd, x.off < s.prd_free := by
  intro x hx
  have := prdPositional_ub (prd_rec_size_pos s) hpos x hx
  rw [hfree]
  exact this

theorem pairwise_name_eq {l₁ l₂ : List PrdRec}
    (hmap : l₁.map (fun r => r.name) = l₂.map (fun r => r.name))
    (hp : l₁.Pairwise (fun x y => keyLe x.name y.name = true)) :
    l₂.Pairwise (fun x y => keyLe x.name y.name = true) := by
  have h1 : (l₁.map (fun r => r.name)).Pairwise (fun a b => keyLe a b = true) :=
    (List.pairwise_map).mpr hp
  rw [hmap] at h1
  exact (List.pairwise_map).mp h1

theorem prd_read_canon {s : PSApp}
    (hpos : prdPositional (prd_rec_size s) PRD_HDR_SIZE s.prd = true)
    {y z : PrdRec} (hy : y ∈ s.prd) (hz : prdRead s y.off = some z) : y = z := by
  have := prdRead_mem hpos hy
  rw [this] at hz
  exact Option.some.inj hz

theorem refScan_none {s : PSApp} {t : Int} :
    ∀ recs : List PrdRec, (∀ c ∈ recs, c.first_spec = -1) →
      refScan s t recs = .ok false := by
  intro recs
  induction recs with
  | nil =>
    intro _
    rfl
  | cons c rest ih =>
    intro hfs
    by_cases hskip : (c.del_ != 0 || c.off == t) = true
    · simp only [refScan]
      rw [if_pos hskip]
      exact ih (fun x hx => hfs x (List.mem_cons_of_mem _ hx))
    · have hskipf : (c.del_ != 0 || c.off == t) = false := by
        cases hcv : (c.del_ != 0 || c.off == t)
        · rfl
        · exact absurd hcv hskip
      simp only [refScan]
      rw [if_neg (by rw [hskipf]; exact Bool.false_ne_true)]
      rw [hfs c (List.mem_cons_self _ _)]
      rw [show refScanChain s t (s.prs.length + 1) (-1) = .ok false from by
        simp [refScanChain]]
      exact ih (fun x hx => hfs x (List.mem_cons_of_mem _ hx))

theorem markChain_neg1 (v : Int) (F : Nat) (s : PSApp) :
    markChain v (F + 1) s (-1) = .ok s := by
  simp [markChain]

end SegLemmas

section RelinkStrong

theorem relinked_map_off : ∀ recs : List PrdRec,
    (relinked recs).map (fun r => r.off) = recs.map (fun r => r.off) := by
  intro recs
  induction recs with
  | nil => rfl
  | cons r rest ih =>
    cases rest with
    | nil => rfl
    | cons r2 rest2 =>
      show (PrdRec.off { r with next_ := r2.off })
            :: (relinked (r2 :: rest2)).map (fun r => r.off)
          = r.off :: (r2 :: rest2).map (fun r => r.off)
      rw [ih]

theorem relinked_map_name : ∀ recs : List PrdRec,
    (relinked recs).map (fun r => r.name) = recs.map (fun r => r.name) := by
  intro recs
  induction recs with
  | nil => rfl
  | cons r rest ih =>
    cases rest with
    | nil => rfl
    | cons r2 rest2 =>
      show (PrdRec.name { r with next_ := r2.off })
            :: (relinked (r2 :: rest2)).map (fun r => r.name)
          = r.name :: (r2 :: rest2).map (fun r => r.name)
      rw [ih]

theorem relinked_mem : ∀ {recs : List PrdRec} {y : PrdRec}, y ∈ relinked recs →
    ∃ r ∈ recs, ∃ nx, y = { r with next_ := nx } := by
  intro recs
  induction recs with
  | nil =>
    intro y hy
    exact absurd hy (List.not_mem_nil y)
  | cons r rest ih =>
    intro y hy
    cases rest with
    | nil =>
      have hy' : y ∈ [{ r with next_ := -1 }] := hy
      rw [List.mem_singleton] at hy'
      exact ⟨r, List.mem_cons_self _ _, -1, hy'⟩
    | cons r2 rest2 =>
      have hy' : y ∈ { r with next_ := r2.off } :: relinked (r2 :: rest2) := hy
      rcases List.mem_cons.mp hy' with rfl | hy2
      · exact ⟨r, List.mem_cons_self _ _, r2.off, rfl⟩
      · rcases ih hy2 with ⟨r', hr', nx, heq⟩
        exact ⟨r', List.mem_cons_of_mem _ hr', nx, heq⟩

theorem relink_strong :
    ∀ {recs : List PrdRec} {s : PSApp},
      (∀ r ∈ recs, ∃ x ∈ s.prd, x.off = r.off) →
      (∀ r ∈ recs, fieldRoundtrip s.data_len r.typ r.name = (r.typ, r.name)) →
      (recs.map (fun r => r.off)).Nodup →
      LChain (relinkChain s recs) (headOffOr (-1) recs) (relinked recs) ∧
      (∀ o : Int, o ∉ recs.map (fun r => r.off) →
        prdRead (relinkChain s recs) o = prdRead s o) ∧
      (relinkChain s recs).prd.map (fun r => r.off) = s.prd.map (fun r => r.off) ∧
      (∀ y ∈ (relinkChain s recs).prd, y ∈ s.prd ∨ ∃ r ∈ recs, ∃ nx,
        y = { r with next_ := nx }) := by
  intro recs
  induction recs with
  | nil =>
    intro s _ _ _
    refine ⟨rfl, ?_, rfl, ?_⟩
    · intro o _
      rfl
    · intro y hy
      exact Or.inl hy
  | cons r rest ih =>
    intro s hmem hnorm hnd
    cases rest with
    | nil =>
      have hm : ∃ x ∈ s.prd, x.off = PrdRec.off { r with next_ := -1 } := hmem r (by simp)
      rw [relinkChain_one]
      refine ⟨?_, ?_, prdWrite_offs_of_mem hm, ?_⟩
      · refine ⟨rfl, ?_, rfl⟩
        have h1 := @prdRead_write_self s { r with next_ := -1 }
        rw [@normRec_eq_self s.data_len { r with next_ := -1 } (hnorm r (by simp))] at h1
        exact h1
      · intro o ho
        have ho1 : o ≠ r.off := by
          intro hc
          exact ho (by rw [hc]; exact List.mem_map.mpr ⟨r, List.mem_cons_self _ _, rfl⟩)
        exact prdRead_write_other ho1
      · intro y hy
        rcases prdWrite_prd_mem y hy with h | h
        · exact Or.inl h
        · refine Or.inr ⟨r, List.mem_cons_self _ _, -1, ?_⟩
          rw [h, @normRec_eq_self s.data_len { r with next_ := -1 } (hnorm r (by simp))]
    | cons r2 rest2 =>
      have hm : ∃ x ∈ s.prd, x.off = PrdRec.off { r with next_ := r2.off } := hmem r (by simp)
      have hoffs : (prdWrite s { r with next_ := r2.off }).prd.map (fun x => x.off)
          = s.prd.map (fun x => x.off) := prdWrite_offs_of_mem hm
      have hdl : (prdWrite s { r with next_ := r2.off }).data_len = s.data_len :=
        (prdWrite_fields _).1
      have hmem' : ∀ x ∈ r2 :: rest2,
          ∃ y ∈ (prdWrite s { r with next_ := r2.off }).prd, y.off = x.off := by
        intro x hx
        rcases hmem x (List.mem_cons_of_mem _ hx) with ⟨y, hy, hyoff⟩
        have hin : y.off ∈ (prdWrite s { r with next_ := r2.off }).prd.map (fun z => z.off) := by
          rw [hoffs]
          exact List.mem_map.mpr ⟨y, hy, rfl⟩
        rcases List.mem_map.mp hin with ⟨z, hz, hzoff⟩
        exact ⟨z, hz, by rw [hzoff, hyoff]⟩
      have hnorm' : ∀ x ∈ r2 :: rest2,
          fieldRoundtrip (prdWrite s { r with next_ := r2.off }).data_len x.typ x.name
            = (x.typ, x.name) := by
        intro x hx
        rw [hdl]
        exact hnorm x (List.mem_cons_of_mem _ hx)
      have hnd0 : ((r :: r2 :: rest2).map (fun x => x.off)).Nodup := hnd
      rw [List.map_cons] at hnd0
      have hnotin : r.off ∉ (r2 :: rest2).map (fun x => x.off) := (List.nodup_cons.mp hnd0).1
      have hnd' : ((r2 :: rest2).map (fun x => x.off)).Nodup := (List.nodup_cons.mp hnd0).2
      obtain ⟨ihch, ihoth, ihoffs, ihmem2⟩ := ih hmem' hnorm' hnd'
      rw [relinkChain_cons_cons]
      refine ⟨?_, ?_, ?_, ?_⟩
      · refine ⟨rfl, ?_, ihch⟩
        show prdRead (relinkChain (prdWrite s { r with next_ := r2.off }) (r2 :: rest2)) r.off
            = some { r with next_ := r2.off }
        rw [ihoth r.off hnotin]
        have h1 := @prdRead_write_self s { r with next_ := r2.off }
        rw [@normRec_eq_self s.data_len { r with next_ := r2.off } (hnorm r (by simp))] at h1
        exact h1
      · intro o ho
        have ho1 : o ≠ r.off := by
          intro hc
          exact ho (by rw [hc]; exact List.mem_map.mpr ⟨r, List.mem_cons_self _ _, rfl⟩)
        have ho2 : o ∉ (r2 :: rest2).map (fun x => x.off) := by
          intro hc
          rcases List.mem_map.mp hc with ⟨z, hz, hzoff⟩
          exact ho (List.mem_map.mpr ⟨z, List.mem_cons_of_mem _ hz, hzoff⟩)
        rw [ihoth o ho2]
        exact prdRead_write_other ho1
      · exact ihoffs.trans hoffs
      · intro y hy
        rcases ihmem2 y hy with h | ⟨r', hr', nx, heq⟩
        · rcases prdWrite_prd_mem y h with h2 | h2
          · exact Or.inl h2
          · refine Or.inr ⟨r, List.mem_cons_self _ _, r2.off, ?_⟩
            rw [h2, @normRec_eq_self s.data_len { r with next_ := r2.off } (hnorm r (by simp))]
        · exact Or.inr ⟨r', List.mem_cons_of_mem _ hr', nx, heq⟩

theorem restoreAllPrd_eq :
    ∀ {recs : List PrdRec} {s : PSApp},
      (∀ r ∈ recs, prdRead s r.off = some r) →
      (∀ r ∈ recs, fieldRoundtrip s.data_len r.typ r.name = (r.typ, r.name)) →
      (recs.map (fun r => r.off)).Nodup →
      (∀ r ∈ recs, prdRead (restoreAllPrd s recs) r.off = some { r with del_ := 0 }) ∧
      (∀ o : Int, o ∉ recs.map (fun r => r.off) →
        prdRead (restoreAllPrd s recs) o = prdRead s o) ∧
      (restoreAllPrd s recs).prd.map (fun r => r.off) = s.prd.map (fun r => r.off) ∧
      (∀ y ∈ (restoreAllPrd s recs).prd, y ∈ s.prd ∨ ∃ r ∈ recs, y = { r with del_ := 0 }) ∧
      (restoreAllPrd s recs).data_len = s.data_len ∧
      (restoreAllPrd s recs).prs = s.prs ∧
      (restoreAllPrd s recs).prd_free = s.prd_free ∧
      (restoreAllPrd s recs).prs_free = s.prs_free ∧
      (restoreAllPrd s recs).prd_head = s.prd_head := by
  intro recs
  induction recs with
  | nil =>
    intro s _ _ _
    refine ⟨?_, ?_, rfl, ?_, rfl, rfl, rfl, rfl, rfl⟩
    · intro r hr
      exact absurd hr (List.not_mem_nil r)
    · intro o _
      rfl
    · intro y hy
      exact Or.inl hy
  | cons c rest ih =>
    intro s hstored hnorm hnd
    have hnd0 : ((c :: rest).map (fun x => x.off)).Nodup := hnd
    rw [List.map_cons] at hnd0
    have hnotin : c.off ∉ rest.map (fun x => x.off) := (List.nodup_cons.mp hnd0).1
    have hnd' : (rest.map (fun x => x.off)).Nodup := (List.nodup_cons.mp hnd0).2
    have hcmem : c ∈ s.prd := (prdRead_some (hstored c (List.mem_cons_self _ _))).1
    by_cases hdel : (c.del_ != 0) = true
    · have hm : ∃ x ∈ s.prd, x.off = PrdRec.off { c with del_ := 0 } := ⟨c, hcmem, rfl⟩
      have heq : restoreAllPrd s (c :: rest)
          = restoreAllPrd (prdWrite s { c with del_ := 0 }) rest := by
        simp only [restoreAllPrd]
        rw [if_pos hdel]
      have hdl : (prdWrite s { c with del_ := 0 }).data_len = s.data_len :=
        (prdWrite_fields _).1
      have hstored' : ∀ r ∈ rest, prdRead (prdWrite s { c with del_ := 0 }) r.off = some r := by
        intro r hr
        rw [prdRead_write_other (by
          intro hcc
          exact hnotin (by rw [← hcc]; exact List.mem_map.mpr ⟨r, hr, rfl⟩))]
        exact hstored r (List.mem_cons_of_mem _ hr)
      have hnorm' : ∀ r ∈ rest,
          fieldRoundtrip (prdWrite s { c with del_ := 0 }).data_len r.typ r.name
            = (r.typ, r.name) := by
        intro r hr
        rw [hdl]
        exact hnorm r (List.mem_cons_of_mem _ hr)
      obtain ⟨ihrd, ihoth, ihoffs, ihmem, ihdl, ihprs, ihpf, ihsf, ihph⟩ :=
        ih hstored' hnorm' hnd'
      rw [heq]
      have hwf := prdWrite_fields (s := s) { c with del_ := 0 }
      refine ⟨?_, ?_, ihoffs.trans (prdWrite_offs_of_mem hm), ?_,
        ihdl.trans hwf.1, ihprs.trans hwf.2.2.2.2.2, ihpf.trans hwf.2.2.1,
        ihsf.trans hwf.2.2.2.2.1, ihph.trans hwf.2.1⟩
      · intro r hr
        rcases List.mem_cons.mp hr with rfl | hr
        · rw [ihoth r.off hnotin]
          have h1 := @prdRead_write_self s { r with del_ := 0 }
          rw [@normRec_eq_self s.data_len { r with del_ := 0 }
            (hnorm r (List.mem_cons_self _ _))] at h1
          exact h1
        · exact ihrd r hr
      · intro o ho
        have ho1 : o ≠ c.off := by
          intro hcc
          exact ho (by rw [hcc]; exact List.mem_map.mpr ⟨c, List.mem_cons_self _ _, rfl⟩)
        have ho2 : o ∉ rest.map (fun x => x.off) := by
          intro hcc
          rcases List.mem_map.mp hcc with ⟨z, hz, hzoff⟩
          exact ho (List.mem_map.mpr ⟨z, List.mem_cons_of_mem _ hz, hzoff⟩)
        rw [ihoth o ho2]
        exact prdRead_write_other ho1
      · intro y hy
        rcases ihmem y hy with h | ⟨r', hr', heq2⟩
        · rcases prdWrite_prd_mem y h with h2 | h2
          · exact Or.inl h2
          · refine Or.inr ⟨c, List.mem_cons_self _ _, ?_⟩
            rw [h2, @normRec_eq_self s.data_len { c with del_ := 0 }
              (hnorm c (List.mem_cons_self _ _))]
        · exact Or.inr ⟨r', List.mem_cons_of_mem _ hr', heq2⟩
    · have hdel0 : c.del_ = 0 := by
        have : (c.del_ == 0) = true := by
          cases hcc : (c.del_ == 0)
          · unfold bne at hdel
            rw [hcc] at hdel
            simp at hdel
          · rfl
        exact beq_iff_eq.mp this
      have hceq : ({ c with del_ := 0 } : PrdRec) = c := by
        rw [← hdel0]
      have heq : restoreAllPrd s (c :: rest) = restoreAllPrd s rest := by
        simp only [restoreAllPrd]
        rw [if_neg hdel]
      obtain ⟨ihrd, ihoth, ihoffs, ihmem, ihdl, ihprs, ihpf, ihsf, ihph⟩ :=
        ih (fun r hr => hstored r (List.mem_cons_of_mem _ hr))
          (fun r hr => hnorm r (List.mem_cons_of_mem _ hr)) hnd'
      rw [heq]
      refine ⟨?_, ?_, ihoffs, ?_, ihdl, ihprs, ihpf, ihsf, ihph⟩
      · intro r hr
        rcases List.mem_cons.mp hr with rfl | hr
        · rw [ihoth r.off hnotin, hstored r (List.mem_cons_self _ _)]
          rw [show ({ r with del_ := 0 } : PrdRec) = r from hceq]
        · exact ihrd r hr
      · intro o ho
        have ho2 : o ∉ rest.map (fun x => x.off) := by
          intro hcc
          rcases List.mem_map.mp hcc with ⟨z, hz, hzoff⟩
          exact ho (List.mem_map.mpr ⟨z, List.mem_cons_of_mem _ hz, hzoff⟩)
        exact ihoth o ho2
      · intro y hy
        rcases ihmem y hy with h | ⟨r', hr', heq2⟩
        · exact Or.inl h
        · exact Or.inr ⟨r', List.mem_cons_of_mem _ hr', heq2⟩

theorem rebuild_chainInv {s : PSApp}
    (hpos : prdPositional (prd_rec_size s) PRD_HDR_SIZE s.prd = true)
    (hfree : s.prd_free = PRD_HDR_SIZE + (s.prd.length : Int) * prd_rec_size s)
    (hnormAll : ∀ r ∈ s.prd, fieldRoundtrip s.data_len r.typ r.name = (r.typ, r.name)) :
    ∃ s', rebuild_alphabetical s = .ok s' ∧
      s'.prs = s.prs ∧ s'.data_len = s.data_len ∧
      s'.prd_free = s.prd_free ∧ s'.prs_free = s.prs_free ∧
      s'.prd.length = s.prd.length ∧
      s'.prd.map (fun r => r.off) = s.prd.map (fun r => r.off) ∧
      (∀ y ∈ s'.prd, y ∈ s.prd ∨ ∃ r ∈ s.prd, ∃ nx, y = { r with next_ := nx }) ∧
      chainInv s' (relinked (pySort (fun a b => keyLe a.name b.name)
        (s.prd.filter (fun r => r.del_ == 0)))) := by
  have hscan : scan_prd_physical s = .ok s.prd := scan_prd_eq hpos hfree
  have hndall : (s.prd.map (fun r => r.off)).Nodup :=
    prdPositional_nodup (prd_rec_size_pos s) hpos
  have hsubmem : ∀ r ∈ pySort (fun a b => keyLe a.name b.name)
      (s.prd.filter (fun r => r.del_ == 0)), r ∈ s.prd :=
    fun r hr => List.mem_of_mem_filter (mem_pySort.mp hr)
  have hmemA : ∀ r ∈ pySort (fun a b => keyLe a.name b.name)
      (s.prd.filter (fun r => r.del_ == 0)), ∃ x ∈ s.prd, x.off = r.off :=
    fun r hr => ⟨r, hsubmem r hr, rfl⟩
  have hnormA : ∀ r ∈ pySort (fun a b => keyLe a.name b.name)
      (s.prd.filter (fun r => r.del_ == 0)),
      fieldRoundtrip s.data_len r.typ r.name = (r.typ, r.name) :=
    fun r hr => hnormAll r (hsubmem r hr)
  have hndA : ((pySort (fun a b => keyLe a.name b.name)
      (s.prd.filter (fun r => r.del_ == 0))).map (fun r => r.off)).Nodup := by
    have h1 : ((s.prd.filter (fun r => r.del_ == 0)).map (fun r => r.off)).Nodup :=
      List.Nodup.sublist (List.Sublist.map _ (List.filter_sublist _)) hndall
    have h2 := (@pySort_perm PrdRec (fun a b => keyLe a.name b.name)
      (s.prd.filter (fun r => r.del_ == 0))).map (fun r => r.off)
    exact h2.nodup_iff.mpr h1
  obtain ⟨hchA, hothA, hoffsA, hmemA2⟩ := relink_strong hmemA hnormA hndA
  obtain ⟨hprs, hdl, hpf, hsf, hlen, _, _⟩ := relink_reads hmemA hnormA hndA
  refine ⟨{ relinkChain s (pySort (fun a b => keyLe a.name b.name)
        (s.prd.filter (fun r => r.del_ == 0))) with
      prd_head :=
        match pySort (fun a b => keyLe a.name b.name)
            (s.prd.filter (fun r => r.del_ == 0)) with
        | [] => -1
        | r :: _ => r.off },
    ?_, hprs, hdl, hpf, hsf, hlen, hoffsA, ?_, ?_, ?_, ?_, ?_, ?_⟩
  · simp only [rebuild_alphabetical, hscan]
  · intro y hy
    rcases hmemA2 y hy with h | ⟨r, hr, nx, heq⟩
    · exact Or.inl h
    · exact Or.inr ⟨r, hsubmem r hr, nx, heq⟩
  · -- LChain
    have hhead : (match pySort (fun a b => keyLe a.name b.name)
          (s.prd.filter (fun r => r.del_ == 0)) with
        | [] => (-1 : Int)
        | r :: _ => r.off)
        = headOffOr (-1) (pySort (fun a b => keyLe a.name b.name)
            (s.prd.filter (fun r => r.del_ == 0))) := by
      cases pySort (fun a b => keyLe a.name b.name) (s.prd.filter (fun r => r.del_ == 0)) with
      | nil => rfl
      | cons a as => rfl
    have hch2 := hchA
    rw [← hhead] at hch2
    exact LChain_congr hch2 (fun x _ => rfl)
  · -- nodup offs
    rw [relinked_map_off]
    exact hndA
  · -- ne -1
    intro x hx
    rcases relinked_mem hx with ⟨r, hr, nx, heq⟩
    have hge : PRD_HDR_SIZE ≤ r.off := prdPositional_lb (prd_rec_size_pos s) hpos r (hsubmem r hr)
    rw [heq]
    show r.off ≠ -1
    simp only [PRD_HDR_SIZE] at hge
    omega
  · -- coverage
    intro y hy hydel
    have hpos' : prdPositional (prd_rec_size (relinkChain s (pySort
        (fun a b => keyLe a.name b.name) (s.prd.filter (fun r => r.del_ == 0)))))
        PRD_HDR_SIZE (relinkChain s (pySort (fun a b => keyLe a.name b.name)
          (s.prd.filter (fun r => r.del_ == 0)))).prd = true := by
      rw [show prd_rec_size (relinkChain s (pySort (fun a b => keyLe a.name b.name)
          (s.prd.filter (fun r => r.del_ == 0)))) = prd_rec_size s from by
        unfold prd_rec_size
        rw [hdl]]
      rw [prdPositional_of_offs_eq hoffsA]
      exact hpos
    have hread : prdRead (relinkChain s (pySort (fun a b => keyLe a.name b.name)
        (s.prd.filter (fun r => r.del_ == 0)))) y.off = some y := prdRead_mem hpos' hy
    by_cases hin : y.off ∈ (pySort (fun a b => keyLe a.name b.name)
        (s.prd.filter (fun r => r.del_ == 0))).map (fun r => r.off)
    · -- find the relinked record at this offset
      have hin2 : y.off ∈ (relinked (pySort (fun a b => keyLe a.name b.name)
          (s.prd.filter (fun r => r.del_ == 0)))).map (fun r => r.off) := by
        rw [relinked_map_off]
        exact hin
      rcases List.mem_map.mp hin2 with ⟨y', hy', hyoff⟩
      have hyoff' : y'.off = y.off := hyoff
      have hry' := LChain_read hchA y' hy'
      rw [hyoff'] at hry'
      rw [hry'] at hread
      have hyy := Option.some.inj hread
      rw [← hyy]
      exact hy'
    · have h1 := hothA y.off hin
      rw [h1] at hread
      have hymem : y ∈ s.prd := (prdRead_some hread).1
      have : y ∈ pySort (fun a b => keyLe a.name b.name)
          (s.prd.filter (fun r => r.del_ == 0)) := by
        rw [mem_pySort]
        exact List.mem_filter.mpr ⟨hymem, beq_iff_eq.mpr hydel⟩
      exact absurd (List.mem_map.mpr ⟨y, this, rfl⟩) hin
  · -- sorted
    refine pairwise_name_eq (relinked_map_name _).symm ?_
    exact pySort_sorted (fun a b => keyLe_total a.name b.name)
      (fun a b c h1 h2 => keyLe_trans a.name b.name c.name h1 h2) _

end RelinkStrong

section InvLemmas

theorem INV_create {maxlen : Nat} {s0 : PSApp} (h : create maxlen = .ok s0) : INV s0 := by
  unfold create at h
  by_cases hm : maxlen < 4
  · rw [if_pos hm] at h
    cases h
  · rw [if_neg hm] at h
    have hs := Except.ok.inj h
    subst hs
    refine ⟨by show 4 ≤ maxlen; omega, rfl, by simp [PRD_HDR_SIZE], ?_, ?_, rfl, rfl,
      ⟨[], rfl, by simp, ?_, ?_, List.Pairwise.nil⟩⟩
    · intro r hr
      exact absurd hr (List.not_mem_nil r)
    · intro r hr
      exact absurd hr (List.not_mem_nil r)
    · intro x hx
      exact absurd hx (List.not_mem_nil x)
    · intro r hr _
      exact absurd hr (List.not_mem_nil r)

theorem INV_of_rebuild {s1 s' : PSApp}
    (hdl : 4 ≤ s1.data_len)
    (hpos : prdPositional (prd_rec_size s1) PRD_HDR_SIZE s1.prd = true)
    (hfree : s1.prd_free = PRD_HDR_SIZE + (s1.prd.length : Int) * prd_rec_size s1)
    (hnorm : ∀ r ∈ s1.prd, fieldRoundtrip s1.data_len r.typ r.name = (r.typ, r.name))
    (hfs : ∀ r ∈ s1.prd, r.first_spec = -1)
    (hprs : s1.prs = [])
    (hsfree : s1.prs_free = PRS_HDR_SIZE)
    (hrb : rebuild_alphabetical s1 = .ok s') : INV s' := by
  obtain ⟨s2, hrb0, hrbprs, hrbdl, hrbpf, hrbsf, hrblen, hrboffs, hrbmem, hrbchain⟩ :=
    rebuild_chainInv hpos hfree hnorm
  rw [hrb0] at hrb
  have hs2 : s2 = s' := Except.ok.inj hrb
  subst hs2
  have hsize : prd_rec_size s2 = prd_rec_size s1 := by
    unfold prd_rec_size
    rw [hrbdl]
  refine ⟨by rw [hrbdl]; exact hdl, ?_, ?_, ?_, ?_, by rw [hrbprs]; exact hprs,
    by rw [hrbsf]; exact hsfree, ⟨_, hrbchain⟩⟩
  · rw [hsize, prdPositional_of_offs_eq hrboffs]
    exact hpos
  · rw [hrbpf, hrblen, hsize]
    exact hfree
  · intro y hy
    rw [hrbdl]
    rcases hrbmem y hy with h | ⟨r, hr, nx, heq⟩
    · exact hnorm y h
    · rw [heq]
      exact hnorm r hr
  · intro y hy
    rcases hrbmem y hy with h | ⟨r, hr, nx, heq⟩
    · exact hfs y h
    · rw [heq]
      exact hfs r hr

theorem LChain_write_mark {s : PSApp} {comp : PrdRec} {v : Int}
    (hpos : prdPositional (prd_rec_size s) PRD_HDR_SIZE s.prd = true)
    (hcomp : comp ∈ s.prd)
    (hnormc : normRec s.data_len { comp with del_ := v } = { comp with del_ := v }) :
    ∀ {ptr : Int} {path : List PrdRec}, LChain s ptr path →
      LChain (prdWrite s { comp with del_ := v }) ptr
        (path.map (fun x => if x.off == comp.off then { comp with del_ := v } else x)) := by
  intro ptr path
  induction path generalizing ptr with
  | nil =>
    intro h
    exact h
  | cons r rest ih =>
    intro h
    obtain ⟨hp, hread, hrest⟩ := h
    simp only [List.map_cons]
    by_cases hc : (r.off == comp.off) = true
    · have hoff : r.off = comp.off := beq_iff_eq.mp hc
      have hrc : comp = r := by
        have h2 : prdRead s comp.off = some comp := prdRead_mem hpos hcomp
        rw [hp, hoff, h2] at hread
        exact Option.some.inj hread
      subst hrc
      rw [if_pos hc]
      refine ⟨?_, ?_, ?_⟩
      · show ptr = comp.off
        exact hp
      · show prdRead (prdWrite s { comp with del_ := v }) ptr = some { comp with del_ := v }
        rw [hp]
        show prdRead (prdWrite s { comp with del_ := v })
          (PrdRec.off { comp with del_ := v }) = some { comp with del_ := v }
        rw [prdRead_write_self, hnormc]
      · exact ih hrest
    · rw [if_neg hc]
      have hoff : r.off ≠ comp.off := fun he => hc (beq_iff_eq.mpr he)
      refine ⟨hp, ?_, ih hrest⟩
      have ho : ptr ≠ PrdRec.off { comp with del_ := v } := by
        rw [hp]
        exact hoff
      rw [prdRead_write_other ho]
      exact hread

theorem INV_del {s s' : PSApp} {name : String} (h : INV s)
    (hop : delete_component s name = .ok s') : INV s' := by
  obtain ⟨hdl, hpos, hfree, hnorm, hfs, hprs, hsfree, path, hlch, hnd, hne, hcov, hpw⟩ := h
  simp only [delete_component] at hop
  cases hfa : find_active s name with
  | error e =>
    simp only [hfa] at hop
    cases hop
  | ok o =>
    cases o with
    | none =>
      simp only [hfa] at hop
      cases hop
    | some comp =>
      simp only [hfa] at hop
      have hfind : s.prd.find? (fun r => r.del_ == 0 && eqPy r.name (norm name))
          = some comp := by
        simp only [find_active, scan_prd_eq hpos hfree] at hfa
        exact Except.ok.inj hfa
      have hcompmem : comp ∈ s.prd := List.mem_of_find?_eq_some hfind
      have hpred := List.find?_some hfind
      have hcompact : comp.del_ = 0 := by
        simp only [Bool.and_eq_true_iff] at hpred
        exact beq_iff_eq.mp hpred.1
      have hrs : refScan s comp.off s.prd = .ok false := refScan_none s.prd hfs
      simp only [scan_prd_eq hpos hfree, hrs] at hop
      have hcfs : comp.first_spec = -1 := hfs comp hcompmem
      have hmk : markChain (-1) (s.prs.length + 1) (prdWrite s { comp with del_ := -1 })
          comp.first_spec = .ok (prdWrite s { comp with del_ := -1 }) := by
        rw [hcfs]
        exact markChain_neg1 (-1) s.prs.length _
      rw [hmk] at hop
      have hs2 : prdWrite s { comp with del_ := -1 } = s' := Except.ok.inj hop
      subst hs2
      have hm : ∃ x ∈ s.prd, x.off = PrdRec.off { comp with del_ := -1 } :=
        ⟨comp, hcompmem, rfl⟩
      have hwf := prdWrite_fields (s := s) { comp with del_ := -1 }
      have hnormc : normRec s.data_len { comp with del_ := -1 } = { comp with del_ := -1 } :=
        @normRec_eq_self s.data_len { comp with del_ := -1 } (hnorm comp hcompmem)
      have hsize1 : prd_rec_size (prdWrite s { comp with del_ := -1 }) = prd_rec_size s := by
        unfold prd_rec_size
        rw [hwf.1]
      have hcpath : comp ∈ path := hcov comp hcompmem hcompact
      refine ⟨?_, ?_, ?_, ?_, ?_, ?_, ?_, ?_⟩
      · rw [hwf.1]
        exact hdl
      · rw [hsize1, prdPositional_of_offs_eq (prdWrite_offs_of_mem hm)]
        exact hpos
      · rw [hwf.2.2.1, prdWrite_length_of_mem hm, hsize1]
        exact hfree
      · intro y hy
        rw [hwf.1]
        rcases prdWrite_prd_mem y hy with h2 | h2
        · exact hnorm y h2
        · rw [h2, hnormc]
          exact hnorm comp hcompmem
      · intro y hy
        rcases prdWrite_prd_mem y hy with h2 | h2
        · exact hfs y h2
        · rw [h2, hnormc]
          exact hfs comp hcompmem
      · rw [hwf.2.2.2.2.2]
        exact hprs
      · rw [hwf.2.2.2.2.1]
        exact hsfree
      · refine ⟨path.map (fun x => if x.off == comp.off then { comp with del_ := -1 } else x),
          ?_, ?_, ?_, ?_, ?_⟩
        · rw [hwf.2.1]
          exact LChain_write_mark hpos hcompmem hnormc hlch
        · have hoffs : (path.map (fun x => if x.off == comp.off then
              { comp with del_ := -1 } else x)).map (fun r => r.off)
              = path.map (fun r => r.off) := by
            rw [List.map_map]
            refine List.map_congr_left ?_
            intro x hx
            by_cases hc : (x.off == comp.off) = true
            · simp only [Function.comp_apply, if_pos hc]
              exact (beq_iff_eq.mp hc).symm
            · simp only [Function.comp_apply, if_neg hc]
          rw [hoffs]
          exact hnd
        · intro x hx
          rcases List.mem_map.mp hx with ⟨y, hy, hyx⟩
          by_cases hc : (y.off == comp.off) = true
          · rw [← hyx, if_pos hc]
            show comp.off ≠ -1
            exact hne comp hcpath
          · rw [← hyx, if_neg hc]
            exact hne y hy
        · intro r hr hact
          simp only [prdWrite_of_mem hm, hnormc] at hr
          rcases List.mem_map.mp hr with ⟨y, hy, hyr⟩
          by_cases hc : (y.off == comp.off) = true
          · exfalso
            rw [if_pos hc] at hyr
            rw [← hyr] at hact
            have h9 : (-1 : Int) = 0 := hact
            exact absurd h9 (by decide)
          · rw [if_neg hc] at hyr
            have hmem : y ∈ path := hcov y hy (by rw [hyr]; exact hact)
            rw [← hyr]
            refine List.mem_map.mpr ⟨y, hmem, ?_⟩
            rw [if_neg hc]
        · have hname : (path.map (fun x => if x.off == comp.off then
              { comp with del_ := -1 } else x)).map (fun r => r.name)
              = path.map (fun r => r.name) := by
            rw [List.map_map]
            refine List.map_congr_left ?_
            intro x hx
            by_cases hc : (x.off == comp.off) = true
            · have hxc : x = comp := by
                have h2 : prdRead s comp.off = some comp := prdRead_mem hpos hcompmem
                have h3 : prdRead s x.off = some x := LChain_read hlch x hx
                rw [beq_iff_eq.mp hc, h2] at h3
                exact (Option.some.inj h3).symm
              simp only [Function.comp_apply, if_pos hc]
              rw [hxc]
            · simp only [Function.comp_apply, if_neg hc]
          exact pairwise_name_eq hname.symm hpw

theorem INV_restore {s s' : PSApp} {name : String} (h : INV s)
    (hop : restore_one s name = .ok s') : INV s' := by
  obtain ⟨hdl, hpos, hfree, hnorm, hfs, hprs, hsfree, path, hchain⟩ := h
  simp only [restore_one] at hop
  cases hfa : find_any s name with
  | error e =>
    simp only [hfa] at hop
    cases hop
  | ok o =>
    cases o with
    | none =>
      simp only [hfa] at hop
      cases hop
    | some comp =>
      simp only [hfa] at hop
      have hcompmem : comp ∈ s.prd := by
        simp only [find_any, scan_prd_eq hpos hfree] at hfa
        exact List.mem_of_find?_eq_some (Except.ok.inj hfa)
      have hcfs : comp.first_spec = -1 := hfs comp hcompmem
      have hmk : markChain 0 (s.prs.length + 1) (prdWrite s { comp with del_ := 0 })
          comp.first_spec = .ok (prdWrite s { comp with del_ := 0 }) := by
        rw [hcfs]
        exact markChain_neg1 0 s.prs.length _
      simp only [hmk] at hop
      have hm : ∃ x ∈ s.prd, x.off = PrdRec.off { comp with del_ := 0 } :=
        ⟨comp, hcompmem, rfl⟩
      have hwf := prdWrite_fields (s := s) { comp with del_ := 0 }
      have hdl1 : (prdWrite s { comp with del_ := 0 }).data_len = s.data_len := hwf.1
      have hsize1 : prd_rec_size (prdWrite s { comp with del_ := 0 }) = prd_rec_size s := by
        unfold prd_rec_size
        rw [hdl1]
      refine INV_of_rebuild ?_ ?_ ?_ ?_ ?_ ?_ ?_ hop
      · rw [hdl1]
        exact hdl
      · rw [hsize1, prdPositional_of_offs_eq (prdWrite_offs_of_mem hm)]
        exact hpos
      · rw [hwf.2.2.1, prdWrite_length_of_mem hm, hsize1]
        exact hfree
      · intro y hy
        rw [hdl1]
        rcases prdWrite_prd_mem y hy with h2 | h2
        · exact hnorm y h2
        · rw [h2, @normRec_eq_self s.data_len { comp with del_ := 0 } (hnorm comp hcompmem)]
          exact hnorm comp hcompmem
      · intro y hy
        rcases prdWrite_prd_mem y hy with h2 | h2
        · exact hfs y h2
        · rw [h2, @normRec_eq_self s.data_len { comp with del_ := 0 } (hnorm comp hcompmem)]
          exact hfs comp hcompmem
      · rw [hwf.2.2.2.2.2]
        exact hprs
      · rw [hwf.2.2.2.2.1]
        exact hsfree

theorem map_replace_append : ∀ {l : List PrdRec} {o : Int} {n y : PrdRec},
    (∀ x ∈ l, x.off ≠ o) → (n.off == o) = true →
    (l ++ [n]).map (fun x => if x.off == o then y else x) = l ++ [y] := by
  intro l
  induction l with
  | nil =>
    intro o n y _ hn
    simp only [List.nil_append, List.map_cons, List.map_nil]
    rw [if_pos hn]
  | cons a as ih =>
    intro o n y hno hn
    simp only [List.cons_append, List.map_cons]
    rw [if_neg (fun hc => hno a (List.mem_cons_self _ _) (beq_iff_eq.mp hc)),
      ih (fun x hx => hno x (List.mem_cons_of_mem _ hx)) hn]

theorem dropWhile_head_not {α : Type _} (p : α → Bool) :
    ∀ (l : List α) {y : α} {ys : List α}, l.dropWhile p = y :: ys → p y = false := by
  intro l
  induction l with
  | nil =>
    intro y ys h
    cases h
  | cons a as ih =>
    intro y ys h
    by_cases hp : p a = true
    · rw [List.dropWhile_cons_of_pos hp] at h
      exact ih h
    · rw [List.dropWhile_cons_of_neg hp] at h
      cases h
      exact Bool.eq_false_iff.mpr hp

theorem LSeg_headOff {s : PSApp} {p q : Int} :
    ∀ {l : List PrdRec}, LSeg s p l q → LSeg s (headOffOr q l) l q := by
  intro l h
  cases l with
  | nil => rfl
  | cons y ys =>
    obtain ⟨hp, hr, hrest⟩ := h
    rw [hp] at hr
    exact ⟨rfl, hr, hrest⟩

theorem INV_add_front {s : PSApp} {R : PrdRec} {path : List PrdRec}
    (hdl : 4 ≤ s.data_len)
    (hpos : prdPositional (prd_rec_size s) PRD_HDR_SIZE s.prd = true)
    (hfree : s.prd_free = PRD_HDR_SIZE + (s.prd.length : Int) * prd_rec_size s)
    (hnorm : ∀ r ∈ s.prd, fieldRoundtrip s.data_len r.typ r.name = (r.typ, r.name))
    (hfs : ∀ r ∈ s.prd, r.first_spec = -1)
    (hprs : s.prs = [])
    (hsfree : s.prs_free = PRS_HDR_SIZE)
    (hlch : LChain s s.prd_head path)
    (hnd : (path.map (fun r => r.off)).Nodup)
    (hne : ∀ x ∈ path, x.off ≠ -1)
    (hcov : ∀ r ∈ s.prd, r.del_ = 0 → r ∈ path)
    (hpw : path.Pairwise (fun a b => keyLe a.name b.name = true))
    (hRoff : R.off = s.prd_free)
    (hRfs : R.first_spec = -1)
    (hrt : fieldRoundtrip s.data_len (normRec s.data_len R).typ (normRec s.data_len R).name
      = ((normRec s.data_len R).typ, (normRec s.data_len R).name))
    (hle : ∀ b ∈ path, keyLe (normRec s.data_len R).name b.name = true) :
    INV { prdWrite (prdWrite s R) { normRec s.data_len R with next_ := headOffOr (-1) path }
      with prd_head := s.prd_free,
           prd_free := (prdWrite (prdWrite s R)
             { normRec s.data_len R with next_ := headOffOr (-1) path }).prd_free
             + prd_rec_size s } := by
  have hnotmem : ∀ x ∈ s.prd, x.off ≠ R.off := by
    intro x hx hc
    have h2 := pos_off_lt_free hpos hfree x hx
    rw [hc, hRoff] at h2
    omega
  have hpathmem : ∀ r ∈ path, r ∈ s.prd := LChain_mem hlch
  set N : PrdRec := { normRec s.data_len R with next_ := headOffOr (-1) path } with hNdef
  set W : PSApp := prdWrite (prdWrite s R) N with hWdef
  set F : PSApp := { W with prd_head := s.prd_free, prd_free := W.prd_free + prd_rec_size s } with hFdef
  have h1f := prdWrite_fields (s := s) R
  have hs1prd : (prdWrite s R).prd = s.prd ++ [normRec s.data_len R] := by
    rw [prdWrite_of_notmem hnotmem]
  have hn0mem : normRec s.data_len R ∈ (prdWrite s R).prd := by
    rw [hs1prd]
    simp
  have hWmm : ∃ x ∈ (prdWrite s R).prd, x.off = PrdRec.off N := ⟨normRec s.data_len R, hn0mem, rfl⟩
  have hWf := prdWrite_fields (s := prdWrite s R) N
  have hnormN : normRec (prdWrite s R).data_len N = N := by
    rw [h1f.1]
    exact @normRec_eq_self s.data_len N hrt
  have hWdl : W.data_len = s.data_len := by
    rw [hWdef, hWf.1, h1f.1]
  have hWph : W.prd_head = s.prd_head := by
    rw [hWdef, hWf.2.1, h1f.2.1]
  have hWpf : W.prd_free = s.prd_free := by
    rw [hWdef, hWf.2.2.1, h1f.2.2.1]
  have hWsf : W.prs_free = s.prs_free := by
    rw [hWdef, hWf.2.2.2.2.1, h1f.2.2.2.2.1]
  have hWprs : W.prs = s.prs := by
    rw [hWdef, hWf.2.2.2.2.2, h1f.2.2.2.2.2]
  have hno2 : ∀ x ∈ s.prd, x.off ≠ PrdRec.off N := hnotmem
  have hWprd : W.prd = s.prd ++ [N] := by
    rw [hWdef, prdWrite_of_mem hWmm, hnormN, hs1prd]
    exact map_replace_append hno2 (beq_iff_eq.mpr rfl)
  have hWreadN : prdRead W s.prd_free = some N := by
    rw [hWdef, ← hRoff]
    have h2 : prdRead (prdWrite (prdWrite s R) N) (PrdRec.off N)
        = some (normRec (prdWrite s R).data_len N) := prdRead_write_self
    rw [hnormN] at h2
    exact h2
  have hWreadOther : ∀ o : Int, o ≠ R.off → prdRead W o = prdRead s o := by
    intro o ho
    have ho1 : o ≠ PrdRec.off N := ho
    rw [hWdef, prdRead_write_other ho1, prdRead_write_other ho]
  have hFdl : F.data_len = s.data_len := hWdl
  have hFprd : F.prd = s.prd ++ [N] := hWprd
  have hFpf : F.prd_free = s.prd_free + prd_rec_size s := by
    show W.prd_free + prd_rec_size s = s.prd_free + prd_rec_size s
    rw [hWpf]
  have hFprs : F.prs = s.prs := hWprs
  have hFsf : F.prs_free = s.prs_free := hWsf
  have hFsize : prd_rec_size F = prd_rec_size s := by
    unfold prd_rec_size
    rw [hFdl]
  have hNoffval : PrdRec.off N = s.prd_free := hRoff
  have hfreepos : s.prd_free ≠ -1 := by
    have h2 := prd_rec_size_pos s
    have h3 : (0 : Int) ≤ (s.prd.length : Int) := Int.natCast_nonneg _
    have h4 : (0 : Int) ≤ (s.prd.length : Int) * prd_rec_size s :=
      mul_nonneg h3 (le_of_lt h2)
    rw [hfree]
    simp only [PRD_HDR_SIZE]
    omega
  refine ⟨?_, ?_, ?_, ?_, ?_, ?_, ?_, ?_⟩
  · rw [hFdl]
    exact hdl
  · rw [hFsize, hFprd]
    refine prdPositional_snoc hpos ?_
    rw [hNoffval, hfree]
  · rw [hFpf, hFsize, hFprd, hfree]
    simp only [List.length_append, List.length_singleton]
    push_cast
    ring
  · intro y hy
    rw [hFdl]
    rw [hFprd] at hy
    rcases List.mem_append.mp hy with h2 | h2
    · exact hnorm y h2
    · rw [List.mem_singleton.mp h2]
      exact hrt
  · intro y hy
    rw [hFprd] at hy
    rcases List.mem_append.mp hy with h2 | h2
    · exact hfs y h2
    · rw [List.mem_singleton.mp h2]
      exact hRfs
  · rw [hFprs]
    exact hprs
  · rw [hFsf]
    exact hsfree
  · refine ⟨N :: path, ?_, ?_, ?_, ?_, ?_⟩
    · have hreads : ∀ t ∈ path, prdRead F t.off = prdRead s t.off := by
        intro t ht
        show prdRead W t.off = prdRead s t.off
        exact hWreadOther t.off (hnotmem t (hpathmem t ht))
      refine ⟨hNoffval.symm, ?_, ?_⟩
      · show prdRead W s.prd_free = some N
        exact hWreadN
      · show LChain F (headOffOr (-1) path) path
        cases hpcase : path with
        | nil => rfl
        | cons r rest =>
          rw [hpcase] at hlch hreads
          obtain ⟨hp, hread, hrest⟩ := hlch
          have hlch2 : LChain s r.off (r :: rest) := ⟨rfl, by rw [← hp]; exact hread, hrest⟩
          exact LChain_congr hlch2 hreads
    · simp only [List.map_cons]
      rw [List.nodup_cons]
      refine ⟨?_, hnd⟩
      intro hc
      rcases List.mem_map.mp hc with ⟨t, ht, htoff⟩
      exact hnotmem t (hpathmem t ht) htoff
    · intro x hx
      rcases List.mem_cons.mp hx with h2 | h2
      · rw [h2]
        rw [hNoffval]
        exact hfreepos
      · exact hne x h2
    · intro r hr hact
      rw [hFprd] at hr
      rcases List.mem_append.mp hr with h2 | h2
      · exact List.mem_cons_of_mem _ (hcov r h2 hact)
      · rw [List.mem_singleton.mp h2]
        exact List.mem_cons_self _ _
    · refine List.pairwise_cons.mpr ⟨?_, hpw⟩
      intro b hb
      exact hle b hb

theorem INV_add_mid {s : PSApp} {R x : PrdRec} {q p2 : List PrdRec}
    (hdl : 4 ≤ s.data_len)
    (hpos : prdPositional (prd_rec_size s) PRD_HDR_SIZE s.prd = true)
    (hfree : s.prd_free = PRD_HDR_SIZE + (s.prd.length : Int) * prd_rec_size s)
    (hnorm : ∀ r ∈ s.prd, fieldRoundtrip s.data_len r.typ r.name = (r.typ, r.name))
    (hfs : ∀ r ∈ s.prd, r.first_spec = -1)
    (hprs : s.prs = [])
    (hsfree : s.prs_free = PRS_HDR_SIZE)
    (hlch : LChain s s.prd_head (q ++ x :: p2))
    (hnd : ((q ++ x :: p2).map (fun r => r.off)).Nodup)
    (hne : ∀ t ∈ q ++ x :: p2, t.off ≠ -1)
    (hcov : ∀ r ∈ s.prd, r.del_ = 0 → r ∈ q ++ x :: p2)
    (hpw : (q ++ x :: p2).Pairwise (fun a b => keyLe a.name b.name = true))
    (hRoff : R.off = s.prd_free)
    (hRfs : R.first_spec = -1)
    (hrt : fieldRoundtrip s.data_len (normRec s.data_len R).typ (normRec s.data_len R).name
      = ((normRec s.data_len R).typ, (normRec s.data_len R).name))
    (hle1 : ∀ b ∈ q ++ [x], keyLe b.name (normRec s.data_len R).name = true)
    (hle2 : ∀ b ∈ p2, keyLe (normRec s.data_len R).name b.name = true) :
    INV { prdWrite (prdWrite (prdWrite s R)
        { normRec s.data_len R with next_ := headOffOr (-1) p2 }) { x with next_ := s.prd_free }
      with prd_free := (prdWrite (prdWrite (prdWrite s R)
        { normRec s.data_len R with next_ := headOffOr (-1) p2 })
        { x with next_ := s.prd_free }).prd_free + prd_rec_size s } := by
  have hnotmem : ∀ t ∈ s.prd, t.off ≠ R.off := by
    intro t ht hc
    have h2 := pos_off_lt_free hpos hfree t ht
    rw [hc, hRoff] at h2
    omega
  have hpathmem : ∀ r ∈ q ++ x :: p2, r ∈ s.prd := LChain_mem hlch
  have hxpath : x ∈ q ++ x :: p2 := List.mem_append.mpr (Or.inr (List.mem_cons_self _ _))
  have hxmem : x ∈ s.prd := hpathmem x hxpath
  have hxoffne : x.off ≠ R.off := hnotmem x hxmem
  set N : PrdRec := { normRec s.data_len R with next_ := headOffOr (-1) p2 } with hNdef
  set xw : PrdRec := { x with next_ := s.prd_free } with hxwdef
  set W2 : PSApp := prdWrite (prdWrite s R) N with hW2def
  set W3 : PSApp := prdWrite W2 xw with hW3def
  set F : PSApp := { W3 with prd_free := W3.prd_free + prd_rec_size s } with hFdef
  have h1f := prdWrite_fields (s := s) R
  have h2f := prdWrite_fields (s := prdWrite s R) N
  have h3f := prdWrite_fields (s := W2) xw
  have hW2dl : W2.data_len = s.data_len := by
    rw [hW2def, h2f.1, h1f.1]
  have hW3dl : W3.data_len = s.data_len := by
    rw [hW3def, h3f.1, hW2dl]
  have hW3ph : W3.prd_head = s.prd_head := by
    rw [hW3def, h3f.2.1, hW2def, h2f.2.1, h1f.2.1]
  have hW3pf : W3.prd_free = s.prd_free := by
    rw [hW3def, h3f.2.2.1, hW2def, h2f.2.2.1, h1f.2.2.1]
  have hW3sf : W3.prs_free = s.prs_free := by
    rw [hW3def, h3f.2.2.2.2.1, hW2def, h2f.2.2.2.2.1, h1f.2.2.2.2.1]
  have hW3prs : W3.prs = s.prs := by
    rw [hW3def, h3f.2.2.2.2.2, hW2def, h2f.2.2.2.2.2, h1f.2.2.2.2.2]
  have hnormN : normRec (prdWrite s R).data_len N = N := by
    rw [h1f.1]
    exact @normRec_eq_self s.data_len N hrt
  have hs1prd : (prdWrite s R).prd = s.prd ++ [normRec s.data_len R] := by
    rw [prdWrite_of_notmem hnotmem]
  have hn0mem : normRec s.data_len R ∈ (prdWrite s R).prd := by
    rw [hs1prd]
    simp
  have hWmm : ∃ t ∈ (prdWrite s R).prd, t.off = PrdRec.off N := ⟨normRec s.data_len R, hn0mem, rfl⟩
  have hno2 : ∀ t ∈ s.prd, t.off ≠ PrdRec.off N := hnotmem
  have hW2prd : W2.prd = s.prd ++ [N] := by
    rw [hW2def, prdWrite_of_mem hWmm, hnormN, hs1prd]
    exact map_replace_append hno2 (beq_iff_eq.mpr rfl)
  have hnormxw : normRec W2.data_len xw = xw := by
    rw [hW2dl]
    exact @normRec_eq_self s.data_len xw (hnorm x hxmem)
  have hxinW2 : x ∈ W2.prd := by
    rw [hW2prd]
    exact List.mem_append.mpr (Or.inl hxmem)
  have hW3mm : ∃ t ∈ W2.prd, t.off = PrdRec.off xw := ⟨x, hxinW2, rfl⟩
  have hcnd : ¬ ((PrdRec.off N == PrdRec.off xw) = true) := by
    intro hc
    exact hxoffne (beq_iff_eq.mp hc).symm
  have hW3prd : W3.prd
      = s.prd.map (fun t => if t.off == PrdRec.off xw then xw else t) ++ [N] := by
    rw [hW3def, prdWrite_of_mem hW3mm, hnormxw, hW2prd, List.map_append]
    congr 1
    simp only [List.map_cons, List.map_nil]
    rw [if_neg hcnd]
  have hW3readxw : prdRead W3 x.off = some xw := by
    rw [hW3def]
    have h2 : prdRead (prdWrite W2 xw) (PrdRec.off xw)
        = some (normRec W2.data_len xw) := prdRead_write_self
    rw [hnormxw] at h2
    exact h2
  have hW3readN : prdRead W3 R.off = some N := by
    have hne2 : R.off ≠ PrdRec.off xw := fun hcc => hxoffne hcc.symm
    rw [hW3def, prdRead_write_other hne2, hW2def]
    have h2 : prdRead (prdWrite (prdWrite s R) N) (PrdRec.off N)
        = some (normRec (prdWrite s R).data_len N) := prdRead_write_self
    rw [hnormN] at h2
    exact h2
  have hW3other : ∀ o : Int, o ≠ R.off → o ≠ x.off → prdRead W3 o = prdRead s o := by
    intro o h1 h2
    have h2x : o ≠ PrdRec.off xw := h2
    have h1n : o ≠ PrdRec.off N := h1
    rw [hW3def, prdRead_write_other h2x, hW2def, prdRead_write_other h1n,
      prdRead_write_other h1]
  have hW3offs : W3.prd.map (fun r => r.off) = (s.prd ++ [N]).map (fun r => r.off) := by
    rw [hW3def]
    exact (prdWrite_offs_of_mem hW3mm).trans (by rw [hW2prd])
  have hlen3 : W3.prd.length = s.prd.length + 1 := by
    rw [hW3def, prdWrite_length_of_mem hW3mm, hW2prd]
    simp
  have hFdl : F.data_len = s.data_len := hW3dl
  have hFprd : F.prd = s.prd.map (fun t => if t.off == PrdRec.off xw then xw else t) ++ [N] :=
    hW3prd
  have hFpf : F.prd_free = s.prd_free + prd_rec_size s := by
    show W3.prd_free + prd_rec_size s = s.prd_free + prd_rec_size s
    rw [hW3pf]
  have hFprs : F.prs = s.prs := hW3prs
  have hFsf : F.prs_free = s.prs_free := hW3sf
  have hFlen : F.prd.length = s.prd.length + 1 := hlen3
  have hFsize : prd_rec_size F = prd_rec_size s := by
    unfold prd_rec_size
    rw [hFdl]
  have hNoffval : PrdRec.off N = s.prd_free := hRoff
  have hfreepos : s.prd_free ≠ -1 := by
    have h2 := prd_rec_size_pos s
    have h3 : (0 : Int) ≤ (s.prd.length : Int) := Int.natCast_nonneg _
    have h4 : (0 : Int) ≤ (s.prd.length : Int) * prd_rec_size s :=
      mul_nonneg h3 (le_of_lt h2)
    rw [hfree]
    simp only [PRD_HDR_SIZE]
    omega
  have hnd2 : (List.map (fun r => r.off) q
      ++ x.off :: List.map (fun r => r.off) p2).Nodup := by
    have h2 := hnd
    rw [List.map_append, List.map_cons] at h2
    exact h2
  obtain ⟨hndq, hndxp2, hdisj⟩ := List.nodup_append.mp hnd2
  obtain ⟨hxnotp2, hndp2⟩ := List.nodup_cons.mp hndxp2
  refine ⟨?_, ?_, ?_, ?_, ?_, ?_, ?_, ?_⟩
  · rw [hFdl]
    exact hdl
  · rw [hFsize]
    show prdPositional (prd_rec_size s) PRD_HDR_SIZE W3.prd = true
    rw [prdPositional_of_offs_eq hW3offs]
    refine prdPositional_snoc hpos ?_
    rw [hNoffval, hfree]
  · rw [hFpf, hFsize, hFlen, hfree]
    push_cast
    ring
  · intro y hy
    rw [hFdl]
    rw [hFprd] at hy
    rcases List.mem_append.mp hy with h2 | h2
    · rcases List.mem_map.mp h2 with ⟨t, ht, hty⟩
      by_cases hc : (t.off == PrdRec.off xw) = true
      · rw [← hty, if_pos hc]
        exact hnorm x hxmem
      · rw [← hty, if_neg hc]
        exact hnorm t ht
    · rw [List.mem_singleton.mp h2]
      exact hrt
  · intro y hy
    rw [hFprd] at hy
    rcases List.mem_append.mp hy with h2 | h2
    · rcases List.mem_map.mp h2 with ⟨t, ht, hty⟩
      by_cases hc : (t.off == PrdRec.off xw) = true
      · rw [← hty, if_pos hc]
        exact hfs x hxmem
      · rw [← hty, if_neg hc]
        exact hfs t ht
    · rw [List.mem_singleton.mp h2]
      exact hRfs
  · rw [hFprs]
    exact hprs
  · rw [hFsf]
    exact hsfree
  · refine ⟨q ++ xw :: N :: p2, ?_, ?_, ?_, ?_, ?_⟩
    · show LChain F W3.prd_head (q ++ xw :: N :: p2)
      rw [hW3ph]
      have hseg := (LChain_iff_seg (s := s)).mp hlch
      obtain ⟨hsq, hsxp2⟩ := LSeg_split (s := s) hseg
      obtain ⟨hxo, hreadx, hsp2⟩ := hsxp2
      have hsp2A : LSeg s (headOffOr (-1) p2) p2 (-1) := LSeg_headOff hsp2
      have hreadsq : ∀ r ∈ q, prdRead F r.off = prdRead s r.off := by
        intro r hr
        show prdRead W3 r.off = prdRead s r.off
        refine hW3other r.off (hnotmem r (hpathmem r (List.mem_append.mpr (Or.inl hr)))) ?_
        intro hc
        exact hdisj (List.mem_map.mpr ⟨r, hr, rfl⟩)
          (by rw [hc]; exact List.mem_cons_self _ _)
      have hreadsp2 : ∀ r ∈ p2, prdRead F r.off = prdRead s r.off := by
        intro r hr
        show prdRead W3 r.off = prdRead s r.off
        refine hW3other r.off
          (hnotmem r (hpathmem r (List.mem_append.mpr
            (Or.inr (List.mem_cons_of_mem _ hr))))) ?_
        intro hc
        exact hxnotp2 (by rw [← hc]; exact List.mem_map.mpr ⟨r, hr, rfl⟩)
      have hA1 : LSeg F s.prd_head q x.off := LSeg_congr hsq hreadsq
      have hA2 : LSeg F x.off (xw :: N :: p2) (-1) := by
        refine ⟨rfl, ?_, ?_⟩
        · show prdRead W3 x.off = some xw
          exact hW3readxw
        · show LSeg F s.prd_free (N :: p2) (-1)
          refine ⟨hRoff.symm, ?_, ?_⟩
          · show prdRead W3 s.prd_free = some N
            rw [← hRoff]
            exact hW3readN
          · show LSeg F (headOffOr (-1) p2) p2 (-1)
            exact LSeg_congr hsp2A hreadsp2
      exact (LChain_iff_seg (s := F)).mpr (LSeg_append_of (s := F) hA1 hA2)
    · rw [List.map_append, List.map_cons, List.map_cons]
      have e1 : PrdRec.off xw = x.off := rfl
      have e2 : PrdRec.off N = s.prd_free := hNoffval
      rw [e1, e2]
      rw [List.nodup_append]
      refine ⟨hndq, ?_, ?_⟩
      · rw [List.nodup_cons]
        refine ⟨?_, ?_⟩
        · intro hc
          rcases List.mem_cons.mp hc with h2 | h2
          · rw [hRoff] at hxoffne
            exact hxoffne h2
          · exact hxnotp2 h2
        · rw [List.nodup_cons]
          refine ⟨?_, hndp2⟩
          intro hc
          rcases List.mem_map.mp hc with ⟨t, ht, hto⟩
          refine hnotmem t (hpathmem t (List.mem_append.mpr
            (Or.inr (List.mem_cons_of_mem _ ht)))) ?_
          rw [hto, hRoff]
      · intro a ha hab
        rcases List.mem_map.mp ha with ⟨t, ht, hto⟩
        rcases List.mem_cons.mp hab with h2 | h2
        · exact hdisj ha (by rw [h2]; exact List.mem_cons_self _ _)
        · rcases List.mem_cons.mp h2 with h3 | h3
          · refine hnotmem t (hpathmem t (List.mem_append.mpr (Or.inl ht))) ?_
            rw [hto, h3, hRoff]
          · exact hdisj ha (List.mem_cons_of_mem _ h3)
    · intro t ht
      rcases List.mem_append.mp ht with h2 | h2
      · exact hne t (List.mem_append.mpr (Or.inl h2))
      · rcases List.mem_cons.mp h2 with h3 | h3
        · rw [h3]
          show x.off ≠ -1
          exact hne x hxpath
        · rcases List.mem_cons.mp h3 with h4 | h4
          · rw [h4, hNoffval]
            exact hfreepos
          · exact hne t (List.mem_append.mpr (Or.inr (List.mem_cons_of_mem _ h4)))
    · intro r hr hact
      rw [hFprd] at hr
      rcases List.mem_append.mp hr with h2 | h2
      · rcases List.mem_map.mp h2 with ⟨t, ht, hty⟩
        by_cases hc : (t.off == PrdRec.off xw) = true
        · rw [← hty, if_pos hc]
          exact List.mem_append.mpr (Or.inr (List.mem_cons_self _ _))
        · rw [← hty] at hact ⊢
          rw [if_neg hc] at hact ⊢
          have htp : t ∈ q ++ x :: p2 := hcov t ht hact
          rcases List.mem_append.mp htp with h3 | h3
          · exact List.mem_append.mpr (Or.inl h3)
          · rcases List.mem_cons.mp h3 with h4 | h4
            · exfalso
              refine hc ?_
              rw [h4]
              exact beq_iff_eq.mpr rfl
            · exact List.mem_append.mpr (Or.inr
                (List.mem_cons_of_mem _ (List.mem_cons_of_mem _ h4)))
      · rw [List.mem_singleton.mp h2]
        exact List.mem_append.mpr (Or.inr (List.mem_cons_of_mem _ (List.mem_cons_self _ _)))
    · rw [List.pairwise_append] at hpw
      obtain ⟨hpwq, hpwxp2, hqvs⟩ := hpw
      obtain ⟨hxb, hpwp2⟩ := List.pairwise_cons.mp hpwxp2
      rw [List.pairwise_append]
      refine ⟨hpwq, ?_, ?_⟩
      · rw [List.pairwise_cons]
        refine ⟨?_, ?_⟩
        · intro b hb
          rcases List.mem_cons.mp hb with h2 | h2
          · rw [h2]
            show keyLe x.name (normRec s.data_len R).name = true
            exact hle1 x (List.mem_append.mpr (Or.inr (List.mem_singleton.mpr rfl)))
          · show keyLe x.name b.name = true
            exact hxb b h2
        · rw [List.pairwise_cons]
          refine ⟨?_, hpwp2⟩
          intro b hb
          show keyLe (normRec s.data_len R).name b.name = true
          exact hle2 b hb
      · intro a ha b hb
        rcases List.mem_cons.mp hb with h2 | h2
        · rw [h2]
          show keyLe a.name x.name = true
          exact hqvs a ha x (List.mem_cons_self _ _)
        · rcases List.mem_cons.mp h2 with h3 | h3
          · rw [h3]
            show keyLe a.name (normRec s.data_len R).name = true
            exact hle1 a (List.mem_append.mpr (Or.inl ha))
          · exact hqvs a ha b (List.mem_cons_of_mem _ h3)

theorem INV_add {s s' : PSApp} {name0 typ : String} (h : INV s)
    (hok : okOp (.add name0 typ) = true)
    (hop : add_component s name0 typ = .ok s') : INV s' := by
  obtain ⟨hdl, hpos, hfree, hnorm, hfs, hprs, hsfree, path, hlch, hnd, hne, hcov, hpw⟩ := h
  obtain ⟨c, htypc, hc⟩ := typ_single hok
  simp only [add_component] at hop
  by_cases hname : ((norm name0 == "") = true)
  · rw [if_pos hname] at hop
    cases hop
  · rw [if_neg hname] at hop
    cases hfa : find_any s (norm name0) with
    | error e =>
      simp only [hfa] at hop
      cases hop
    | ok o =>
      cases o with
      | some z =>
        simp only [hfa] at hop
        cases hop
      | none =>
        simp only [hfa] at hop
        set rec0 : PrdRec :=
          { off := s.prd_free, del_ := 0, first_spec := -1, next_ := -1,
            typ := typ, name := norm name0 } with hrec0
        have hRoff : rec0.off = s.prd_free := rfl
        have hRfs : rec0.first_spec = -1 := rfl
        have hrt : fieldRoundtrip s.data_len (normRec s.data_len rec0).typ
            (normRec s.data_len rec0).name
            = ((normRec s.data_len rec0).typ, (normRec s.data_len rec0).name) := by
          show fieldRoundtrip s.data_len
              (fieldRoundtrip s.data_len rec0.typ rec0.name).1
              (fieldRoundtrip s.data_len rec0.typ rec0.name).2
            = ((fieldRoundtrip s.data_len rec0.typ rec0.name).1,
               (fieldRoundtrip s.data_len rec0.typ rec0.name).2)
          have h1 : rec0.typ = (⟨[c]⟩ : String) := htypc
          rw [h1]
          exact fieldRoundtrip_fixed (by omega) hc rec0.name
        have hnotmem : ∀ t ∈ s.prd, t.off ≠ s.prd_free := by
          intro t ht hcx
          have h2 := pos_off_lt_free hpos hfree t ht
          rw [hcx] at h2
          omega
        have hnotmem2 : ∀ t ∈ s.prd, t.off ≠ rec0.off := hnotmem
        have hpathmem : ∀ r ∈ path, r ∈ s.prd := LChain_mem hlch
        have hs1prd : (prdWrite s rec0).prd = s.prd ++ [normRec s.data_len rec0] := by
          rw [prdWrite_of_notmem hnotmem2]
        have hrd0 : prdRead (prdWrite s rec0) s.prd_free = some (normRec s.data_len rec0) := by
          have h2 : prdRead (prdWrite s rec0) (PrdRec.off rec0)
              = some (normRec s.data_len rec0) := prdRead_write_self
          exact h2
        have hlch1 : LChain (prdWrite s rec0) (prdWrite s rec0).prd_head path := by
          rw [(prdWrite_fields (s := s) rec0).2.1]
          refine LChain_congr hlch ?_
          intro r hr
          have ho : r.off ≠ PrdRec.off rec0 := hnotmem r (hpathmem r hr)
          exact prdRead_write_other ho
        have hlen1 : (prdWrite s rec0).prd.length = s.prd.length + 1 := by
          rw [hs1prd]
          simp
        have hlenp : path.length < (prdWrite s rec0).prd.length + 1 := by
          have h2 := LChain_length_le hlch hnd
          omega
        by_cases hhead : s.prd_head = -1
        · have hpathnil : path = [] := by
            cases hp2 : path with
            | nil => rfl
            | cons r rest =>
              exfalso
              rw [hp2] at hlch
              obtain ⟨hp, _, _⟩ := hlch
              refine hne r ?_ ?_
              · rw [hp2]
                exact List.mem_cons_self _ _
              · rw [← hp, hhead]
          subst hpathnil
          have hbeq : (((prdWrite s rec0)).prd_head == -1) = true := by
            rw [(prdWrite_fields (s := s) rec0).2.1, hhead]
            rfl
          have his : insert_sorted (prdWrite s rec0) s.prd_free
              = .ok { prdWrite (prdWrite s rec0)
                  { normRec s.data_len rec0 with next_ := -1 }
                  with prd_head := s.prd_free } := by
            simp only [insert_sorted, hrd0]
            rw [if_pos hbeq]
          simp only [his] at hop
          have hs2 := Except.ok.inj hop
          subst hs2
          exact INV_add_front hdl hpos hfree hnorm hfs hprs hsfree hlch hnd hne hcov hpw
            hRoff hRfs hrt (fun b hb => absurd hb (List.not_mem_nil b))
        · have hbeq : (((prdWrite s rec0)).prd_head == -1) = false := by
            rw [(prdWrite_fields (s := s) rec0).2.1]
            exact beq_eq_false_iff_ne.mpr hhead
          have hbne : ¬ ((((prdWrite s rec0)).prd_head == -1) = true) := by
            rw [hbeq]
            exact Bool.false_ne_true
          have hiw := @insertWalk_split (prdWrite s rec0)
            (lowerStr (normRec s.data_len rec0).name) path
            ((prdWrite s rec0).prd.length + 1) (-1) ((prdWrite s rec0).prd_head)
            hlch1 hne hlenp
          rcases List.eq_nil_or_concat (path.takeWhile
              (fun r => !(keyLt (lowerStr (normRec s.data_len rec0).name) r.name)))
            with htw | ⟨q, xx, htw0⟩
          · have hdrop : path.dropWhile
                (fun r => !(keyLt (lowerStr (normRec s.data_len rec0).name) r.name)) = path := by
              have h2 := List.takeWhile_append_dropWhile
                (p := fun r => !(keyLt (lowerStr (normRec s.data_len rec0).name) r.name))
                (l := path)
              rw [htw] at h2
              simpa using h2
            have his : insert_sorted (prdWrite s rec0) s.prd_free
                = .ok { prdWrite (prdWrite s rec0)
                    { normRec s.data_len rec0 with next_ := headOffOr (-1) path }
                    with prd_head := s.prd_free } := by
              simp only [insert_sorted, hrd0]
              rw [if_neg hbne]
              rw [htw, hdrop] at hiw
              simp only [hiw, walkPrev]
              rw [if_pos (by decide : (((-1 : Int)) == -1) = true)]
            simp only [his] at hop
            have hs2 := Except.ok.inj hop
            subst hs2
            have hle : ∀ b ∈ path, keyLe (normRec s.data_len rec0).name b.name = true := by
              intro b hb
              cases hd2 : path with
              | nil =>
                rw [hd2] at hb
                cases hb
              | cons y ys =>
                have hy : (!(keyLt (lowerStr (normRec s.data_len rec0).name) y.name))
                    = false := by
                  apply dropWhile_head_not
                    (fun r => !(keyLt (lowerStr (normRec s.data_len rec0).name) r.name)) path
                  rw [hdrop]
                  exact hd2
                have hkt : keyLt (lowerStr (normRec s.data_len rec0).name) y.name = true := by
                  cases hkk : keyLt (lowerStr (normRec s.data_len rec0).name) y.name
                  · rw [hkk] at hy
                    exact absurd hy (by decide)
                  · rfl
                have hky : keyLe (normRec s.data_len rec0).name y.name = true := by
                  rw [← keyLe_lowerL]
                  exact keyLe_of_keyLt hkt
                rw [hd2] at hb hpw
                rcases List.mem_cons.mp hb with h2 | h2
                · rw [h2]
                  exact hky
                · exact keyLe_trans _ _ _ hky ((List.pairwise_cons.mp hpw).1 b h2)
            exact INV_add_front hdl hpos hfree hnorm hfs hprs hsfree hlch hnd hne hcov hpw
              hRoff hRfs hrt hle
          · have htw : path.takeWhile
                (fun r => !(keyLt (lowerStr (normRec s.data_len rec0).name) r.name))
                = q ++ [xx] := by
              rw [htw0, List.concat_eq_append]
            have hsplitpath : path = q ++ xx :: path.dropWhile
                (fun r => !(keyLt (lowerStr (normRec s.data_len rec0).name) r.name)) := by
              have h2 := List.takeWhile_append_dropWhile
                (p := fun r => !(keyLt (lowerStr (normRec s.data_len rec0).name) r.name))
                (l := path)
              rw [htw] at h2
              nth_rewrite 1 [← h2]
              rw [List.append_assoc, List.singleton_append]
            have hxxpath : xx ∈ path := by
              rw [hsplitpath]
              exact List.mem_append.mpr (Or.inr (List.mem_cons_self _ _))
            have hxxmem : xx ∈ s.prd := hpathmem xx hxxpath
            have hxxne : ¬ ((xx.off == -1) = true) :=
              fun hcc => hne xx hxxpath (beq_iff_eq.mp hcc)
            have hreadxx : prdRead (prdWrite (prdWrite s rec0)
                { normRec s.data_len rec0 with next_ := headOffOr (-1) (path.dropWhile
                  (fun r => !(keyLt (lowerStr (normRec s.data_len rec0).name) r.name))) })
                xx.off = some xx := by
              have hne1 : xx.off ≠ PrdRec.off { normRec s.data_len rec0 with
                  next_ := headOffOr (-1) (path.dropWhile
                  (fun r => !(keyLt (lowerStr (normRec s.data_len rec0).name) r.name))) } :=
                hnotmem xx hxxmem
              rw [prdRead_write_other hne1]
              have hne2 : xx.off ≠ PrdRec.off rec0 := hnotmem xx hxxmem
              rw [prdRead_write_other hne2]
              exact prdRead_mem hpos hxxmem
            have his : insert_sorted (prdWrite s rec0) s.prd_free
                = .ok (prdWrite (prdWrite (prdWrite s rec0)
                    { normRec s.data_len rec0 with next_ := headOffOr (-1) (path.dropWhile
                      (fun r => !(keyLt (lowerStr (normRec s.data_len rec0).name) r.name))) })
                    { xx with next_ := s.prd_free }) := by
              simp only [insert_sorted, hrd0]
              rw [if_neg hbne]
              rw [htw] at hiw
              simp only [hiw]
              rw [walkPrev_concat]
              rw [if_neg hxxne]
              simp only [hreadxx]
            simp only [his] at hop
            have hs2 := Except.ok.inj hop
            subst hs2
            have hlchS : LChain s s.prd_head (q ++ xx :: path.dropWhile
                (fun r => !(keyLt (lowerStr (normRec s.data_len rec0).name) r.name))) := by
              rw [← hsplitpath]
              exact hlch
            have hndS : ((q ++ xx :: path.dropWhile
                (fun r => !(keyLt (lowerStr (normRec s.data_len rec0).name) r.name))).map
                (fun r => r.off)).Nodup := by
              rw [← hsplitpath]
              exact hnd
            have hneS : ∀ t ∈ q ++ xx :: path.dropWhile
                (fun r => !(keyLt (lowerStr (normRec s.data_len rec0).name) r.name)),
                t.off ≠ -1 := by
              rw [← hsplitpath]
              exact hne
            have hcovS : ∀ r ∈ s.prd, r.del_ = 0 → r ∈ q ++ xx :: path.dropWhile
                (fun r => !(keyLt (lowerStr (normRec s.data_len rec0).name) r.name)) := by
              rw [← hsplitpath]
              exact hcov
            have hpwS : (q ++ xx :: path.dropWhile
                (fun r => !(keyLt (lowerStr (normRec s.data_len rec0).name) r.name))).Pairwise
                (fun a b => keyLe a.name b.name = true) := by
              rw [← hsplitpath]
              exact hpw
            have hle1 : ∀ b ∈ q ++ [xx],
                keyLe b.name (normRec s.data_len rec0).name = true := by
              intro b hb
              have hbtw : b ∈ path.takeWhile
                  (fun r => !(keyLt (lowerStr (normRec s.data_len rec0).name) r.name)) := by
                rw [htw]
                exact hb
              have hpb0 := List.mem_takeWhile_imp hbtw
              have hpb : (!(keyLt (lowerStr (normRec s.data_len rec0).name) b.name)) = true :=
                hpb0
              have hkf : keyLt (lowerStr (normRec s.data_len rec0).name) b.name = false := by
                cases hkk : keyLt (lowerStr (normRec s.data_len rec0).name) b.name
                · rfl
                · rw [hkk] at hpb
                  exact absurd hpb (by decide)
              have h2 := keyLe_of_not_keyLt hkf
              rw [keyLe_lowerR] at h2
              exact h2
            have hle2 : ∀ b ∈ path.dropWhile
                (fun r => !(keyLt (lowerStr (normRec s.data_len rec0).name) r.name)),
                keyLe (normRec s.data_len rec0).name b.name = true := by
              intro b hb
              have hpwD : (path.dropWhile
                  (fun r => !(keyLt (lowerStr (normRec s.data_len rec0).name) r.name))).Pairwise
                  (fun a b => keyLe a.name b.name = true) :=
                hpw.sublist (List.dropWhile_sublist _)
              cases hd2 : path.dropWhile
                  (fun r => !(keyLt (lowerStr (normRec s.data_len rec0).name) r.name)) with
              | nil =>
                rw [hd2] at hb
                cases hb
              | cons y ys =>
                have hy : (!(keyLt (lowerStr (normRec s.data_len rec0).name) y.name))
                    = false := dropWhile_head_not _ path hd2
                have hkt : keyLt (lowerStr (normRec s.data_len rec0).name) y.name = true := by
                  cases hkk : keyLt (lowerStr (normRec s.data_len rec0).name) y.name
                  · rw [hkk] at hy
                    exact absurd hy (by decide)
                  · rfl
                have hky : keyLe (normRec s.data_len rec0).name y.name = true := by
                  rw [← keyLe_lowerL]
                  exact keyLe_of_keyLt hkt
                rw [hd2] at hb hpwD
                rcases List.mem_cons.mp hb with h2 | h2
                · rw [h2]
                  exact hky
                · exact keyLe_trans _ _ _ hky ((List.pairwise_cons.mp hpwD).1 b h2)
            exact INV_add_mid hdl hpos hfree hnorm hfs hprs hsfree hlchS hndS hneS hcovS hpwS
              hRoff hRfs hrt hle1 hle2

theorem INV_restoreAll {s s' : PSApp} (h : INV s) (hop : restore_all s = .ok s') : INV s' := by
  obtain ⟨hdl, hpos, hfree, hnorm, hfs, hprs, hsfree, path, hchain⟩ := h
  simp only [restore_all, scan_prd_eq hpos hfree] at hop
  have hstored : ∀ r ∈ s.prd, prdRead s r.off = some r := fun r hr => prdRead_mem hpos hr
  have hndall : (s.prd.map (fun r => r.off)).Nodup :=
    prdPositional_nodup (prd_rec_size_pos s) hpos
  obtain ⟨hrd, hoth, hoffs, hmem, hdl1, hprs1, hpf1, hsf1, hph1⟩ :=
    restoreAllPrd_eq hstored hnorm hndall
  have hscanprs : scan_prs_physical (restoreAllPrd s s.prd) = .ok [] := by
    have hpos2 : prsPositional PRS_HDR_SIZE (restoreAllPrd s s.prd).prs = true := by
      rw [hprs1, hprs]
      rfl
    have hfree2 : (restoreAllPrd s s.prd).prs_free
        = PRS_HDR_SIZE + (((restoreAllPrd s s.prd).prs.length : Int)) * prs_rec_size := by
      rw [hsf1, hsfree, hprs1, hprs]
      simp
    have h0 := scan_prs_eq hpos2 hfree2
    rw [hprs1, hprs] at h0
    exact h0
  simp only [hscanprs, restoreAllPrs] at hop
  have hlen : (restoreAllPrd s s.prd).prd.length = s.prd.length := by
    have h1 := congrArg List.length hoffs
    simpa using h1
  have hsize1 : prd_rec_size (restoreAllPrd s s.prd) = prd_rec_size s := by
    unfold prd_rec_size
    rw [hdl1]
  refine INV_of_rebuild ?_ ?_ ?_ ?_ ?_ ?_ ?_ hop
  · rw [hdl1]
    exact hdl
  · rw [hsize1, prdPositional_of_offs_eq hoffs]
    exact hpos
  · rw [hpf1, hlen, hsize1]
    exact hfree
  · intro y hy
    rw [hdl1]
    rcases hmem y hy with h2 | ⟨r, hr, heq⟩
    · exact hnorm y h2
    · rw [heq]
      exact hnorm r hr
  · intro y hy
    rcases hmem y hy with h2 | ⟨r, hr, heq⟩
    · exact hfs y h2
    · rw [heq]
      exact hfs r hr
  · rw [hprs1]
    exact hprs
  · rw [hsf1]
    exact hsfree

theorem INV_applyOp {s s' : PSApp} {op : Op} (h : INV s) (hok : okOp op = true)
    (hop : applyOp s op = .ok s') : INV s' := by
  cases op with
  | add name typ => exact INV_add h hok hop
  | del name => exact INV_del h hop
  | restore name => exact INV_restore h hop
  | restoreAll => exact INV_restoreAll h hop

theorem INV_run {s : PSApp} {ops : List Op} (h : INV s)
    (hok : ∀ op ∈ ops, okOp op = true) : INV (runOps s ops) := by
  induction ops generalizing s with
  | nil => exact h
  | cons op rest ih =>
    simp only [runOps]
    cases hap : applyOp s op with
    | ok s2 =>
      exact ih (INV_applyOp h (hok op (List.mem_cons_self _ _)) hap)
        (fun o ho => hok o (List.mem_cons_of_mem _ ho))
    | error e =>
      exact ih h (fun o ho => hok o (List.mem_cons_of_mem _ ho))

theorem INV_iter {s : PSApp} (h : INV s) :
    ∃ items, iter_prd_logical s = .ok items ∧
      (∀ r, r ∈ items ↔ (r ∈ s.prd ∧ r.del_ = 0)) ∧
      items.Pairwise (fun a b => keyLe a.name b.name = true) := by
  obtain ⟨hdl, hpos, hfree, hnorm, hfs, hprs, hsfree, path, hlch, hnd, hne, hcov, hpw⟩ := h
  have hlen : path.length < s.prd.length + 1 := by
    have h2 := LChain_length_le hlch hnd
    omega
  have hiter : iterLogicalAux s (s.prd.length + 1) s.prd_head []
      = .ok (path.filter (fun r => r.del_ == 0)) :=
    iter_of_chain hlch (fun o _ => List.not_mem_nil o) hnd hne hlen
  refine ⟨path.filter (fun r => r.del_ == 0), hiter, ?_,
    hpw.sublist (List.filter_sublist _)⟩
  intro r
  constructor
  · intro hr
    rcases List.mem_filter.mp hr with ⟨h1, h2⟩
    have h3 : (r.del_ == 0) = true := h2
    exact ⟨LChain_mem hlch r h1, beq_iff_eq.mp h3⟩
  · intro hpair
    exact List.mem_filter.mpr ⟨hcov r hpair.1 hpair.2, beq_iff_eq.mpr hpair.2⟩

end InvLemmas

section TruncBasics

theorem sortedActive_mem {s : PSApp} {r : PrdRec} :
    r ∈ sortedActive s ↔ (r ∈ s.prd ∧ r.del_ = 0) := by
  unfold sortedActive
  rw [mem_pySort, List.mem_filter]
  constructor
  · rintro ⟨h1, h2⟩
    have h3 : (r.del_ == 0) = true := h2
    exact ⟨h1, beq_iff_eq.mp h3⟩
  · rintro ⟨h1, h2⟩
    exact ⟨h1, beq_iff_eq.mpr h2⟩

theorem sortedActive_sorted (s : PSApp) :
    (sortedActive s).Pairwise (fun a b => keyLe a.name b.name = true) := by
  refine pySort_sorted ?_ ?_ _
  · intro a b
    exact keyLe_total a.name b.name
  · intro a b c
    exact keyLe_trans a.name b.name c.name

theorem sortedActive_offs_nodup {s : PSApp} (h : WF s) :
    ((sortedActive s).map (fun r => r.off)).Nodup := by
  have hnd : (s.prd.map (fun r => r.off)).Nodup :=
    prdPositional_nodup (prd_rec_size_pos s) (WF_prdPos h)
  have hndf : (((s.prd.filter (fun r => r.del_ == 0))).map (fun r => r.off)).Nodup :=
    hnd.sublist (List.Sublist.map _ (List.filter_sublist _))
  exact (((pySort_perm _).map _).nodup_iff).mpr hndf

theorem mem_map_nodup_inj {α β : Type _} {f : α → β} :
    ∀ {l : List α}, (l.map f).Nodup → ∀ {a b}, a ∈ l → b ∈ l → f a = f b → a = b := by
  intro l
  induction l with
  | nil =>
    intro _ a b ha
    exact absurd ha (List.not_mem_nil a)
  | cons x xs ih =>
    intro hnd a b ha hb hf
    rw [List.map_cons, List.nodup_cons] at hnd
    rcases List.mem_cons.mp ha with h1 | h1
    · rcases List.mem_cons.mp hb with h2 | h2
      · rw [h1, h2]
      · exfalso
        refine hnd.1 (List.mem_map.mpr ⟨b, h2, ?_⟩)
        rw [← hf, h1]
    · rcases List.mem_cons.mp hb with h2 | h2
      · exfalso
        refine hnd.1 (List.mem_map.mpr ⟨a, h1, ?_⟩)
        rw [hf, h2]
      · exact ih hnd.2 h1 h2 hf

theorem zip_off_fun {l₁ l₂ : List PrdRec}
    (hnd : (l₁.map (fun r => r.off)).Nodup) :
    ∀ {pa Pa pb Pb : PrdRec}, (pa, Pa) ∈ l₁.zip l₂ → (pb, Pb) ∈ l₁.zip l₂ →
      pa.off = pb.off → pa = pb ∧ Pa = Pb := by
  induction l₁ generalizing l₂ with
  | nil =>
    intro pa Pa pb Pb ha
    rw [List.zip_nil_left] at ha
    exact absurd ha (List.not_mem_nil _)
  | cons a as ih =>
    intro pa Pa pb Pb ha hb hoff
    cases l₂ with
    | nil =>
      rw [List.zip_nil_right] at ha
      exact absurd ha (List.not_mem_nil _)
    | cons b bs =>
      rw [List.zip_cons_cons] at ha hb
      rw [List.map_cons, List.nodup_cons] at hnd
      rcases List.mem_cons.mp ha with h1 | h1
      · rcases List.mem_cons.mp hb with h2 | h2
        · cases h1
          cases h2
          exact ⟨rfl, rfl⟩
        · exfalso
          cases h1
          refine hnd.1 (List.mem_map.mpr ⟨pb, (List.mem_zip h2).1, ?_⟩)
          rw [← hoff]
      · rcases List.mem_cons.mp hb with h2 | h2
        · exfalso
          cases h2
          refine hnd.1 (List.mem_map.mpr ⟨pa, (List.mem_zip h1).1, ?_⟩)
          rw [hoff]
        · exact ih hnd.2 h1 h2 hoff

theorem zip_off_fun2 {l₁ l₂ : List PrdRec}
    (hnd : (l₂.map (fun r => r.off)).Nodup) :
    ∀ {pa Pa pb Pb : PrdRec}, (pa, Pa) ∈ l₁.zip l₂ → (pb, Pb) ∈ l₁.zip l₂ →
      Pa.off = Pb.off → pa = pb ∧ Pa = Pb := by
  induction l₁ generalizing l₂ with
  | nil =>
    intro pa Pa pb Pb ha
    rw [List.zip_nil_left] at ha
    exact absurd ha (List.not_mem_nil _)
  | cons a as ih =>
    intro pa Pa pb Pb ha hb hoff
    cases l₂ with
    | nil =>
      rw [List.zip_nil_right] at ha
      exact absurd ha (List.not_mem_nil _)
    | cons b bs =>
      rw [List.zip_cons_cons] at ha hb
      rw [List.map_cons, List.nodup_cons] at hnd
      rcases List.mem_cons.mp ha with h1 | h1
      · rcases List.mem_cons.mp hb with h2 | h2
        · cases h1
          cases h2
          exact ⟨rfl, rfl⟩
        · exfalso
          cases h1
          refine hnd.1 (List.mem_map.mpr ⟨Pb, (List.mem_zip h2).2, ?_⟩)
          rw [← hoff]
      · rcases List.mem_cons.mp hb with h2 | h2
        · exfalso
          cases h2
          refine hnd.1 (List.mem_map.mpr ⟨Pa, (List.mem_zip h1).2, ?_⟩)
          rw [hoff]
        · exact ih hnd.2 h1 h2 hoff

theorem forall2_zip_left {α β : Type _} {R : α → β → Prop} :
    ∀ {l₁ : List α} {l₂ : List β}, List.Forall₂ R l₁ l₂ →
      ∀ {a}, a ∈ l₁ → ∃ b, (a, b) ∈ l₁.zip l₂ ∧ R a b := by
  intro l₁
  induction l₁ with
  | nil =>
    intro l₂ _ a ha
    exact absurd ha (List.not_mem_nil a)
  | cons x xs ih =>
    intro l₂ h a ha
    cases h with
    | cons hr hrest =>
      rcases List.mem_cons.mp ha with h1 | h1
      · subst h1
        exact ⟨_, List.mem_cons_self _ _, hr⟩
      · rcases ih hrest h1 with ⟨b, hb, hrb⟩
        exact ⟨b, List.mem_cons_of_mem _ hb, hrb⟩

theorem forall2_zip_right {α β : Type _} {R : α → β → Prop} :
    ∀ {l₁ : List α} {l₂ : List β}, List.Forall₂ R l₁ l₂ →
      ∀ {b}, b ∈ l₂ → ∃ a, (a, b) ∈ l₁.zip l₂ ∧ R a b := by
  intro l₁
  induction l₁ with
  | nil =>
    intro l₂ h b hb
    cases h
    exact absurd hb (List.not_mem_nil b)
  | cons x xs ih =>
    intro l₂ h b hb
    cases h with
    | cons hr hrest =>
      rcases List.mem_cons.mp hb with h1 | h1
      · subst h1
        exact ⟨_, List.mem_cons_self _ _, hr⟩
      · rcases ih hrest h1 with ⟨a, hazip, hra⟩
        exact ⟨a, List.mem_cons_of_mem _ hazip, hra⟩

theorem forall2_of_zip {α β : Type _} {R : α → β → Prop} :
    ∀ {l₁ : List α} {l₂ : List β}, List.Forall₂ R l₁ l₂ →
      ∀ {a b}, (a, b) ∈ l₁.zip l₂ → R a b := by
  intro l₁
  induction l₁ with
  | nil =>
    intro l₂ _ a b hab
    rw [List.zip_nil_left] at hab
    exact absurd hab (List.not_mem_nil _)
  | cons x xs ih =>
    intro l₂ h a b hab
    cases h with
    | cons hr hrest =>
      rw [List.zip_cons_cons] at hab
      rcases List.mem_cons.mp hab with h1 | h1
      · cases h1
        exact hr
      · exact ih hrest h1

theorem bom_isSome (size : Int) :
    ∀ (l : List PrdRec) (w : Int) (k : Int),
      ((lookupOff (buildOffMap size w l) k).isSome = true) ↔ k ∈ l.map (fun r => r.off) := by
  intro l
  induction l with
  | nil =>
    intro w k
    simp [buildOffMap, lookupOff]
  | cons a as ih =>
    intro w k
    simp only [buildOffMap, List.map_cons, List.mem_cons]
    by_cases hk : (a.off == k) = true
    · have hk2 : k = a.off := (beq_iff_eq.mp hk).symm
      constructor
      · intro _
        exact Or.inl hk2
      · intro _
        simp only [lookupOff, List.find?]
        rw [hk]
        rfl
    · have hkf : (a.off == k) = false := by
        cases hc : (a.off == k)
        · rfl
        · exact absurd hc hk
      have hskip : lookupOff ((a.off, w) :: buildOffMap size (w + size) as) k
          = lookupOff (buildOffMap size (w + size) as) k := by
        simp only [lookupOff, List.find?]
        rw [hkf]
      rw [hskip, ih]
      constructor
      · intro h2
        exact Or.inr h2
      · intro h2
        rcases h2 with h3 | h3
        · exfalso
          exact hk (beq_iff_eq.mpr h3.symm)
        · exact h3

theorem SChain_of_shape {t : PSApp}
    (hpos : prsPositional PRS_HDR_SIZE t.prs = true) :
    ∀ {p : Int} {blk : List PrsRec}, SShape p blk → (∀ r ∈ blk, r ∈ t.prs) →
      SChain t p blk := by
  intro p blk
  induction blk generalizing p with
  | nil =>
    intro h _
    exact h
  | cons r rest ih =>
    intro h hmem
    obtain ⟨hp, hrest⟩ := h
    refine ⟨hp, ?_, ih hrest (fun x hx => hmem x (List.mem_cons_of_mem _ hx))⟩
    rw [hp]
    exact prsRead_mem hpos (hmem r (List.mem_cons_self _ _))

theorem LChain_of_shape {t : PSApp}
    (hpos : prdPositional (prd_rec_size t) PRD_HDR_SIZE t.prd = true) :
    ∀ {p : Int} {l : List PrdRec}, LShape p l → (∀ r ∈ l, r ∈ t.prd) →
      LChain t p l := by
  intro p l
  induction l generalizing p with
  | nil =>
    intro h _
    exact h
  | cons r rest ih =>
    intro h hmem
    obtain ⟨hp, hrest⟩ := h
    refine ⟨hp, ?_, ih hrest (fun x hx => hmem x (List.mem_cons_of_mem _ hx))⟩
    rw [hp]
    exact prdRead_mem hpos (hmem r (List.mem_cons_self _ _))

theorem find?_unique {α : Type _} {p : α → Bool} {x : α} :
    ∀ {l : List α}, x ∈ l → p x = true → (∀ y ∈ l, p y = true → y = x) →
      l.find? p = some x := by
  intro l
  induction l with
  | nil =>
    intro hx
    exact absurd hx (List.not_mem_nil x)
  | cons a as ih =>
    intro hx hpx huniq
    by_cases hpa : p a = true
    · rw [List.find?_cons_of_pos _ hpa]
      rw [huniq a (List.mem_cons_self _ _) hpa]
    · rw [List.find?_cons_of_neg _ hpa]
      rcases List.mem_cons.mp hx with h1 | h1
      · exfalso
        rw [h1] at hpx
        exact hpa hpx
      · exact ih h1 hpx (fun y hy => huniq y (List.mem_cons_of_mem _ hy))

theorem forall2_imp_mem {α β : Type _} {R S : α → β → Prop} :
    ∀ {l₁ : List α} {l₂ : List β}, List.Forall₂ R l₁ l₂ →
      (∀ a ∈ l₁, ∀ b, R a b → S a b) → List.Forall₂ S l₁ l₂ := by
  intro l₁
  induction l₁ with
  | nil =>
    intro l₂ h _
    cases h
    exact List.Forall₂.nil
  | cons x xs ih =>
    intro l₂ h himp
    cases h with
    | cons hr hrest =>
      exact List.Forall₂.cons (himp x (List.mem_cons_self _ _) _ hr)
        (ih hrest (fun a ha b hr2 => himp a (List.mem_cons_of_mem _ ha) b hr2))

theorem forall2_map_eq {α β γ : Type _} {R : α → β → Prop} {f : α → γ} {g : β → γ} :
    ∀ {l₁ : List α} {l₂ : List β}, List.Forall₂ R l₁ l₂ →
      (∀ a b, R a b → g b = f a) → l₂.map g = l₁.map f := by
  intro l₁
  induction l₁ with
  | nil =>
    intro l₂ h _
    cases h
    rfl
  | cons x xs ih =>
    intro l₂ h hfg
    cases h with
    | cons hr hrest =>
      simp only [List.map_cons]
      rw [hfg _ _ hr, ih hrest hfg]

theorem child_active_iff {s : PSApp} (h : WF s) {sr : PrsRec} (hsr : sr ∈ s.prs)
    {child : PrdRec} (hread : prdRead s sr.comp_off = some child) :
    ((lookupOff (buildOffMap (prd_rec_size s) PRD_HDR_SIZE (sortedActive s))
        sr.comp_off).isSome = true) ↔ child.del_ = 0 := by
  rw [bom_isSome]
  constructor
  · intro hmem
    rcases List.mem_map.mp hmem with ⟨a, ha, hoff⟩
    have ha2 := sortedActive_mem.mp ha
    have hread2 : prdRead s a.off = some a := prdRead_mem (WF_prdPos h) ha2.1
    rw [hoff, hread] at hread2
    rw [Option.some.inj hread2]
    exact ha2.2
  · intro hact
    have hcm := prdRead_some hread
    exact List.mem_map.mpr ⟨child, sortedActive_mem.mpr ⟨hcm.1, hact⟩, hcm.2⟩

theorem itemsOf_eq_keep {s : PSApp} {m : List (Int × Int)} (h : WF s)
    (hiffm : ∀ sr ∈ s.prs, ∀ child, prdRead s sr.comp_off = some child →
      (((lookupOff m sr.comp_off).isSome = true) ↔ child.del_ = 0)) :
    ∀ {ch : List PrsRec}, (∀ sr ∈ ch, sr ∈ s.prs) →
      itemsOf s ch = (keepOf m ch).map
        (fun it => ((childNT s it.1).1, (childNT s it.1).2, it.2)) := by
  intro ch
  induction ch with
  | nil =>
    intro _
    rfl
  | cons sr rest ih =>
    intro hmem
    have hsr := hmem sr (List.mem_cons_self _ _)
    have ihr := ih (fun x hx => hmem x (List.mem_cons_of_mem _ hx))
    by_cases hact : (sr.del_ == 0) = true
    · have hread : (prdRead s sr.comp_off).isSome = true := WF_comp h sr hsr
      cases hrd : prdRead s sr.comp_off with
      | none =>
        rw [hrd] at hread
        cases hread
      | some child =>
        have hiff := hiffm sr hsr child hrd
        have hnt : childNT s sr.comp_off = (child.name, child.typ) := by
          unfold childNT
          rw [hrd]
        by_cases hcact : child.del_ = 0
        · have hcond : (sr.del_ == 0 && (lookupOff m sr.comp_off).isSome) = true :=
            Bool.and_eq_true_iff.mpr ⟨hact, hiff.mpr hcact⟩
          have hL : itemsOf s (sr :: rest)
              = (child.name, child.typ, sr.qty) :: itemsOf s rest := by
            simp only [itemsOf]
            rw [if_pos hact]
            simp only [hrd]
            rw [if_pos (beq_iff_eq.mpr hcact)]
          have hR : keepOf m (sr :: rest) = (sr.comp_off, sr.qty) :: keepOf m rest := by
            unfold keepOf
            rw [List.filter_cons, if_pos hcond, List.map_cons]
          rw [hL, hR, List.map_cons, hnt, ihr]
        · have hcond : (sr.del_ == 0 && (lookupOff m sr.comp_off).isSome) = false := by
            cases hc : (lookupOff m sr.comp_off).isSome with
            | true => exact absurd (hiff.mp hc) hcact
            | false =>
              rw [Bool.and_eq_false_iff]
              exact Or.inr rfl
          have hcb : (child.del_ == 0) = false := by
            cases hc : (child.del_ == 0)
            · rfl
            · exact absurd (beq_iff_eq.mp hc) hcact
          have hL : itemsOf s (sr :: rest) = itemsOf s rest := by
            simp only [itemsOf]
            rw [if_pos hact]
            simp only [hrd]
            rw [hcb]
            simp only [Bool.false_eq_true, if_false]
          have hR : keepOf m (sr :: rest) = keepOf m rest := by
            unfold keepOf
            rw [List.filter_cons, if_neg (by rw [hcond]; exact Bool.false_ne_true)]
          rw [hL, hR, ihr]
    · have hcond : (sr.del_ == 0 && (lookupOff m sr.comp_off).isSome) = false := by
        rw [Bool.and_eq_false_iff]
        left
        cases hc : (sr.del_ == 0)
        · rfl
        · exact absurd hc hact
      have hL : itemsOf s (sr :: rest) = itemsOf s rest := by
        simp only [itemsOf]
        rw [if_neg hact]
      have hR : keepOf m (sr :: rest) = keepOf m rest := by
        unfold keepOf
        rw [List.filter_cons, if_neg (by rw [hcond]; exact Bool.false_ne_true)]
      rw [hL, hR, ihr]

theorem truncCompRecs_spec (dl : Nat) :
    ∀ (l : List PrdRec) (w : Int),
      (truncCompRecs dl w l).length = l.length ∧
      List.Forall₂ (fun old new => new.name = (fieldRoundtrip dl old.typ old.name).2 ∧
        new.typ = (fieldRoundtrip dl old.typ old.name).1 ∧
        new.del_ = 0 ∧ new.first_spec = -1) l (truncCompRecs dl w l) ∧
      prdPositional (9 + (dl : Int)) w (truncCompRecs dl w l) = true ∧
      LShape (if l.isEmpty then -1 else w) (truncCompRecs dl w l) := by
  intro l
  induction l with
  | nil =>
    intro w
    exact ⟨rfl, List.Forall₂.nil, rfl, rfl⟩
  | cons old rest ih =>
    intro w
    obtain ⟨ihlen, ihf2, ihpos, ihshape⟩ := ih (w + (9 + (dl : Int)))
    refine ⟨?_, ?_, ?_, ?_⟩
    · simp only [truncCompRecs, List.length_cons, ihlen]
    · exact List.Forall₂.cons ⟨rfl, rfl, rfl, rfl⟩ ihf2
    · simp only [truncCompRecs, prdPositional]
      rw [Bool.and_eq_true_iff]
      exact ⟨beq_iff_eq.mpr rfl, ihpos⟩
    · simp only [truncCompRecs, List.isEmpty_cons]
      refine ⟨rfl, ?_⟩
      exact ihshape

theorem bom_align (dl : Nat) :
    ∀ (l : List PrdRec) (w : Int), (l.map (fun r => r.off)).Nodup →
      List.Forall₂ (fun old new =>
          lookupOff (buildOffMap (9 + (dl : Int)) w l) old.off = some new.off)
        l (truncCompRecs dl w l) := by
  intro l
  induction l with
  | nil =>
    intro w _
    exact List.Forall₂.nil
  | cons a as ih =>
    intro w hnd
    rw [List.map_cons, List.nodup_cons] at hnd
    refine List.Forall₂.cons ?_ ?_
    · simp only [buildOffMap, lookupOff, List.find?]
      rw [show (a.off == a.off) = true from beq_iff_eq.mpr rfl]
      rfl
    · refine forall2_imp_mem (ih (w + (9 + (dl : Int))) hnd.2) ?_
      intro o ho n hlk
      have hne : (a.off == o.off) = false := by
        cases hc : (a.off == o.off)
        · rfl
        · exfalso
          refine hnd.1 (List.mem_map.mpr ⟨o, ho, ?_⟩)
          exact (beq_iff_eq.mp hc).symm
      simp only [buildOffMap, lookupOff, List.find?]
      rw [hne]
      exact hlk

theorem applyFirstSpec_fields (u : List (Int × Int)) :
    ∀ (l : List PrdRec),
      List.Forall₂ (fun r r' => r'.off = r.off ∧ r'.name = r.name ∧ r'.typ = r.typ ∧
        r'.del_ = r.del_ ∧ r'.next_ = r.next_ ∧
        r'.first_spec = (lookupOff u r.off).getD r.first_spec) l (applyFirstSpec u l) := by
  intro l
  induction l with
  | nil => exact List.Forall₂.nil
  | cons r rest ih =>
    refine List.Forall₂.cons ?_ ih
    cases hlk : lookupOff u r.off with
    | none =>
      show _ ∧ _
      simp only [applyFirstSpec]
      rw [hlk]
      exact ⟨rfl, rfl, rfl, rfl, rfl, rfl⟩
    | some fs =>
      show _ ∧ _
      simp only [applyFirstSpec]
      rw [hlk]
      exact ⟨rfl, rfl, rfl, rfl, rfl, rfl⟩

theorem LShape_congr_f2 :
    ∀ {l l' : List PrdRec},
      List.Forall₂ (fun r r' => r'.off = r.off ∧ r'.next_ = r.next_) l l' →
      ∀ {p : Int}, LShape p l → LShape p l' := by
  intro l
  induction l with
  | nil =>
    intro l' h p hs
    cases h
    exact hs
  | cons r rest ih =>
    intro l' h p hs
    cases h with
    | cons hr hrest =>
      obtain ⟨hp, hsrest⟩ := hs
      refine ⟨by rw [hr.1, hp], ?_⟩
      rw [hr.2]
      exact ih hrest hsrest

theorem prsPositional_append :
    ∀ {l₁ : List PrsRec} {w : Int} {l₂ : List PrsRec},
      prsPositional w l₁ = true →
      prsPositional (w + prs_rec_size * (l₁.length : Int)) l₂ = true →
      prsPositional w (l₁ ++ l₂) = true := by
  intro l₁
  induction l₁ with
  | nil =>
    intro w l₂ _ h2
    have he : w + prs_rec_size * (([] : List PrsRec).length : Int) = w := by
      simp
    rw [he] at h2
    exact h2
  | cons a as ih =>
    intro w l₂ h1 h2
    simp only [prsPositional, Bool.and_eq_true] at h1
    have he : w + prs_rec_size * (((a :: as) : List PrsRec).length : Int)
        = (w + prs_rec_size) + prs_rec_size * (as.length : Int) := by
      simp only [List.length_cons]
      push_cast
      ring
    rw [he] at h2
    simp only [List.cons_append, prsPositional, Bool.and_eq_true]
    exact ⟨h1.1, ih h1.2 h2⟩

theorem truncSpecBlock_ok {m : List (Int × Int)} :
    ∀ {items : List (Int × Int)} {w : Int},
      (∀ it ∈ items, (lookupOff m it.1).isSome = true ∧
        ¬ ((it.2 < -32768 || 32767 < it.2) = true)) →
      ∃ blk, truncSpecBlock m w items = .ok blk ∧
        blk.length = items.length ∧
        prsPositional w blk = true ∧
        (∀ r ∈ blk, r.del_ = 0) ∧
        (∀ r ∈ blk, -32768 ≤ r.qty ∧ r.qty ≤ 32767) ∧
        SShape (if items.isEmpty then -1 else w) blk ∧
        blk.map (fun r => (r.comp_off, r.qty))
          = items.map (fun it => ((lookupOff m it.1).getD 0, it.2)) := by
  intro items
  induction items with
  | nil =>
    intro w _
    exact ⟨[], rfl, rfl, rfl, fun r hr => absurd hr (List.not_mem_nil r),
      fun r hr => absurd hr (List.not_mem_nil r), rfl, rfl⟩
  | cons it rest ih =>
    intro w hits
    obtain ⟨hsome, hq⟩ := hits it (List.mem_cons_self _ _)
    cases hlk : lookupOff m it.1 with
    | none =>
      rw [hlk] at hsome
      cases hsome
    | some cn =>
      obtain ⟨blk, hblk, hlen, hpos, hdel, hqr, hshape, hmap⟩ :=
        ih (fun x hx => hits x (List.mem_cons_of_mem _ hx))
      refine ⟨{ off := w, del_ := 0, comp_off := cn, qty := it.2, next_ := if rest.isEmpty then -1 else w + 11 } :: blk, ?_, ?_, ?_, ?_, ?_, ?_, ?_⟩
      · show truncSpecBlock m w ((it.1, it.2) :: rest) = _
        simp only [truncSpecBlock]
        rw [if_neg hq, hlk, hblk]
      · simp only [List.length_cons, hlen]
      · simp only [prsPositional, Bool.and_eq_true]
        exact ⟨beq_iff_eq.mpr rfl, hpos⟩
      · intro r hr
        rcases List.mem_cons.mp hr with h1 | h1
        · rw [h1]
        · exact hdel r h1
      · intro r hr
        rcases List.mem_cons.mp hr with h1 | h1
        · rw [h1]
          constructor
          · show -32768 ≤ it.2
            by_contra hcc
            refine hq (Bool.or_eq_true_iff.mpr (Or.inl (decide_eq_true ?_)))
            omega
          · show it.2 ≤ 32767
            by_contra hcc
            refine hq (Bool.or_eq_true_iff.mpr (Or.inr (decide_eq_true ?_)))
            omega
        · exact hqr r h1
      · simp only [List.isEmpty_cons]
        exact ⟨rfl, hshape⟩
      · simp only [List.map_cons, hmap, hlk]
        rfl

theorem prsPositional_nodup :
    ∀ {w : Int} {l : List PrsRec}, prsPositional w l = true →
      (l.map (fun r => r.off)).Nodup := by
  intro w l
  induction l generalizing w with
  | nil =>
    intro _
    simp
  | cons a as ih =>
    intro h
    simp only [prsPositional, Bool.and_eq_true] at h
    refine List.nodup_cons.mpr ⟨?_, ih h.2⟩
    intro hmem
    rcases List.mem_map.mp hmem with ⟨r, hr, hoff⟩
    have hoff2 : r.off = a.off := hoff
    have hlb := prsPositional_lb h.2 r hr
    have ha : a.off = w := beq_iff_eq.mp h.1
    have h11 : prs_rec_size = 11 := rfl
    rw [h11] at hlb
    omega

theorem lookupOff_cons_self {w : Int} {rest : List (Int × Int)} (k : Int) :
    lookupOff ((k, w) :: rest) k = some w := by
  simp only [lookupOff, List.find?]
  rw [show (k == k) = true from beq_iff_eq.mpr rfl]
  rfl

theorem lookupOff_cons_ne {a w : Int} {rest : List (Int × Int)} {k : Int} (h : ¬ a = k) :
    lookupOff ((a, w) :: rest) k = lookupOff rest k := by
  simp only [lookupOff, List.find?]
  rw [show (a == k) = false from by
    cases hc : (a == k)
    · rfl
    · exact absurd (beq_iff_eq.mp hc) h]

theorem truncSpecs_ok {m : List (Int × Int)} :
    ∀ {bs : List (Int × List (Int × Int))} {w : Int},
      (∀ pr ∈ bs, ∀ it ∈ pr.2, (lookupOff m it.1).isSome = true ∧
        ¬ ((it.2 < -32768 || 32767 < it.2) = true)) →
      (∀ pr ∈ bs, (lookupOff m pr.1).isSome = true) →
      (bs.map (fun pr => lookupOff m pr.1)).Nodup →
      ∃ specs upds wEnd fs0,
        truncSpecs m w bs = .ok (specs, upds, wEnd, fs0) ∧
        prsPositional w specs = true ∧
        wEnd = w + 11 * (specs.length : Int) ∧
        specs.length = (bs.map (fun pr => pr.2.length)).sum ∧
        (∀ r ∈ specs, r.del_ = 0) ∧
        (∀ r ∈ specs, -32768 ≤ r.qty ∧ r.qty ≤ 32767) ∧
        (∀ r ∈ specs, ∃ pr ∈ bs, ∃ it ∈ pr.2,
          r.comp_off = (lookupOff m it.1).getD 0 ∧ r.qty = it.2) ∧
        (∀ pNew, ¬ (lookupOff upds pNew = none) →
          ∃ pr ∈ bs, lookupOff m pr.1 = some pNew) ∧
        (∀ pr ∈ bs, ∀ pNew, lookupOff m pr.1 = some pNew →
          ((pr.2.isEmpty = true ∧ lookupOff upds pNew = none) ∨
           (∃ start blk, lookupOff upds pNew = some start ∧
             SShape start blk ∧ (blk.map (fun r => r.off)).Nodup ∧
             (∀ r ∈ blk, r ∈ specs) ∧
             blk.map (fun r => (r.comp_off, r.qty))
               = pr.2.map (fun it => ((lookupOff m it.1).getD 0, it.2))))) := by
  intro bs
  induction bs with
  | nil =>
    intro w _ _ _
    refine ⟨[], [], w, none, rfl, rfl, by simp, rfl,
      fun r hr => absurd hr (List.not_mem_nil r),
      fun r hr => absurd hr (List.not_mem_nil r),
      fun r hr => absurd hr (List.not_mem_nil r), ?_, ?_⟩
    · intro pNew hne
      exact absurd rfl hne
    · intro pr hpr
      exact absurd hpr (List.not_mem_nil pr)
  | cons b rest ih =>
    intro w hits hpars hnd
    obtain ⟨pOld, items⟩ := b
    rw [List.map_cons, List.nodup_cons] at hnd
    by_cases hemp : items.isEmpty = true
    · obtain ⟨specs, upds, wEnd, fs0, hts, hpos, hwEnd, hlen, hdel, hqr, hcov, hdom, hcl⟩ :=
        ih (w := w) (fun pr hpr => hits pr (List.mem_cons_of_mem _ hpr))
          (fun pr hpr => hpars pr (List.mem_cons_of_mem _ hpr)) hnd.2
      have hbs : items = [] := List.isEmpty_iff.mp hemp
      refine ⟨specs, upds, wEnd, fs0, ?_, hpos, hwEnd, ?_, hdel, hqr, ?_, ?_, ?_⟩
      · simp only [truncSpecs]
        rw [if_pos hemp]
        exact hts
      · rw [List.map_cons, List.sum_cons, hbs]
        simpa using hlen
      · intro r hr
        rcases hcov r hr with ⟨pr, hpr, it, hit, h2, h3⟩
        exact ⟨pr, List.mem_cons_of_mem _ hpr, it, hit, h2, h3⟩
      · intro pNew hne
        rcases hdom pNew hne with ⟨pr, hpr, hlk⟩
        exact ⟨pr, List.mem_cons_of_mem _ hpr, hlk⟩
      · intro pr hpr pNew hlk
        rcases List.mem_cons.mp hpr with h1 | h1
        · left
          refine ⟨by rw [h1]; exact hemp, ?_⟩
          cases hup : lookupOff upds pNew with
          | none => rfl
          | some v =>
            exfalso
            rcases hdom pNew (by rw [hup]; intro hcc; cases hcc) with ⟨pr2, hpr2, hlk2⟩
            refine hnd.1 (List.mem_map.mpr ⟨pr2, hpr2, ?_⟩)
            rw [hlk2, ← hlk, h1]
        · exact hcl pr h1 pNew hlk
    · have hpsome := hpars (pOld, items) (List.mem_cons_self _ _)
      cases hplk : lookupOff m pOld with
      | none =>
        have hpsome2 : (lookupOff m pOld).isSome = true := hpsome
        rw [hplk] at hpsome2
        cases hpsome2
      | some pNew0 =>
        obtain ⟨blk, hblk, hblen, hbpos, hbdel, hbqr, hbshape, hbmap⟩ :=
          truncSpecBlock_ok (m := m) (w := w) (hits (pOld, items) (List.mem_cons_self _ _))
        obtain ⟨specs2, upds2, wEnd2, fs2, hts2, hpos2, hwEnd2, hlen2, hdel2, hqr2,
            hcov2, hdom2, hcl2⟩ :=
          ih (w := w + 11 * (items.length : Int))
            (fun pr hpr => hits pr (List.mem_cons_of_mem _ hpr))
            (fun pr hpr => hpars pr (List.mem_cons_of_mem _ hpr)) hnd.2
        refine ⟨blk ++ specs2, (pNew0, w) :: upds2, wEnd2, some w, ?_, ?_, ?_, ?_, ?_, ?_,
          ?_, ?_, ?_⟩
        · simp only [truncSpecs]
          rw [if_neg hemp, hblk, hts2, hplk]
        · refine prsPositional_append hbpos ?_
          have harith : w + prs_rec_size * ((blk.length : Nat) : Int)
              = w + 11 * ((items.length : Nat) : Int) := by
            rw [hblen]
            rfl
          rw [harith]
          exact hpos2
        · rw [hwEnd2]
          simp only [List.length_append]
          push_cast
          rw [hblen]
          push_cast
          ring
        · simp only [List.length_append, List.map_cons, List.sum_cons, hblen, hlen2]
        · intro r hr
          rcases List.mem_append.mp hr with h1 | h1
          · exact hbdel r h1
          · exact hdel2 r h1
        · intro r hr
          rcases List.mem_append.mp hr with h1 | h1
          · exact hbqr r h1
          · exact hqr2 r h1
        · intro r hr
          rcases List.mem_append.mp hr with h1 | h1
          · have hpair : (r.comp_off, r.qty) ∈ items.map
                (fun it => ((lookupOff m it.1).getD 0, it.2)) := by
              rw [← hbmap]
              exact List.mem_map.mpr ⟨r, h1, rfl⟩
            rcases List.mem_map.mp hpair with ⟨it, hit, heq⟩
            refine ⟨(pOld, items), List.mem_cons_self _ _, it, hit, ?_, ?_⟩
            · exact (congrArg Prod.fst heq).symm
            · exact (congrArg Prod.snd heq).symm
          · rcases hcov2 r h1 with ⟨pr, hpr, it, hit, h2, h3⟩
            exact ⟨pr, List.mem_cons_of_mem _ hpr, it, hit, h2, h3⟩
        · intro pNew hne
          by_cases hpe : pNew0 = pNew
          · exact ⟨(pOld, items), List.mem_cons_self _ _, by rw [hplk, hpe]⟩
          · rw [lookupOff_cons_ne hpe] at hne
            rcases hdom2 pNew hne with ⟨pr, hpr, hlk⟩
            exact ⟨pr, List.mem_cons_of_mem _ hpr, hlk⟩
        · intro pr hpr pNew hlk
          rcases List.mem_cons.mp hpr with h1 | h1
          · right
            have hpn : pNew = pNew0 := by
              have hlk2 : lookupOff m pOld = some pNew := by
                rw [h1] at hlk
                exact hlk
              exact Option.some.inj (hlk2.symm.trans hplk)
            refine ⟨w, blk, ?_, ?_, ?_, ?_, ?_⟩
            · rw [hpn]
              exact lookupOff_cons_self pNew0
            · rw [if_neg hemp] at hbshape
              exact hbshape
            · exact prsPositional_nodup hbpos
            · intro r hr
              exact List.mem_append.mpr (Or.inl hr)
            · rw [h1]
              exact hbmap
          · have hpne : ¬ pNew0 = pNew := by
              intro hcc
              refine hnd.1 (List.mem_map.mpr ⟨pr, h1, ?_⟩)
              rw [hlk, hplk, hcc]
            rw [lookupOff_cons_ne hpne]
            rcases hcl2 pr h1 pNew hlk with ⟨he1, he2⟩ |
              ⟨start, blk2, hu1, hu2, hu5, hu3, hu4⟩
            · exact Or.inl ⟨he1, he2⟩
            · exact Or.inr ⟨start, blk2, hu1, hu2, hu5,
                fun r hr => List.mem_append.mpr (Or.inr (hu3 r hr)), hu4⟩

theorem keep_cond {m : List (Int × Int)} {ch : List PrsRec} {it : Int × Int}
    (h : it ∈ keepOf m ch) :
    (lookupOff m it.1).isSome = true ∧ ∃ sr ∈ ch, sr.del_ = 0 ∧ it = (sr.comp_off, sr.qty) := by
  unfold keepOf at h
  rcases List.mem_map.mp h with ⟨sr, hsrf, hsre⟩
  have hcond : (sr.del_ == 0 && (lookupOff m sr.comp_off).isSome) = true :=
    (List.mem_filter.mp hsrf).2
  rcases Bool.and_eq_true_iff.mp hcond with ⟨hdel, hsome⟩
  refine ⟨?_, sr, List.mem_of_mem_filter hsrf, beq_iff_eq.mp hdel, hsre.symm⟩
  rw [← hsre]
  exact hsome

theorem chainOf_ok {s : PSApp} {ptr : Int}
    (h : exceptOk (prsChain s (s.prs.length + 1) ptr) = true) :
    prsChain s (s.prs.length + 1) ptr = .ok (chainOf s ptr) := by
  unfold chainOf
  cases hc : prsChain s (s.prs.length + 1) ptr with
  | ok ch => rfl
  | error e =>
    rw [hc] at h
    simp [exceptOk] at h

theorem bucketsOf_eq {s : PSApp} {m : List (Int × Int)} :
    ∀ {l : List PrdRec},
      (∀ p ∈ l, exceptOk (prsChain s (s.prs.length + 1) p.first_spec) = true) →
      bucketsOf s m l
        = .ok (l.map (fun p => (p.off, keepOf m (chainOf s p.first_spec)))) := by
  intro l
  induction l with
  | nil =>
    intro _
    rfl
  | cons p rest ih =>
    intro hch
    have h1 := chainOf_ok (hch p (List.mem_cons_self _ _))
    simp only [bucketsOf, keepWalk_eq h1,
      ih (fun x hx => hch x (List.mem_cons_of_mem _ hx)), List.map_cons]

theorem itemsOf_all {t : PSApp} :
    ∀ {blk : List PrsRec},
      (∀ r ∈ blk, r.del_ = 0) →
      (∀ r ∈ blk, ∃ child, prdRead t r.comp_off = some child ∧ child.del_ = 0) →
      itemsOf t blk
        = blk.map (fun r => ((childNT t r.comp_off).1, (childNT t r.comp_off).2, r.qty)) := by
  intro blk
  induction blk with
  | nil =>
    intro _ _
    rfl
  | cons r rest ih =>
    intro hdel hres
    obtain ⟨child, hrd, hcact⟩ := hres r (List.mem_cons_self _ _)
    have hnt : childNT t r.comp_off = (child.name, child.typ) := by
      unfold childNT
      rw [hrd]
    have hrdel : (r.del_ == 0) = true := beq_iff_eq.mpr (hdel r (List.mem_cons_self _ _))
    have hL : itemsOf t (r :: rest) = (child.name, child.typ, r.qty) :: itemsOf t rest := by
      simp only [itemsOf]
      rw [if_pos hrdel]
      simp only [hrd]
      rw [if_pos (beq_iff_eq.mpr hcact)]
    rw [hL, List.map_cons, hnt,
      ih (fun x hx => hdel x (List.mem_cons_of_mem _ hx))
        (fun x hx => hres x (List.mem_cons_of_mem _ hx))]

theorem prsChain_of_specItems {s : PSApp} :
    ∀ {F : Nat} {ptr : Int} {l : List (String × String × Int)},
      specItems s F ptr = .ok l → ∃ ch, prsChain s F ptr = .ok ch := by
  intro F
  induction F with
  | zero =>
    intro ptr l hsp
    simp [specItems] at hsp
  | succ F ih =>
    intro ptr l hsp
    by_cases hptr : (ptr == -1) = true
    · refine ⟨[], ?_⟩
      simp [prsChain, beq_iff_eq.mp hptr]
    · simp only [specItems, hptr, Bool.false_eq_true, if_false] at hsp
      cases hrd : prsRead s ptr with
      | none =>
        simp only [hrd] at hsp
        cases hsp
      | some sr =>
        simp only [hrd] at hsp
        cases hrec : specItems s F sr.next_ with
        | error e =>
          simp only [hrec] at hsp
          cases hsp
        | ok rest =>
          rcases ih hrec with ⟨ch, hch⟩
          refine ⟨sr :: ch, ?_⟩
          have hb : (ptr == -1) = false := by
            cases hc : (ptr == -1)
            · rfl
            · exact absurd hc hptr
          simp only [prsChain, hb, Bool.false_eq_true, if_false, hrd, hch]

theorem forall2_and {α β : Type _} {R S : α → β → Prop} :
    ∀ {l₁ : List α} {l₂ : List β}, List.Forall₂ R l₁ l₂ → List.Forall₂ S l₁ l₂ →
      List.Forall₂ (fun a b => R a b ∧ S a b) l₁ l₂ := by
  intro l₁
  induction l₁ with
  | nil =>
    intro l₂ h1 _
    cases h1
    exact List.Forall₂.nil
  | cons x xs ih =>
    intro l₂ h1 h2
    cases h1 with
    | cons hr1 hrest1 =>
      cases h2 with
      | cons hr2 hrest2 =>
        exact List.Forall₂.cons ⟨hr1, hr2⟩ (ih hrest1 hrest2)

theorem forall2_trans {α β γ : Type _} {R : α → β → Prop} {S : β → γ → Prop}
    {U : α → γ → Prop} :
    ∀ {l₁ : List α} {l₂ : List β} {l₃ : List γ},
      List.Forall₂ R l₁ l₂ → List.Forall₂ S l₂ l₃ →
      (∀ a b c, R a b → S b c → U a c) → List.Forall₂ U l₁ l₃ := by
  intro l₁
  induction l₁ with
  | nil =>
    intro l₂ l₃ h1 h2 _
    cases h1
    cases h2
    exact List.Forall₂.nil
  | cons x xs ih =>
    intro l₂ l₃ h1 h2 hu
    cases h1 with
    | cons hr1 hrest1 =>
      cases h2 with
      | cons hr2 hrest2 =>
        exact List.Forall₂.cons (hu _ _ _ hr1 hr2) (ih hrest1 hrest2 hu)

end TruncBasics

section TruncMain

theorem truncate_sim {s : PSApp} (h : WF s) :
    ∃ t, truncate s = .ok t ∧ TruncSim s t := by
  have hscan := WF_scan_prd h
  have hAnodup : ((sortedActive s).map (fun r => r.off)).Nodup := sortedActive_offs_nodup h
  obtain ⟨hclen, hcf2, hcpos, hcshape⟩ :=
    truncCompRecs_spec s.data_len (sortedActive s) PRD_HDR_SIZE
  have halign : List.Forall₂ (fun old new =>
      lookupOff (buildOffMap (prd_rec_size s) PRD_HDR_SIZE (sortedActive s)) old.off
        = some new.off)
      (sortedActive s) (truncCompRecs s.data_len PRD_HDR_SIZE (sortedActive s)) :=
    bom_align s.data_len (sortedActive s) PRD_HDR_SIZE hAnodup
  have hchainsA : ∀ p ∈ sortedActive s,
      exceptOk (prsChain s (s.prs.length + 1) p.first_spec) = true :=
    fun p hp => WF_chains h p (sortedActive_mem.mp hp).1
  have hbuck := bucketsOf_eq
    (m := buildOffMap (prd_rec_size s) PRD_HDR_SIZE (sortedActive s)) hchainsA
  have hiffm : ∀ sr ∈ s.prs, ∀ child, prdRead s sr.comp_off = some child →
      (((lookupOff (buildOffMap (prd_rec_size s) PRD_HDR_SIZE (sortedActive s))
          sr.comp_off).isSome = true) ↔ child.del_ = 0) :=
    fun sr hsr child hrd => child_active_iff h hsr hrd
  have hchmem : ∀ p ∈ sortedActive s, ∀ sr ∈ chainOf s p.first_spec, sr ∈ s.prs := by
    intro p hp sr hsr
    have hch := chainOf_ok (hchainsA p hp)
    exact SChain_mem (prsChain_ok_chain hch).1 sr hsr
  have hikeq : ∀ p ∈ sortedActive s,
      itemsOf s (chainOf s p.first_spec)
        = (keepOf (buildOffMap (prd_rec_size s) PRD_HDR_SIZE (sortedActive s))
            (chainOf s p.first_spec)).map
            (fun it => ((childNT s it.1).1, (childNT s it.1).2, it.2)) :=
    fun p hp => itemsOf_eq_keep h hiffm (hchmem p hp)
  have hitsB : ∀ pr ∈ (sortedActive s).map
      (fun p => (p.off, keepOf (buildOffMap (prd_rec_size s) PRD_HDR_SIZE (sortedActive s))
        (chainOf s p.first_spec))),
      ∀ it ∈ pr.2,
        (lookupOff (buildOffMap (prd_rec_size s) PRD_HDR_SIZE (sortedActive s))
          it.1).isSome = true ∧
        ¬ ((it.2 < -32768 || 32767 < it.2) = true) := by
    intro pr hpr it hit
    rcases List.mem_map.mp hpr with ⟨p, hp, hpe⟩
    subst hpe
    have hit2 : it ∈ keepOf (buildOffMap (prd_rec_size s) PRD_HDR_SIZE (sortedActive s))
        (chainOf s p.first_spec) := hit
    rcases keep_cond hit2 with ⟨hsome, sr, hsr, hdel, hite⟩
    refine ⟨hsome, ?_⟩
    have hq := WF_qty h sr (hchmem p hp sr hsr)
    have hq2 : it.2 = sr.qty := by rw [hite]
    intro hcc
    rcases Bool.or_eq_true_iff.mp hcc with h1 | h1
    · have h2 := of_decide_eq_true h1
      omega
    · have h2 := of_decide_eq_true h1
      omega
  have hparsB : ∀ pr ∈ (sortedActive s).map
      (fun p => (p.off, keepOf (buildOffMap (prd_rec_size s) PRD_HDR_SIZE (sortedActive s))
        (chainOf s p.first_spec))),
      (lookupOff (buildOffMap (prd_rec_size s) PRD_HDR_SIZE (sortedActive s))
        pr.1).isSome = true := by
    intro pr hpr
    rcases List.mem_map.mp hpr with ⟨p, hp, hpe⟩
    subst hpe
    show (lookupOff (buildOffMap (prd_rec_size s) PRD_HDR_SIZE (sortedActive s))
      p.off).isSome = true
    rw [bom_isSome]
    exact List.mem_map.mpr ⟨p, hp, rfl⟩
  have hszpos : (0 : Int) < 9 + (s.data_len : Int) := prd_rec_size_pos s
  have hcnodup : ((truncCompRecs s.data_len PRD_HDR_SIZE (sortedActive s)).map
      (fun r => r.off)).Nodup := prdPositional_nodup hszpos hcpos
  have hcompsome : (truncCompRecs s.data_len PRD_HDR_SIZE (sortedActive s)).map
        (fun n => some n.off)
      = (sortedActive s).map (fun p =>
          lookupOff (buildOffMap (prd_rec_size s) PRD_HDR_SIZE (sortedActive s)) p.off) :=
    forall2_map_eq halign (fun a b hr => hr.symm)
  have hsome2 : (truncCompRecs s.data_len PRD_HDR_SIZE (sortedActive s)).map
        (fun n => some n.off)
      = ((truncCompRecs s.data_len PRD_HDR_SIZE (sortedActive s)).map
          (fun r => r.off)).map some :=
    (List.map_map _ _ _).symm
  have hoffsmap : (((sortedActive s).map
        (fun p => (p.off, keepOf (buildOffMap (prd_rec_size s) PRD_HDR_SIZE (sortedActive s))
          (chainOf s p.first_spec)))).map
        (fun pr => lookupOff (buildOffMap (prd_rec_size s) PRD_HDR_SIZE (sortedActive s)) pr.1))
      = (sortedActive s).map (fun p =>
          lookupOff (buildOffMap (prd_rec_size s) PRD_HDR_SIZE (sortedActive s)) p.off) := by
    refine (List.map_map _ _ _).trans ?_
    exact List.map_congr_left (fun p hp => rfl)
  have hndB : (((sortedActive s).map
      (fun p => (p.off, keepOf (buildOffMap (prd_rec_size s) PRD_HDR_SIZE (sortedActive s))
        (chainOf s p.first_spec)))).map
      (fun pr => lookupOff (buildOffMap (prd_rec_size s) PRD_HDR_SIZE (sortedActive s))
        pr.1)).Nodup := by
    rw [hoffsmap, ← hcompsome, hsome2]
    exact hcnodup.map (Option.some_injective _)
  obtain ⟨specs, upds, wEnd, fs0, hts, hspos, hwEnd, hslen, hsdel, hsqr, hscov, hsdom, hscl⟩ :=
    truncSpecs_ok (w := PRS_HDR_SIZE) hitsB hparsB hndB
  have haf := applyFirstSpec_fields upds (truncCompRecs s.data_len PRD_HDR_SIZE (sortedActive s))
  have hafoffs : (applyFirstSpec upds
        (truncCompRecs s.data_len PRD_HDR_SIZE (sortedActive s))).map (fun r => r.off)
      = (truncCompRecs s.data_len PRD_HDR_SIZE (sortedActive s)).map (fun r => r.off) :=
    forall2_map_eq haf (fun a b hr => hr.1)
  refine ⟨{ data_len := s.data_len, prd_head := if (sortedActive s).isEmpty then -1 else PRD_HDR_SIZE, prd_free := PRD_HDR_SIZE + prd_rec_size s * ((sortedActive s).length : Int), prs_head := fs0.getD (-1), prs_free := wEnd, prd := applyFirstSpec upds (truncCompRecs s.data_len PRD_HDR_SIZE (sortedActive s)), prs := specs }, ?_, ?_⟩
  · simp only [truncate, hscan]
    rw [show pySort (fun a b => keyLe a.name b.name) (s.prd.filter (fun r => r.del_ == 0))
      = sortedActive s from rfl]
    simp only [hbuck, hts]
  · set t : PSApp := { data_len := s.data_len, prd_head := if (sortedActive s).isEmpty then -1 else PRD_HDR_SIZE, prd_free := PRD_HDR_SIZE + prd_rec_size s * ((sortedActive s).length : Int), prs_head := fs0.getD (-1), prs_free := wEnd, prd := applyFirstSpec upds (truncCompRecs s.data_len PRD_HDR_SIZE (sortedActive s)), prs := specs }
    have hprdposT : prdPositional (prd_rec_size t) PRD_HDR_SIZE t.prd = true := by
      show prdPositional (9 + (s.data_len : Int)) PRD_HDR_SIZE
        (applyFirstSpec upds (truncCompRecs s.data_len PRD_HDR_SIZE (sortedActive s))) = true
      rw [prdPositional_of_offs_eq hafoffs]
      exact hcpos
    have hprsposT : prsPositional PRS_HDR_SIZE t.prs = true := hspos
    have hAT : List.Forall₂ (fun p P =>
        lookupOff (buildOffMap (prd_rec_size s) PRD_HDR_SIZE (sortedActive s)) p.off
          = some P.off ∧
        P.name = p.name ∧ P.typ = p.typ ∧ P.del_ = 0 ∧
        P.first_spec = (lookupOff upds P.off).getD (-1))
        (sortedActive s) t.prd := by
      show List.Forall₂ _ (sortedActive s)
        (applyFirstSpec upds (truncCompRecs s.data_len PRD_HDR_SIZE (sortedActive s)))
      have hACfull := forall2_and halign hcf2
      have hstep : List.Forall₂ (fun p P =>
          lookupOff (buildOffMap (prd_rec_size s) PRD_HDR_SIZE (sortedActive s)) p.off
            = some P.off ∧
          P.name = (fieldRoundtrip s.data_len p.typ p.name).2 ∧
          P.typ = (fieldRoundtrip s.data_len p.typ p.name).1 ∧
          P.del_ = 0 ∧
          P.first_spec = (lookupOff upds P.off).getD (-1))
          (sortedActive s)
          (applyFirstSpec upds (truncCompRecs s.data_len PRD_HDR_SIZE (sortedActive s))) := by
        refine forall2_trans hACfull haf ?_
        intro a b c hab hbc
        refine ⟨by rw [hbc.1]; exact hab.1, hbc.2.1.trans hab.2.1,
          hbc.2.2.1.trans hab.2.2.1, hbc.2.2.2.1.trans hab.2.2.2.1, ?_⟩
        rw [hbc.2.2.2.2.2, hab.2.2.2.2, ← hbc.1]
      refine forall2_imp_mem hstep ?_
      intro p hp P hpP
      have hpm := sortedActive_mem.mp hp
      have hrt : fieldRoundtrip s.data_len p.typ p.name = (p.typ, p.name) :=
        WF_normFix h p hpm.1
      refine ⟨hpP.1, ?_, ?_, hpP.2.2.2.1, hpP.2.2.2.2⟩
      · rw [hpP.2.1, hrt]
      · rw [hpP.2.2.1, hrt]
    have hallact : ∀ r ∈ t.prd, r.del_ = 0 := by
      intro r hr
      rcases forall2_zip_right hAT hr with ⟨p, hz, hrel⟩
      exact hrel.2.2.2.1
    have hcompResT : ∀ r ∈ t.prs, (prdRead t r.comp_off).isSome = true := by
      intro r hr
      have hr2 : r ∈ specs := hr
      rcases hscov r hr2 with ⟨pr, hprB, it, hit, hco, hqt⟩
      rcases List.mem_map.mp hprB with ⟨p, hp, hpe⟩
      subst hpe
      have hit2 : it ∈ keepOf (buildOffMap (prd_rec_size s) PRD_HDR_SIZE (sortedActive s))
          (chainOf s p.first_spec) := hit
      rcases keep_cond hit2 with ⟨hsome, sr, hsr, hdel, hite⟩
      have hmemoff : it.1 ∈ (sortedActive s).map (fun r => r.off) :=
        (bom_isSome (prd_rec_size s) (sortedActive s) PRD_HDR_SIZE it.1).mp hsome
      rcases List.mem_map.mp hmemoff with ⟨a, ha, hao⟩
      rcases forall2_zip_left hAT ha with ⟨P, hzP, hrelP⟩
      have hlkP : lookupOff (buildOffMap (prd_rec_size s) PRD_HDR_SIZE (sortedActive s)) it.1
          = some P.off := by
        rw [← hao]
        exact hrelP.1
      have hPmem : P ∈ t.prd := (List.mem_zip hzP).2
      have hco2 : r.comp_off = P.off := by
        simp only [hco, hlkP, Option.getD_some]
      rw [hco2, prdRead_mem hprdposT hPmem]
      rfl
    have htoffs : (t.prd.map (fun r => r.off)).Nodup := by
      show ((applyFirstSpec upds (truncCompRecs s.data_len PRD_HDR_SIZE (sortedActive s))).map
        (fun r => r.off)).Nodup
      rw [hafoffs]
      exact hcnodup
    have hne1 : ∀ x ∈ t.prd, x.off ≠ -1 := by
      intro x hx
      have h28 : (28 : Int) ≤ x.off := prdPositional_lb (prd_rec_size_pos t) hprdposT x hx
      omega
    have hshapeT : LShape t.prd_head t.prd := by
      show LShape (if (sortedActive s).isEmpty then -1 else PRD_HDR_SIZE)
        (applyFirstSpec upds (truncCompRecs s.data_len PRD_HDR_SIZE (sortedActive s)))
      exact LShape_congr_f2
        (forall2_imp_mem haf (fun a _ b hr => ⟨hr.1, hr.2.2.2.2.1⟩)) hcshape
    have hLC : LChain t t.prd_head t.prd :=
      LChain_of_shape hprdposT hshapeT (fun r hr => hr)
    have hiterT : iter_prd_logical t = .ok t.prd := by
      have hfilt : t.prd.filter (fun r => r.del_ == 0) = t.prd :=
        List.filter_eq_self.mpr (fun r hr => beq_iff_eq.mpr (hallact r hr))
      show iterLogicalAux t (t.prd.length + 1) t.prd_head [] = .ok t.prd
      rw [iter_of_chain hLC (fun o _ => List.not_mem_nil o) htoffs hne1
        (Nat.lt_succ_self _), hfilt]
    have hchildNT : ∀ o ∈ (sortedActive s).map (fun r => r.off),
        childNT t ((lookupOff (buildOffMap (prd_rec_size s) PRD_HDR_SIZE (sortedActive s))
          o).getD 0) = childNT s o := by
      intro o ho
      rcases List.mem_map.mp ho with ⟨a, ha, hao⟩
      rcases forall2_zip_left hAT ha with ⟨P, hzP, hrelP⟩
      have hPmem : P ∈ t.prd := (List.mem_zip hzP).2
      have hlk : lookupOff (buildOffMap (prd_rec_size s) PRD_HDR_SIZE (sortedActive s)) o
          = some P.off := by
        rw [← hao]
        exact hrelP.1
      rw [hlk]
      have hrdT : prdRead t P.off = some P := prdRead_mem hprdposT hPmem
      have hrdS : prdRead s a.off = some a := prdRead_mem (WF_prdPos h) (sortedActive_mem.mp ha).1
      rw [← hao]
      simp only [Option.getD_some, childNT, hrdT, hrdS]
      rw [hrelP.2.1, hrelP.2.2.1]
    have hcorr : List.Forall₂ (TRecRel s t) (sortedActive s) t.prd := by
      refine forall2_imp_mem hAT ?_
      intro p hp P hrel
      refine ⟨hrel.2.1, hrel.2.2.1, hrel.2.2.2.1, ?_⟩
      have hprB : (p.off, keepOf (buildOffMap (prd_rec_size s) PRD_HDR_SIZE (sortedActive s))
          (chainOf s p.first_spec)) ∈ (sortedActive s).map
          (fun p => (p.off, keepOf (buildOffMap (prd_rec_size s) PRD_HDR_SIZE (sortedActive s))
            (chainOf s p.first_spec))) :=
        List.mem_map.mpr ⟨p, hp, rfl⟩
      have hlkp : lookupOff (buildOffMap (prd_rec_size s) PRD_HDR_SIZE (sortedActive s))
          ((p.off, keepOf (buildOffMap (prd_rec_size s) PRD_HDR_SIZE (sortedActive s))
            (chainOf s p.first_spec))).1 = some P.off := hrel.1
      rcases hscl _ hprB P.off hlkp with ⟨hke, hkn⟩ |
        ⟨start, blk, hlkup, hshape, hbnd, hbmem, hbmap⟩
      · have hke2 : (keepOf (buildOffMap (prd_rec_size s) PRD_HDR_SIZE (sortedActive s))
            (chainOf s p.first_spec)).isEmpty = true := hke
        have hfs : P.first_spec = -1 := by
          simp only [hrel.2.2.2.2, hkn, Option.getD_none]
        rw [hfs]
        have hitems : itemsOf s (chainOf s p.first_spec) = [] := by
          rw [hikeq p hp, List.isEmpty_iff.mp hke2]
          rfl
        rw [hitems]
        rfl
      · have hfs : P.first_spec = start := by
          simp only [hrel.2.2.2.2, hlkup, Option.getD_some]
        rw [hfs]
        have hbmemT : ∀ r ∈ blk, r ∈ t.prs := fun r hr => hbmem r hr
        have hsch : SChain t start blk := SChain_of_shape hprsposT hshape hbmemT
        have hne2 : ∀ x ∈ blk, x.off ≠ -1 := by
          intro x hx
          have h8 : (8 : Int) ≤ x.off := prsPositional_lb hprsposT x (hbmemT x hx)
          omega
        have hlen2 : blk.length < t.prs.length + 1 :=
          Nat.lt_succ_of_le (SChain_length_le hsch hbnd)
        have hpch : prsChain t (t.prs.length + 1) start = .ok blk :=
          prsChain_of_chain hsch hne2 hlen2
        have hsi : specItems t (t.prs.length + 1) start = .ok (itemsOf t blk) :=
          specItems_eq hpch (fun sr hsr _ => hcompResT sr (hbmemT sr hsr))
        rw [hsi]
        suffices heq : itemsOf t blk = itemsOf s (chainOf s p.first_spec) by rw [heq]
        have hresolve : ∀ r ∈ blk, ∃ child, prdRead t r.comp_off = some child ∧
            child.del_ = 0 := by
          intro r hr
          have hopt := hcompResT r (hbmemT r hr)
          cases hrd : prdRead t r.comp_off with
          | none =>
            rw [hrd] at hopt
            cases hopt
          | some child =>
            exact ⟨child, rfl, hallact child (prdRead_some hrd).1⟩
        have hIT : itemsOf t blk
            = blk.map (fun r => ((childNT t r.comp_off).1, (childNT t r.comp_off).2, r.qty)) :=
          itemsOf_all (fun r hr => hsdel r (hbmem r hr)) hresolve
        rw [hIT, hikeq p hp]
        have hstep1 : blk.map
              (fun r => ((childNT t r.comp_off).1, (childNT t r.comp_off).2, r.qty))
            = (blk.map (fun r => (r.comp_off, r.qty))).map
                (fun pr => ((childNT t pr.1).1, (childNT t pr.1).2, pr.2)) :=
          (List.map_map (fun pr => ((childNT t pr.1).1, (childNT t pr.1).2, pr.2))
            (fun r => (r.comp_off, r.qty)) blk).symm
        rw [hstep1, hbmap, List.map_map]
        refine List.map_congr_left ?_
        intro it hit
        have hit2 : it ∈ keepOf (buildOffMap (prd_rec_size s) PRD_HDR_SIZE (sortedActive s))
            (chainOf s p.first_spec) := hit
        have hmemoff : it.1 ∈ (sortedActive s).map (fun r => r.off) :=
          (bom_isSome (prd_rec_size s) (sortedActive s) PRD_HDR_SIZE it.1).mp (keep_cond hit2).1
        have hcnt := hchildNT it.1 hmemoff
        show ((childNT t ((lookupOff (buildOffMap (prd_rec_size s) PRD_HDR_SIZE
            (sortedActive s)) it.1).getD 0)).1,
          (childNT t ((lookupOff (buildOffMap (prd_rec_size s) PRD_HDR_SIZE
            (sortedActive s)) it.1).getD 0)).2, it.2)
          = ((childNT s it.1).1, (childNT s it.1).2, it.2)
        rw [hcnt]
    have hchainsT : ∀ P ∈ t.prd,
        exceptOk (prsChain t (t.prs.length + 1) P.first_spec) = true := by
      intro P hP
      rcases forall2_zip_right hcorr hP with ⟨p, hz, hrel⟩
      rcases prsChain_of_specItems hrel.2.2.2 with ⟨ch, hch⟩
      rw [hch]
      rfl
    have hfree2 : t.prd_free = PRD_HDR_SIZE + (t.prd.length : Int) * prd_rec_size t := by
      have htlen : t.prd.length = (sortedActive s).length := by
        show (applyFirstSpec upds
          (truncCompRecs s.data_len PRD_HDR_SIZE (sortedActive s))).length
          = (sortedActive s).length
        unfold applyFirstSpec
        rw [List.length_map]
        exact hclen
      show PRD_HDR_SIZE + prd_rec_size s * ((sortedActive s).length : Int)
        = PRD_HDR_SIZE + (t.prd.length : Int) * prd_rec_size t
      rw [htlen, show prd_rec_size t = prd_rec_size s from rfl]
      ring
    have hfrees : t.prs_free = PRS_HDR_SIZE + (t.prs.length : Int) * prs_rec_size := by
      show wEnd = PRS_HDR_SIZE + (specs.length : Int) * prs_rec_size
      rw [hwEnd, show prs_rec_size = (11 : Int) from rfl]
      ring
    have hqtyT : ∀ r ∈ t.prs, -32768 ≤ r.qty ∧ r.qty ≤ 32767 := fun r hr => hsqr r hr
    have hlenPrs : t.prs.length
        = (((sortedActive s).map
            (fun p => (itemsOf s (chainOf s p.first_spec)).length)).sum) := by
      show specs.length = _
      rw [hslen]
      congr 1
      refine (List.map_map _ _ _).trans ?_
      refine List.map_congr_left ?_
      intro p hp
      show (keepOf (buildOffMap (prd_rec_size s) PRD_HDR_SIZE (sortedActive s))
          (chainOf s p.first_spec)).length
        = (itemsOf s (chainOf s p.first_spec)).length
      rw [hikeq p hp, List.length_map]
    exact ⟨rfl, hprdposT, hfree2, hprsposT, hfrees, hallact, hiterT, hcorr, hchainsT,
      hcompResT, hqtyT, hlenPrs⟩

theorem sortedActive_of_sim {s t : PSApp} (hsim : TruncSim s t) :
    sortedActive t = t.prd := by
  have hnames : t.prd.map (fun r => r.name) = (sortedActive s).map (fun r => r.name) :=
    forall2_map_eq hsim.corr (fun a b hr => hr.1)
  have hfilt : t.prd.filter (fun r => r.del_ == 0) = t.prd :=
    List.filter_eq_self.mpr (fun r hr => beq_iff_eq.mpr (hsim.allAct r hr))
  have hsorted : t.prd.Pairwise (fun x y => keyLe x.name y.name = true) :=
    pairwise_name_eq hnames.symm (sortedActive_sorted s)
  unfold sortedActive
  rw [hfilt]
  exact pySort_of_sorted hsorted

theorem WF_of_sim {s t : PSApp} (h : WF s) (hsim : TruncSim s t) : WF t := by
  refine ⟨?_, hsim.prdPos, hsim.prdFree, hsim.prsPos, hsim.prsFree, ?_, ?_, ?_,
    hsim.chains, hsim.compRes, hsim.qtyRange⟩
  · rw [hsim.dlEq]
    exact WF_dl h
  · intro r hr
    rcases forall2_zip_right hsim.corr hr with ⟨p, hz, hrel⟩
    have hpm := sortedActive_mem.mp (List.mem_zip hz).1
    rw [hsim.dlEq, hrel.1, hrel.2.1]
    exact WF_normFix h p hpm.1
  · have hm : t.prd.map (fun r => lowerStr (stripStr r.name))
        = (sortedActive s).map (fun r => lowerStr (stripStr r.name)) :=
      forall2_map_eq hsim.corr (fun a b hr => by rw [hr.1])
    rw [hm]
    have hsub : ((s.prd.filter (fun r => r.del_ == 0)).map
        (fun r => lowerStr (stripStr r.name))).Nodup :=
      (WF_names h).sublist (List.Sublist.map _ (List.filter_sublist _))
    exact (((pySort_perm _).map _).nodup_iff).mpr hsub
  · rw [hsim.iterEq, sortedActive_of_sim hsim]

theorem get_components_sim {s t : PSApp} (h : WF s) (hsim : TruncSim s t) :
    get_components t = get_components s := by
  have hmap : t.prd.map (fun r => (r.name, r.typ))
      = (sortedActive s).map (fun r => (r.name, r.typ)) :=
    forall2_map_eq hsim.corr (fun a b hr => by rw [hr.1, hr.2.1])
  simp only [get_components, WF_iter h, hsim.iterEq, hmap]

theorem find_active_sim {s t : PSApp} (h : WF s) (ht : WF t) (hsim : TruncSim s t)
    (n : String) :
    (find_active s n = .ok none ∧ find_active t n = .ok none) ∨
    (∃ p P, find_active s n = .ok (some p) ∧ find_active t n = .ok (some P) ∧
      (p, P) ∈ (sortedActive s).zip t.prd) := by
  rw [WF_find_active h, WF_find_active ht]
  by_cases hex : ∃ p, p ∈ sortedActive s ∧ eqPy p.name (norm n) = true
  · right
    obtain ⟨p, hp, hpe⟩ := hex
    have hpm := sortedActive_mem.mp hp
    rcases forall2_zip_left hsim.corr hp with ⟨P, hz, hrel⟩
    have hPmem : P ∈ t.prd := (List.mem_zip hz).2
    have hname : lowerStr (stripStr p.name) = lowerStr (stripStr (norm n)) := beq_iff_eq.mp hpe
    have hfind : s.prd.find? (fun r => r.del_ == 0 && eqPy r.name (norm n)) = some p := by
      refine find?_unique hpm.1 ?_ ?_
      · rw [Bool.and_eq_true_iff]
        exact ⟨beq_iff_eq.mpr hpm.2, hpe⟩
      · intro y hy hye
        rcases Bool.and_eq_true_iff.mp hye with ⟨hyd, hyn⟩
        refine mem_map_nodup_inj (WF_names h) hy hpm.1 ?_
        show lowerStr (stripStr y.name) = lowerStr (stripStr p.name)
        have h1 : lowerStr (stripStr y.name) = lowerStr (stripStr (norm n)) := beq_iff_eq.mp hyn
        rw [h1, ← hname]
    have hPe : eqPy P.name (norm n) = true := by
      rw [hrel.1]
      exact hpe
    have hfind2 : t.prd.find? (fun r => r.del_ == 0 && eqPy r.name (norm n)) = some P := by
      refine find?_unique hPmem ?_ ?_
      · rw [Bool.and_eq_true_iff]
        exact ⟨beq_iff_eq.mpr hrel.2.2.1, hPe⟩
      · intro y hy hye
        rcases Bool.and_eq_true_iff.mp hye with ⟨hyd, hyn⟩
        refine mem_map_nodup_inj (WF_names ht) hy hPmem ?_
        show lowerStr (stripStr y.name) = lowerStr (stripStr P.name)
        have h1 : lowerStr (stripStr y.name) = lowerStr (stripStr (norm n)) := beq_iff_eq.mp hyn
        have h2 : lowerStr (stripStr P.name) = lowerStr (stripStr (norm n)) := beq_iff_eq.mp hPe
        rw [h1, ← h2]
    rw [hfind, hfind2]
    exact ⟨p, P, rfl, rfl, hz⟩
  · left
    have hnoS : ∀ r ∈ s.prd, ¬ ((r.del_ == 0 && eqPy r.name (norm n)) = true) := by
      intro r hr hc
      rcases Bool.and_eq_true_iff.mp hc with ⟨h1, h2⟩
      exact hex ⟨r, sortedActive_mem.mpr ⟨hr, beq_iff_eq.mp h1⟩, h2⟩
    have hnoT : ∀ r ∈ t.prd, ¬ ((r.del_ == 0 && eqPy r.name (norm n)) = true) := by
      intro r hr hc
      rcases Bool.and_eq_true_iff.mp hc with ⟨h1, h2⟩
      rcases forall2_zip_right hsim.corr hr with ⟨p, hz, hrel⟩
      have h3 : eqPy p.name (norm n) = true := by
        rw [← hrel.1]
        exact h2
      exact hex ⟨p, (List.mem_zip hz).1, h3⟩
    rw [List.find?_eq_none.mpr hnoS, List.find?_eq_none.mpr hnoT]
    exact ⟨rfl, rfl⟩

theorem get_spec_sim {s t : PSApp} (h : WF s) (ht : WF t) (hsim : TruncSim s t)
    (n : String) : get_spec t n = get_spec s n := by
  rcases find_active_sim h ht hsim (norm n) with ⟨hfs, hft⟩ | ⟨p, P, hfs, hft, hz⟩
  · simp only [get_spec, hfs, hft]
  · simp only [get_spec, hfs, hft]
    have hrel : TRecRel s t p P := forall2_of_zip hsim.corr hz
    have hp : p ∈ sortedActive s := (List.mem_zip hz).1
    rw [hrel.2.1]
    by_cases hD : (p.typ == "D") = true
    · rw [if_pos hD, if_pos hD]
    · rw [if_neg hD, if_neg hD]
      have hchs : prsChain s (s.prs.length + 1) p.first_spec = .ok (chainOf s p.first_spec) :=
        chainOf_ok (WF_chains h p (sortedActive_mem.mp hp).1)
      have hsi : specItems s (s.prs.length + 1) p.first_spec
          = .ok (itemsOf s (chainOf s p.first_spec)) :=
        specItems_eq hchs (fun sr hsr _ =>
          WF_comp h sr (SChain_mem (prsChain_ok_chain hchs).1 sr hsr))
      simp only [hrel.2.2.2, hsi]

theorem treeItems_congr {u : PSApp} (h : WF u)
    {go go2 : PrdRec → String → Except Err (List String)}
    (hgo : ∀ cr, cr ∈ u.prd → cr.del_ = 0 → ∀ pre2, go cr pre2 = go2 cr pre2) :
    ∀ {items : List (String × String × Int)} {pre : String} {n i : Nat},
      treeItems u go pre n i items = treeItems u go2 pre n i items := by
  intro items
  induction items with
  | nil =>
    intro pre n i
    rfl
  | cons it rest ih =>
    intro pre n i
    obtain ⟨cn, ct, q⟩ := it
    by_cases hD : (ct != "D") = true
    · simp only [treeItems]
      rw [if_pos hD, if_pos hD]
      cases hfa : find_active u cn with
      | error e => simp only [hfa]
      | ok oc =>
        cases oc with
        | none => simp only [hfa, ih]
        | some cr =>
          have hfa2 := hfa
          rw [WF_find_active h] at hfa2
          have hfind := Except.ok.inj hfa2
          have hmem := List.mem_of_find?_eq_some hfind
          have hprop := List.find?_some hfind
          have hdel : cr.del_ = 0 := by
            rcases Bool.and_eq_true_iff.mp hprop with ⟨h1, _⟩
            exact beq_iff_eq.mp h1
          simp only [hfa, hgo cr hmem hdel, ih]
    · have hDf : (ct != "D") = false := by
        cases hcv : (ct != "D")
        · rfl
        · exact absurd hcv hD
      simp only [treeItems, hDf, Bool.false_eq_true, if_false, ih]

theorem treeDfs_fuel {u : PSApp} (h : WF u) :
    ∀ {F F2 : Nat} {node : PrdRec} {pre : String} {stk : List Int},
      node ∈ u.prd → node.del_ = 0 →
      ((((sortedActive u).map (fun r => r.off)).filter
        (fun o => !(stk.contains o))).length) < F →
      ((((sortedActive u).map (fun r => r.off)).filter
        (fun o => !(stk.contains o))).length) < F2 →
      treeDfs u F node pre stk = treeDfs u F2 node pre stk := by
  intro F
  induction F with
  | zero =>
    intro F2 node pre stk _ _ hF _
    omega
  | succ F ih =>
    intro F2 node pre stk hmem hact hF hF2
    cases F2 with
    | zero => omega
    | succ F2 =>
      simp only [treeDfs]
      by_cases hc : stk.contains node.off = true
      · rw [if_pos hc, if_pos hc]
      · have hcf : stk.contains node.off = false := by
          cases hcv : stk.contains node.off
          · rfl
          · exact absurd hcv hc
        rw [if_neg hc, if_neg hc]
        cases hgs : get_spec u node.name with
        | error e => simp only [hgs]
        | ok items =>
          simp only [hgs]
          refine treeItems_congr h ?_
          intro cr hcrm hcra pre2
          have hnodeoff : node.off ∈ (sortedActive u).map (fun r => r.off) :=
            List.mem_map.mpr ⟨node, sortedActive_mem.mpr ⟨hmem, hact⟩, rfl⟩
          have hstep := length_filter_cons_contains (sortedActive_offs_nodup h) hnodeoff hcf
          exact ih hcrm hcra (by omega) (by omega)

theorem treeItems_sim {s t : PSApp} (h : WF s) (ht : WF t) (hsim : TruncSim s t)
    {goS goT : PrdRec → String → Except Err (List String)}
    (hgo : ∀ q Q, (q, Q) ∈ (sortedActive s).zip t.prd → ∀ pre2, goT Q pre2 = goS q pre2) :
    ∀ {items : List (String × String × Int)} {pre : String} {n i : Nat},
      treeItems t goT pre n i items = treeItems s goS pre n i items := by
  intro items
  induction items with
  | nil =>
    intro pre n i
    rfl
  | cons it rest ih =>
    intro pre n i
    obtain ⟨cn, ct, q⟩ := it
    by_cases hD : (ct != "D") = true
    · simp only [treeItems]
      rw [if_pos hD, if_pos hD]
      rcases find_active_sim h ht hsim cn with ⟨hfs, hft⟩ | ⟨p2, P2, hfs, hft, hz2⟩
      · simp only [hfs, hft, ih]
      · simp only [hfs, hft, hgo p2 P2 hz2, ih]
    · have hDf : (ct != "D") = false := by
        cases hcv : (ct != "D")
        · rfl
        · exact absurd hcv hD
      simp only [treeItems, hDf, Bool.false_eq_true, if_false, ih]

theorem treeDfs_sim {s t : PSApp} (h : WF s) (ht : WF t) (hsim : TruncSim s t) :
    ∀ {F : Nat} {p P : PrdRec} {stk STK : List Int} {pre : String},
      (p, P) ∈ (sortedActive s).zip t.prd →
      List.Forall₂ (fun o O => ∃ q Q, (q, Q) ∈ (sortedActive s).zip t.prd ∧
        q.off = o ∧ Q.off = O) stk STK →
      treeDfs t F P pre STK = treeDfs s F p pre stk := by
  have hAnodup := sortedActive_offs_nodup h
  have hTnodup : (t.prd.map (fun r => r.off)).Nodup :=
    prdPositional_nodup (prd_rec_size_pos t) (WF_prdPos ht)
  intro F
  induction F with
  | zero =>
    intro p P stk STK pre _ _
    rfl
  | succ F ih =>
    intro p P stk STK pre hpz hstk
    have hiff : stk.contains p.off = STK.contains P.off := by
      cases hc1 : stk.contains p.off with
      | true =>
        have hm1 : p.off ∈ stk := List.mem_of_elem_eq_true hc1
        rcases forall2_zip_left hstk hm1 with ⟨O, hzo, q, Q, hqz, hqo, hQO⟩
        have hqp : q = p ∧ Q = P := zip_off_fun hAnodup hqz hpz hqo
        have hPm : P.off ∈ STK := by
          rw [← hqp.2, hQO]
          exact (List.mem_zip hzo).2
        exact (List.elem_eq_true_of_mem hPm).symm
      | false =>
        cases hc2 : STK.contains P.off with
        | false => rfl
        | true =>
          exfalso
          have hm2 : P.off ∈ STK := List.mem_of_elem_eq_true hc2
          rcases forall2_zip_right hstk hm2 with ⟨o, hzo, q, Q, hqz, hqo, hQO⟩
          have hqp : q = p ∧ Q = P := zip_off_fun2 hTnodup hqz hpz hQO
          have hpm : p.off ∈ stk := by
            rw [← hqp.1, hqo]
            exact (List.mem_zip hzo).1
          have hct : stk.contains p.off = true := List.elem_eq_true_of_mem hpm
          rw [hct] at hc1
          cases hc1
    have hrel : TRecRel s t p P := forall2_of_zip hsim.corr hpz
    have hgs : get_spec t P.name = get_spec s p.name := by
      rw [hrel.1]
      exact get_spec_sim h ht hsim p.name
    simp only [treeDfs]
    rw [hiff]
    by_cases hcg : STK.contains P.off = true
    · rw [if_pos hcg, if_pos hcg]
    · rw [if_neg hcg, if_neg hcg, hgs]
      cases hgv : get_spec s p.name with
      | error e => simp only [hgv]
      | ok items =>
        simp only [hgv]
        refine treeItems_sim h ht hsim ?_
        intro q2 Q2 hz2 pre2
        exact ih hz2 (List.Forall₂.cons ⟨p, P, hpz, rfl, rfl⟩ hstk)

theorem build_tree_sim {s t : PSApp} (h : WF s) (ht : WF t) (hsim : TruncSim s t)
    (n : String) : build_tree_text t n = build_tree_text s n := by
  have hlenle : t.prd.length ≤ s.prd.length := by
    have h1 : (sortedActive s).length = t.prd.length := List.Forall₂.length_eq hsim.corr
    have h2 : (sortedActive s).length ≤ s.prd.length := by
      unfold sortedActive
      rw [(pySort_perm _).length_eq]
      exact List.length_filter_le _ _
    omega
  rcases find_active_sim h ht hsim n with ⟨hfs, hft⟩ | ⟨p, P, hfs, hft, hz⟩
  · simp only [build_tree_text, hfs, hft]
  · simp only [build_tree_text, hfs, hft]
    have hrel : TRecRel s t p P := forall2_of_zip hsim.corr hz
    rw [hrel.2.1, hrel.1]
    by_cases hD : (p.typ == "D") = true
    · rw [if_pos hD, if_pos hD]
    · rw [if_neg hD, if_neg hD]
      have hPmem : P ∈ t.prd := (List.mem_zip hz).2
      have hPact : P.del_ = 0 := hrel.2.2.1
      have hμ : ((((sortedActive t).map (fun r => r.off)).filter
          (fun o => !(([] : List Int).contains o))).length) ≤ t.prd.length := by
        calc ((((sortedActive t).map (fun r => r.off)).filter
              (fun o => !(([] : List Int).contains o))).length)
            ≤ (((sortedActive t).map (fun r => r.off))).length :=
              List.length_filter_le _ _
          _ = (sortedActive t).length := List.length_map _ _
          _ ≤ t.prd.length := by
              unfold sortedActive
              rw [(pySort_perm _).length_eq]
              exact List.length_filter_le _ _
      have hfuel1 : treeDfs t (t.prd.length + 2) P "" []
          = treeDfs t (s.prd.length + 2) P "" [] :=
        treeDfs_fuel ht hPmem hPact (by omega) (by omega)
      have hfuel2 : treeDfs t (s.prd.length + 2) P "" []
          = treeDfs s (s.prd.length + 2) p "" [] :=
        treeDfs_sim h ht hsim hz List.Forall₂.nil
      rw [hfuel1, hfuel2]

theorem forall2_map_eq_mem {α β γ : Type _} {R : α → β → Prop} {f : α → γ} {g : β → γ} :
    ∀ {l₁ : List α} {l₂ : List β}, List.Forall₂ R l₁ l₂ →
      (∀ a ∈ l₁, ∀ b ∈ l₂, R a b → g b = f a) → l₂.map g = l₁.map f := by
  intro l₁
  induction l₁ with
  | nil =>
    intro l₂ hf _
    cases hf
    rfl
  | cons x xs ih =>
    intro l₂ hf hfg
    cases hf with
    | cons hr hrest =>
      simp only [List.map_cons]
      rw [hfg x (List.mem_cons_self _ _) _ (List.mem_cons_self _ _) hr,
        ih hrest (fun a ha b hb hr2 =>
          hfg a (List.mem_cons_of_mem _ ha) b (List.mem_cons_of_mem _ hb) hr2)]

end TruncMain

/-- C7 amended: the backend performs no validation of the type letter.
For every well-formed state and every non-empty, non-duplicate name,
`add_component` succeeds for any type string whatsoever — unknown type
letters included — and appends one record instead of rejecting. -/
theorem C7_amended (s : PSApp) (name0 typ : String) (h : WF s)
    (hname : norm name0 ≠ "") (hdup : find_any s name0 = .ok none) :
    ∃ s', add_component s name0 typ = .ok s' ∧ s'.prd.length = s.prd.length + 1 :=
  add_component_ok h name0 typ hname hdup

/-- C7 amended, witness: the empty 40-byte database accepts the unknown
type letter "X". -/
theorem C7_amended_witness :
    ∃ s', add_component ⟨40, -1, PRD_HDR_SIZE, -1, PRS_HDR_SIZE, [], []⟩ "Foo" "X" = .ok s' ∧
      s'.prd.length = (⟨40, -1, PRD_HDR_SIZE, -1, PRS_HDR_SIZE, [], []⟩ : PSApp).prd.length + 1 :=
  C7_amended _ "Foo" "X" (by decide) (by decide) (by decide)

/-- C6: from a fresh 40-byte-name database with Widget (Product),
Bolt (Detail), Arm (Assembly) and specs Widget→Arm x2, Widget→Bolt x4,
Arm→Bolt x3, `build_tree` returns exactly the four lines `Widget`,
`├─ Arm x2`, `│  └─ Bolt x3`, `└─ Bolt x4` joined by newlines: children
in lowercase-name order, `└─ ` on the last child, ` xN` only when the
quantity is not 1, and no recursion into the Detail child. -/
theorem C6_build_tree_scenario :
    (do
      let s0 ← create 40
      let s1 ← add_component s0 "Widget" "I"
      let s2 ← add_component s1 "Bolt" "D"
      let s3 ← add_component s2 "Arm" "U"
      let s4 ← add_spec s3 "Widget" "Arm" 2
      let s5 ← add_spec s4 "Widget" "Bolt" 4
      let s6 ← add_spec s5 "Arm" "Bolt" 3
      build_tree_text s6 "Widget")
    = Except.ok "Widget\n├─ Arm x2\n│  └─ Bolt x3\n└─ Bolt x4" := by rfl

/-- C7 counterexample: `add_component` with the unknown type letter "X"
does not fail — it succeeds and the record is listed with type "X", so
the claimed InvalidArgument rejection of unknown type letters does not
happen. -/
theorem C7_counterexample :
    (do
      let s0 ← create 40
      let s1 ← add_component s0 "Foo" "X"
      get_components s1) = Except.ok [("Foo", "X")] := by rfl

/-- C8 counterexample: with an existing active spec Widget→Arm of
quantity 32767, `add_spec("Widget","Arm",1)` fails with the struct
packing error, which is not the ValueError representation that the
backend gives to InvalidArgument conditions. -/
theorem C8_counterexample :
    (do
      let s0 ← create 40
      let s1 ← add_component s0 "Widget" "I"
      let s2 ← add_component s1 "Arm" "U"
      let s3 ← add_spec s2 "Widget" "Arm" 32767
      add_spec s3 "Widget" "Arm" 1) = Except.error Err.structError
    ∧ isValueError (Except.error Err.structError : Except Err PSApp) = false :=
  ⟨rfl, rfl⟩

/-- C8 amended: with an existing active spec for the same pair whose
quantity would overflow the i16 range, `add_spec` fails — but with the
struct packing error, not with the ValueError representation used for
InvalidArgument — and the out-of-range quantity is not stored. -/
theorem C8_amended (s : PSApp) (a b : String) (qty : Int)
    (parent child : PrdRec) (ch : List PrsRec) (sr : PrsRec)
    (h : WF s)
    (hpa : find_active s a = .ok (some parent))
    (hpt : parent.typ ≠ "D")
    (hcb : find_active s b = .ok (some child))
    (hq1 : 1 ≤ qty)
    (hcyc : would_create_cycle s parent.off child.off = .ok false)
    (hch : prsChain s (s.prs.length + 1) parent.first_spec = .ok ch)
    (hfind : ch.find? (fun x => x.del_ == 0 && x.comp_off == child.off) = some sr)
    (hover : 32767 < sr.qty + qty) :
    add_spec s a b qty = .error .structError ∧
      isValueError (add_spec s a b qty) = false := by
  have hmain : add_spec s a b qty = .error .structError := by
    simp only [add_spec]
    rw [find_active_norm, hpa]
    simp only []
    rw [if_neg (by simpa using hpt)]
    rw [find_active_norm, hcb]
    simp only []
    rw [if_neg (by omega)]
    rw [hcyc]
    simp only []
    rw [mergeWalk_eq hch, hfind]
    simp only []
    rw [prsWrite_structError (Or.inr (by simpa using hover))]
  exact ⟨hmain, by rw [hmain]; rfl⟩

/-- C8 amended, witness: the two-component database Widget→Arm x32767
rejects one more unit with the packing error. -/
theorem C8_amended_witness :
    add_spec ⟨40, 77, 126, -1, 19,
        [⟨28, 0, 8, -1, "I", "Widget"⟩, ⟨77, 0, -1, 28, "U", "Arm"⟩],
        [⟨8, 0, 77, 32767, -1⟩]⟩ "Widget" "Arm" 1 = .error .structError ∧
      isValueError (add_spec ⟨40, 77, 126, -1, 19,
        [⟨28, 0, 8, -1, "I", "Widget"⟩, ⟨77, 0, -1, 28, "U", "Arm"⟩],
        [⟨8, 0, 77, 32767, -1⟩]⟩ "Widget" "Arm" 1) = false :=
  C8_amended _ "Widget" "Arm" 1
    ⟨28, 0, 8, -1, "I", "Widget"⟩ ⟨77, 0, -1, 28, "U", "Arm"⟩
    [⟨8, 0, 77, 32767, -1⟩] ⟨8, 0, 77, 32767, -1⟩
    (by decide) (by decide) (by decide) (by decide) (by decide)
    (by decide) (by decide) (by decide) (by decide)

theorem prsRead_congr {s t : PSApp} (h : s.prs = t.prs) (o : Int) :
    prsRead s o = prsRead t o := by
  unfold prsRead
  rw [h]

theorem prdRead_congr {s t : PSApp} (h : s.prd = t.prd) (o : Int) :
    prdRead s o = prdRead t o := by
  unfold prdRead
  rw [h]

/-- C5 amended: `add_spec` merges into an existing active link for the
same child by adding to its quantity in place — no new record, the spec
file length and free pointer unchanged — provided the sum stays in the
i16 range; with no such link (and the given quantity in range) it
appends one record at SFile `free` with `next = -1` and links it at the
tail of the parent chain, setting `first_spec` on an empty chain and
rewriting the last node's `next` otherwise. -/
theorem C5_amended (s : PSApp) (a b : String) (qty : Int)
    (parent child : PrdRec) (ch : List PrsRec)
    (h : WF s)
    (hpa : find_active s a = .ok (some parent))
    (hpt : parent.typ ≠ "D")
    (hcb : find_active s b = .ok (some child))
    (hq1 : 1 ≤ qty) (hqr : qty ≤ 32767)
    (hparent : parent ∈ s.prd)
    (hcyc : would_create_cycle s parent.off child.off = .ok false)
    (hch : prsChain s (s.prs.length + 1) parent.first_spec = .ok ch) :
    (∀ sr, ch.find? (fun x => x.del_ == 0 && x.comp_off == child.off) = some sr →
      sr.qty + qty ≤ 32767 →
      ∃ s', add_spec s a b qty = .ok s' ∧
        prsRead s' sr.off = some { sr with qty := sr.qty + qty } ∧
        (∀ o : Int, o ≠ sr.off → prsRead s' o = prsRead s o) ∧
        s'.prs_free = s.prs_free ∧ s'.prs.length = s.prs.length) ∧
    (ch.find? (fun x => x.del_ == 0 && x.comp_off == child.off) = none →
      ∃ s', add_spec s a b qty = .ok s' ∧
        s'.prs.length = s.prs.length + 1 ∧
        s'.prs_free = s.prs_free + prs_rec_size ∧
        prsRead s' s.prs_free = some ⟨s.prs_free, 0, child.off, qty, -1⟩ ∧
        ((ch = [] ∧ prdRead s' parent.off = some { parent with first_spec := s.prs_free }) ∨
         (∃ last rest0, ch = rest0 ++ [last] ∧
            prsRead s' last.off = some { last with next_ := s.prs_free }))) := by
  constructor
  · intro sr hfind hle
    have hsrch : sr ∈ ch := List.mem_of_find?_eq_some hfind
    have hsrprs : sr ∈ s.prs := SChain_mem (prsChain_ok_chain hch).1 sr hsrch
    have hrange := WF_qty h sr hsrprs
    rcases prsWrite_ok_of_range (r := { sr with qty := sr.qty + qty })
        (by constructor <;> (simp; omega)) with ⟨s', hw⟩
    have hmain : add_spec s a b qty = .ok s' := by
      simp only [add_spec]
      rw [find_active_norm, hpa]
      simp only []
      rw [if_neg (by simpa using hpt)]
      rw [find_active_norm, hcb]
      simp only []
      rw [if_neg (by omega)]
      rw [hcyc]
      simp only []
      rw [mergeWalk_eq hch, hfind]
      simp only []
      rw [hw]
    refine ⟨s', hmain, ?_, ?_, ?_, ?_⟩
    · exact prsWrite_read_self hw
    · intro o ho
      exact prsWrite_read_other hw (by simpa using ho)
    · exact (prsWrite_fields hw).2.2.2.2.2
    · exact @prsWrite_length_of_mem s s' { sr with qty := sr.qty + qty } ⟨sr, hsrprs, rfl⟩ hw
  · intro hfind
    have hq : ¬ ((PrsRec.qty ⟨s.prs_free, 0, child.off, qty, -1⟩ < -32768 ||
        32767 < PrsRec.qty ⟨s.prs_free, 0, child.off, qty, -1⟩) = true) := by
      simp
      omega
    have hnotmem : ∀ x ∈ s.prs, x.off ≠ PrsRec.off ⟨s.prs_free, 0, child.off, qty, -1⟩ := by
      intro x hx hc
      have := WF_soff_lt_free h x hx
      simp only at hc
      omega
    have hw1 : prsWrite s ⟨s.prs_free, 0, child.off, qty, -1⟩
        = .ok { s with prs := s.prs ++ [⟨s.prs_free, 0, child.off, qty, -1⟩] } :=
      prsWrite_of_notmem hq hnotmem
    by_cases hfs : parent.first_spec = -1
    · have hch0 : ch = [] := by
        rw [hfs] at hch
        simp [prsChain] at hch
        exact hch
      have hpmem1 : ∃ x ∈ ({ s with prs := s.prs ++ [(⟨s.prs_free, 0, child.off, qty, -1⟩ : PrsRec)] } : PSApp).prd,
          x.off = PrdRec.off { parent with first_spec := s.prs_free } := ⟨parent, hparent, rfl⟩
      have hmain : add_spec s a b qty = .ok
          { prdWrite { s with prs := s.prs ++ [⟨s.prs_free, 0, child.off, qty, -1⟩] }
              { parent with first_spec := s.prs_free } with
            prs_free := (prdWrite { s with prs := s.prs ++ [⟨s.prs_free, 0, child.off, qty, -1⟩] }
              { parent with first_spec := s.prs_free }).prs_free + prs_rec_size } := by
        simp only [add_spec]
        rw [find_active_norm, hpa]
        simp only []
        rw [if_neg (by simpa using hpt)]
        rw [find_active_norm, hcb]
        simp only []
        rw [if_neg (by omega)]
        rw [hcyc]
        simp only []
        rw [mergeWalk_eq hch, hfind]
        simp only []
        rw [hw1]
        simp only []
        rw [if_pos (beq_iff_eq.mpr hfs)]
      refine ⟨_, hmain, ?_, ?_, ?_, Or.inl ⟨hch0, ?_⟩⟩
      · have hprs : (prdWrite { s with prs := s.prs ++ [(⟨s.prs_free, 0, child.off, qty, -1⟩ : PrsRec)] }
            { parent with first_spec := s.prs_free }).prs
            = s.prs ++ [⟨s.prs_free, 0, child.off, qty, -1⟩] :=
          (prdWrite_fields _).2.2.2.2.2
        simp [hprs]
      · have hfree : (prdWrite { s with prs := s.prs ++ [(⟨s.prs_free, 0, child.off, qty, -1⟩ : PrsRec)] }
            { parent with first_spec := s.prs_free }).prs_free = s.prs_free :=
          (prdWrite_fields _).2.2.2.2.1
        simp [hfree]
      · have hprs : (prdWrite { s with prs := s.prs ++ [(⟨s.prs_free, 0, child.off, qty, -1⟩ : PrsRec)] }
            { parent with first_spec := s.prs_free }).prs
            = s.prs ++ [⟨s.prs_free, 0, child.off, qty, -1⟩] :=
          (prdWrite_fields _).2.2.2.2.2
        have : prsRead { s with prs := s.prs ++ [(⟨s.prs_free, 0, child.off, qty, -1⟩ : PrsRec)] }
            s.prs_free = some ⟨s.prs_free, 0, child.off, qty, -1⟩ :=
          prsWrite_read_self hw1
        unfold prsRead at this ⊢
        simp only [hprs]
        simpa using this
      · have hpd : prdRead { prdWrite { s with prs := s.prs ++ [(⟨s.prs_free, 0, child.off, qty, -1⟩ : PrsRec)] }
              { parent with first_spec := s.prs_free } with
            prs_free := (prdWrite { s with prs := s.prs ++ [(⟨s.prs_free, 0, child.off, qty, -1⟩ : PrsRec)] }
              { parent with first_spec := s.prs_free }).prs_free + prs_rec_size }
            parent.off
            = prdRead (prdWrite { s with prs := s.prs ++ [(⟨s.prs_free, 0, child.off, qty, -1⟩ : PrsRec)] }
              { parent with first_spec := s.prs_free }) parent.off :=
          prdRead_congr rfl _
        rw [hpd]
        have hself := @prdRead_write_self
          { s with prs := s.prs ++ [(⟨s.prs_free, 0, child.off, qty, -1⟩ : PrsRec)] }
          { parent with first_spec := s.prs_free }
        rw [hself]
        have hnorm := WF_normFix h parent hparent
        rw [show normRec s.data_len { parent with first_spec := s.prs_free }
            = { parent with first_spec := s.prs_free } from normRec_eq_self hnorm]
    · have hsc := (prsChain_ok_chain hch).1
      have hchnd := prsChain_nodup hch
      have hne0 : ∀ x ∈ ch, x.off ≠ -1 := (prsChain_ok_chain hch).2
      have hch1 : prsChain { s with prs := s.prs ++ [(⟨s.prs_free, 0, child.off, qty, -1⟩ : PrsRec)] }
          ((s.prs ++ [(⟨s.prs_free, 0, child.off, qty, -1⟩ : PrsRec)]).length + 1)
          parent.first_spec = .ok ch := by
        refine prsChain_of_chain ?_ hne0 ?_
        · refine SChain_congr hsc ?_
          intro r hr
          exact prsWrite_read_other hw1
            (by
              intro hc
              have := WF_soff_lt_free h r (SChain_mem hsc r hr)
              simp only at hc
              omega)
        · have := SChain_length_le hsc hchnd
          simp only [List.length_append]
          omega
      have hchne : ch ≠ [] := by
        intro hc
        subst hc
        exact hfs hsc
      rcases List.eq_nil_or_concat ch with hc | ⟨rest0, last, hconcat⟩
      · exact absurd hc hchne
      · rw [List.concat_eq_append] at hconcat
        have hlast_mem : last ∈ ch := by rw [hconcat]; simp
        have hlast_prs : last ∈ s.prs := SChain_mem hsc last hlast_mem
        have htail : tailWalk { s with prs := s.prs ++ [(⟨s.prs_free, 0, child.off, qty, -1⟩ : PrsRec)] }
            ((s.prs ++ [(⟨s.prs_free, 0, child.off, qty, -1⟩ : PrsRec)]).length + 1)
            (-1) parent.first_spec = .ok last.off := by
          rw [tailWalk_eq hch1, hconcat, sWalkPrev_concat]
        have hlast_ne : last.off ≠ PrsRec.off ⟨s.prs_free, 0, child.off, qty, -1⟩ := by
          intro hc
          have := WF_soff_lt_free h last hlast_prs
          simp only at hc
          omega
        have hlread : prsRead { s with prs := s.prs ++ [(⟨s.prs_free, 0, child.off, qty, -1⟩ : PrsRec)] }
            last.off = some last := by
          rw [prsWrite_read_other hw1 hlast_ne]
          exact SChain_read hsc last hlast_mem
        have hlq := WF_qty h last hlast_prs
        rcases prsWrite_ok_of_range
            (s := { s with prs := s.prs ++ [(⟨s.prs_free, 0, child.off, qty, -1⟩ : PrsRec)] })
            (r := { last with next_ := s.prs_free })
            (by constructor <;> (simp; omega)) with ⟨s2, hw2⟩
        have hmain : add_spec s a b qty = .ok { s2 with prs_free := s2.prs_free + prs_rec_size } := by
          simp only [add_spec]
          rw [find_active_norm, hpa]
          simp only []
          rw [if_neg (by simpa using hpt)]
          rw [find_active_norm, hcb]
          simp only []
          rw [if_neg (by omega)]
          rw [hcyc]
          simp only []
          rw [mergeWalk_eq hch, hfind]
          simp only []
          rw [hw1]
          simp only []
          rw [if_neg (by rw [beq_int_false hfs]; exact Bool.false_ne_true)]
          rw [htail]
          simp only []
          rw [hlread]
          simp only []
          rw [hw2]
        refine ⟨_, hmain, ?_, ?_, ?_, Or.inr ⟨last, rest0, hconcat, ?_⟩⟩
        · have := @prsWrite_length_of_mem
            { s with prs := s.prs ++ [(⟨s.prs_free, 0, child.off, qty, -1⟩ : PrsRec)] }
            s2 { last with next_ := s.prs_free }
            ⟨last, by simp [hlast_prs], rfl⟩ hw2
          simp only [List.length_append] at this
          simpa using this
        · have := (prsWrite_fields hw2).2.2.2.2.2
          simp only at this
          simp [this]
        · have hother := prsWrite_read_other hw2
            (o := PrsRec.off ⟨s.prs_free, 0, child.off, qty, -1⟩)
            (by
              intro hc
              exact hlast_ne hc.symm)
          have hself1 := prsWrite_read_self hw1
          have hcong : prsRead { s2 with prs_free := s2.prs_free + prs_rec_size } s.prs_free
              = prsRead s2 s.prs_free := prsRead_congr rfl _
          rw [hcong]
          rw [show (s.prs_free : Int) = PrsRec.off ⟨s.prs_free, 0, child.off, qty, -1⟩ from rfl,
            hother]
          exact hself1
        · have hcong : prsRead { s2 with prs_free := s2.prs_free + prs_rec_size } last.off
              = prsRead s2 last.off := prsRead_congr rfl _
          rw [hcong]
          exact prsWrite_read_self hw2

/-- C5 counterexample: with an existing active spec Widget→Arm x32767
already on the chain, `add_spec("Widget","Arm",1)` does not increment the
quantity — the call fails outright (struct packing error), so the claim
as stated, without an i16-range proviso, is false. -/
theorem C5_counterexample :
    exceptOk (add_spec ⟨40, 77, 126, -1, 19,
        [⟨28, 0, 8, -1, "I", "Widget"⟩, ⟨77, 0, -1, 28, "U", "Arm"⟩],
        [⟨8, 0, 77, 32767, -1⟩]⟩ "Widget" "Arm" 1) = false := rfl

/-- C5 amended, witness: merging 2 units into Widget→Arm x5 updates the
record in place, with the spec file untouched otherwise. -/
theorem C5_amended_witness :
    ∃ s', add_spec ⟨40, 77, 126, -1, 19,
        [⟨28, 0, 8, -1, "I", "Widget"⟩, ⟨77, 0, -1, 28, "U", "Arm"⟩],
        [⟨8, 0, 77, 5, -1⟩]⟩ "Widget" "Arm" 2 = .ok s' ∧
      prsRead s' (PrsRec.off ⟨8, 0, 77, 5, -1⟩)
        = some { (⟨8, 0, 77, 5, -1⟩ : PrsRec) with qty := PrsRec.qty ⟨8, 0, 77, 5, -1⟩ + 2 } ∧
      (∀ o : Int, o ≠ PrsRec.off ⟨8, 0, 77, 5, -1⟩ →
        prsRead s' o = prsRead ⟨40, 77, 126, -1, 19,
          [⟨28, 0, 8, -1, "I", "Widget"⟩, ⟨77, 0, -1, 28, "U", "Arm"⟩],
          [⟨8, 0, 77, 5, -1⟩]⟩ o) ∧
      s'.prs_free = (19 : Int) ∧ s'.prs.length = 1 :=
  (C5_amended ⟨40, 77, 126, -1, 19,
      [⟨28, 0, 8, -1, "I", "Widget"⟩, ⟨77, 0, -1, 28, "U", "Arm"⟩],
      [⟨8, 0, 77, 5, -1⟩]⟩ "Widget" "Arm" 2
    ⟨28, 0, 8, -1, "I", "Widget"⟩ ⟨77, 0, -1, 28, "U", "Arm"⟩
    [⟨8, 0, 77, 5, -1⟩]
    (by decide) (by decide) (by decide) (by decide) (by decide)
    (by decide) (by decide) (by decide) (by decide)).1
    ⟨8, 0, 77, 5, -1⟩ (by decide) (by decide)

/-- C2 counterexample: with `name_len = 4`, the names "ab" and "abc" are
stored as the same truncated name "ab"; after two successful
`add_component` calls the logical traversal yields two active records
whose lowercase names are equal, so the traversal is not strictly
increasing. -/
theorem C2_counterexample :
    (do
      let s0 ← create 4
      let s1 ← add_component s0 "ab" "I"
      let s2 ← add_component s1 "abc" "I"
      iter_prd_logical s2)
      = Except.ok [⟨28, 0, -1, 41, "I", "ab"⟩, ⟨41, 0, -1, -1, "I", "ab"⟩]
    ∧ ¬ ([(⟨28, 0, -1, 41, "I", "ab"⟩ : PrdRec), ⟨41, 0, -1, -1, "I", "ab"⟩].Pairwise
          (fun a b => keyLt a.name b.name = true)) :=
  ⟨rfl, by decide⟩

/-- C2: after any sequence of `add_component`, `delete_component`,
`restore_one` and `restore_all` operations — each addition carrying a
one-character ASCII type letter, as every documented type letter is —
starting from a freshly created database, the logical traversal from the
CFile head succeeds and yields exactly the set of active component
records, in non-decreasing (not strictly increasing) order of lowercase
name. -/
theorem C2_amended (maxlen : Nat) (ops : List Op) {s0 : PSApp}
    (hc : create maxlen = .ok s0) (hops : ∀ op ∈ ops, okOp op = true) :
    ∃ items, iter_prd_logical (runOps s0 ops) = .ok items ∧
      (∀ r, r ∈ items ↔ (r ∈ (runOps s0 ops).prd ∧ r.del_ = 0)) ∧
      items.Pairwise (fun a b => keyLe a.name b.name = true) :=
  INV_iter (INV_run (INV_create hc) hops)

/-- Witness for C2: a concrete four-operation run on a fresh database. -/
theorem C2_amended_witness :
    ∃ items, iter_prd_logical (runOps
        { data_len := 40, prd_head := -1, prd_free := 28, prs_head := -1, prs_free := 8,
          prd := [], prs := [] }
        [Op.add "Widget" "I", Op.add "Arm" "U", Op.del "Widget", Op.restore "Arm"])
      = .ok items ∧
      (∀ r, r ∈ items ↔ (r ∈ (runOps
        { data_len := 40, prd_head := -1, prd_free := 28, prs_head := -1, prs_free := 8,
          prd := [], prs := [] }
        [Op.add "Widget" "I", Op.add "Arm" "U", Op.del "Widget", Op.restore "Arm"]).prd
        ∧ r.del_ = 0)) ∧
      items.Pairwise (fun a b => keyLe a.name b.name = true) :=
  C2_amended 40 [Op.add "Widget" "I", Op.add "Arm" "U", Op.del "Widget", Op.restore "Arm"]
    (by rfl) (by decide)

/-- C4: for an active component, `delete_component` fails with the
ReferenceIntegrity ValueError, storing nothing, exactly when some other
active component holds an active spec whose `comp_off` equals the
target's offset; otherwise it succeeds, marks the target record deleted,
and marks every spec record along the target's `first_spec` chain
deleted — the whole chain, regardless of each spec's prior state — with
every other record and all header fields unchanged. -/
theorem C4_delete_component (s : PSApp) (name : String) (comp : PrdRec) (ch : List PrsRec)
    (h : WF s)
    (hfind : find_active s name = .ok (some comp))
    (hch : prsChain s (s.prs.length + 1) comp.first_spec = .ok ch) :
    (referenced s comp.off = true →
      delete_component s name
        = .error (.valueError "component is referenced by other specifications")) ∧
    (referenced s comp.off = false →
      ∃ s', delete_component s name = .ok s' ∧
        prdRead s' comp.off = some { comp with del_ := -1 } ∧
        (∀ o : Int, o ≠ comp.off → prdRead s' o = prdRead s o) ∧
        (∀ x ∈ ch, prsRead s' x.off = some { x with del_ := -1 }) ∧
        (∀ o : Int, o ∉ ch.map (fun r => r.off) → prsRead s' o = prsRead s o) ∧
        s'.prd.length = s.prd.length ∧ s'.prs.length = s.prs.length ∧
        s'.prd_head = s.prd_head ∧ s'.prd_free = s.prd_free ∧
        s'.prs_head = s.prs_head ∧ s'.prs_free = s.prs_free) := by
  have hscan := WF_scan_prd h
  have hfind' : s.prd.find? (fun r => r.del_ == 0 && eqPy r.name (norm name)) = some comp := by
    simp only [find_active, hscan] at hfind
    exact Except.ok.inj hfind
  have hcompmem : comp ∈ s.prd := List.mem_of_find?_eq_some hfind'
  have hrefeq : refScan s comp.off s.prd = .ok (referenced s comp.off) :=
    refScan_eq s.prd (fun c hc => WF_chains h c hc)
  constructor
  · intro href
    simp only [delete_component, hfind, hscan, hrefeq, href]
  · intro href
    have hsc := (prsChain_ok_chain hch).1
    have hne := (prsChain_ok_chain hch).2
    have hnd := prsChain_nodup hch
    have hqr : ∀ x ∈ ch, -32768 ≤ x.qty ∧ x.qty ≤ 32767 :=
      fun x hx => WF_qty h x (SChain_mem hsc x hx)
    have hFch : ch.length < s.prs.length + 1 :=
      Nat.lt_succ_of_le (SChain_length_le hsc hnd)
    have hmemw : ∃ x ∈ s.prd, x.off = PrdRec.off { comp with del_ := -1 } :=
      ⟨comp, hcompmem, rfl⟩
    have hprseq : (prdWrite s { comp with del_ := -1 }).prs = s.prs :=
      (prdWrite_fields _).2.2.2.2.2
    have hsc1 : SChain (prdWrite s { comp with del_ := -1 }) comp.first_spec ch :=
      SChain_congr hsc (fun r _ => prsRead_congr hprseq r.off)
    obtain ⟨s2, hm, hrd, hoth, hlen, hprd2, hdl2, hph2, hpf2, hsh2, hsf2⟩ :=
      markChain_eq (-1) hsc1 hnd hne hqr hFch
    have hmain : delete_component s name = .ok s2 := by
      simp only [delete_component, hfind, hscan, hrefeq, href]
      exact hm
    refine ⟨s2, hmain, ?_, ?_, ?_, ?_, ?_, ?_, ?_, ?_, ?_, ?_⟩
    · rw [prdRead_congr hprd2 comp.off]
      have h1 := @prdRead_write_self s { comp with del_ := -1 }
      rw [@normRec_eq_self s.data_len { comp with del_ := -1 }
        (WF_normFix h comp hcompmem)] at h1
      exact h1
    · intro o ho
      rw [prdRead_congr hprd2 o]
      exact prdRead_write_other ho
    · exact hrd
    · intro o ho
      rw [hoth o ho]
      exact prsRead_congr hprseq o
    · rw [hprd2]
      exact prdWrite_length_of_mem hmemw
    · rw [hlen]
      exact congrArg List.length hprseq
    · exact hph2.trans (prdWrite_fields _).2.1
    · exact hpf2.trans (prdWrite_fields _).2.2.1
    · exact hsh2.trans (prdWrite_fields _).2.2.2.1
    · exact hsf2.trans (prdWrite_fields _).2.2.2.2.1

/-- C4 witness: in the Widget→Arm database, `delete_component("Widget")`
is unreferenced, succeeds, marks Widget deleted and cascades the deletion
to its one spec. -/
theorem C4_delete_witness :
    ∃ s', delete_component ⟨40, 77, 126, -1, 19,
        [⟨28, 0, 8, -1, "I", "Widget"⟩, ⟨77, 0, -1, 28, "U", "Arm"⟩],
        [⟨8, 0, 77, 5, -1⟩]⟩ "Widget" = .ok s' ∧
      prdRead s' 28 = some ⟨28, -1, 8, -1, "I", "Widget"⟩ ∧
      (∀ o : Int, o ≠ 28 → prdRead s' o = prdRead ⟨40, 77, 126, -1, 19,
        [⟨28, 0, 8, -1, "I", "Widget"⟩, ⟨77, 0, -1, 28, "U", "Arm"⟩],
        [⟨8, 0, 77, 5, -1⟩]⟩ o) ∧
      (∀ x ∈ [(⟨8, 0, 77, 5, -1⟩ : PrsRec)], prsRead s' x.off = some { x with del_ := -1 }) ∧
      (∀ o : Int, o ∉ [(⟨8, 0, 77, 5, -1⟩ : PrsRec)].map (fun r => r.off) →
        prsRead s' o = prsRead ⟨40, 77, 126, -1, 19,
          [⟨28, 0, 8, -1, "I", "Widget"⟩, ⟨77, 0, -1, 28, "U", "Arm"⟩],
          [⟨8, 0, 77, 5, -1⟩]⟩ o) ∧
      s'.prd.length = 2 ∧ s'.prs.length = 1 ∧
      s'.prd_head = 77 ∧ s'.prd_free = 126 ∧
      s'.prs_head = -1 ∧ s'.prs_free = 19 :=
  (C4_delete_component ⟨40, 77, 126, -1, 19,
      [⟨28, 0, 8, -1, "I", "Widget"⟩, ⟨77, 0, -1, 28, "U", "Arm"⟩],
      [⟨8, 0, 77, 5, -1⟩]⟩ "Widget"
    ⟨28, 0, 8, -1, "I", "Widget"⟩ [⟨8, 0, 77, 5, -1⟩]
    (by decide) (by decide) (by decide)).2 (by decide)

/-- C10: `restore_one` succeeds on any component record `find_any` can
name, active or deleted alike, and afterwards the named component is
active (only its `next_` pointer possibly rewritten by the rebuild) and
every spec record on its `first_spec` chain is active, including specs
that had been individually deleted; the rest of the specification file
and both file sizes are unchanged. -/
theorem C10_restore_one (s : PSApp) (name : String) (comp : PrdRec) (ch : List PrsRec)
    (h : WF s)
    (hfind : find_any s name = .ok (some comp))
    (hch : prsChain s (s.prs.length + 1) comp.first_spec = .ok ch) :
    ∃ s', restore_one s name = .ok s' ∧
      (∃ nx, prdRead s' comp.off = some { comp with del_ := 0, next_ := nx }) ∧
      (∀ x ∈ ch, prsRead s' x.off = some { x with del_ := 0 }) ∧
      (∀ o : Int, o ∉ ch.map (fun r => r.off) → prsRead s' o = prsRead s o) ∧
      s'.prd.length = s.prd.length ∧ s'.prs.length = s.prs.length ∧
      s'.prd_free = s.prd_free ∧ s'.prs_free = s.prs_free := by
  have hscan := WF_scan_prd h
  have hfind' : s.prd.find? (fun r => eqPy r.name (norm name)) = some comp := by
    simp only [find_any, hscan] at hfind
    exact Except.ok.inj hfind
  have hcompmem : comp ∈ s.prd := List.mem_of_find?_eq_some hfind'
  have hsc := (prsChain_ok_chain hch).1
  have hne := (prsChain_ok_chain hch).2
  have hnd := prsChain_nodup hch
  have hqr : ∀ x ∈ ch, -32768 ≤ x.qty ∧ x.qty ≤ 32767 :=
    fun x hx => WF_qty h x (SChain_mem hsc x hx)
  have hFch : ch.length < s.prs.length + 1 :=
    Nat.lt_succ_of_le (SChain_length_le hsc hnd)
  have hmemw : ∃ x ∈ s.prd, x.off = PrdRec.off { comp with del_ := 0 } :=
    ⟨comp, hcompmem, rfl⟩
  have hprseq : (prdWrite s { comp with del_ := 0 }).prs = s.prs :=
    (prdWrite_fields _).2.2.2.2.2
  have hsc1 : SChain (prdWrite s { comp with del_ := 0 }) comp.first_spec ch :=
    SChain_congr hsc (fun r _ => prsRead_congr hprseq r.off)
  obtain ⟨s2, hm, hrd, hoth, hlen, hprd2, hdl2, hph2, hpf2, hsh2, hsf2⟩ :=
    markChain_eq 0 hsc1 hnd hne hqr hFch
  have hdlS : s2.data_len = s.data_len := hdl2.trans (prdWrite_fields _).1
  have hlenS : s2.prd.length = s.prd.length := by
    rw [hprd2]
    exact prdWrite_length_of_mem hmemw
  have hpfS : s2.prd_free = s.prd_free := hpf2.trans (prdWrite_fields _).2.2.1
  have hsfS : s2.prs_free = s.prs_free := hsf2.trans (prdWrite_fields _).2.2.2.2.1
  have hprsS : s2.prs.length = s.prs.length := by
    rw [hlen]
    exact congrArg List.length hprseq
  have hoffs : s2.prd.map (fun x => x.off) = s.prd.map (fun x => x.off) := by
    rw [hprd2]
    exact prdWrite_offs_of_mem hmemw
  have hsize : prd_rec_size s2 = prd_rec_size s := by
    unfold prd_rec_size
    rw [hdlS]
  have hpos2 : prdPositional (prd_rec_size s2) PRD_HDR_SIZE s2.prd = true := by
    rw [hsize, prdPositional_of_offs_eq hoffs]
    exact WF_prdPos h
  have hfree2 : s2.prd_free = PRD_HDR_SIZE + (s2.prd.length : Int) * prd_rec_size s2 := by
    rw [hpfS, hlenS, hsize]
    exact WF_prdFree h
  have hnorm2 : ∀ r ∈ s2.prd, fieldRoundtrip s2.data_len r.typ r.name = (r.typ, r.name) := by
    intro r hr
    rw [hdlS]
    rw [hprd2] at hr
    rcases prdWrite_prd_mem r hr with hmem | heq
    · exact WF_normFix h r hmem
    · rw [heq, @normRec_eq_self s.data_len { comp with del_ := 0 }
        (WF_normFix h comp hcompmem)]
      exact WF_normFix h comp hcompmem
  obtain ⟨s3, hrb, hrbprs, hrbdl, hrbpf, hrbsf, hrblen, hrbreads⟩ :=
    rebuild_props hpos2 hfree2 hnorm2
  have hmain : restore_one s name = .ok s3 := by
    simp only [restore_one, hfind]
    rw [hm]
    exact hrb
  have hc0read : prdRead s2 comp.off = some { comp with del_ := 0 } := by
    rw [prdRead_congr hprd2 comp.off]
    have h1 := @prdRead_write_self s { comp with del_ := 0 }
    rw [@normRec_eq_self s.data_len { comp with del_ := 0 }
      (WF_normFix h comp hcompmem)] at h1
    exact h1
  have hc0mem : ({ comp with del_ := 0 } : PrdRec) ∈ s2.prd := (prdRead_some hc0read).1
  refine ⟨s3, hmain, ?_, ?_, ?_, ?_, ?_, ?_, ?_⟩
  · rcases hrbreads { comp with del_ := 0 } hc0mem rfl with ⟨nx, hnx⟩
    exact ⟨nx, hnx⟩
  · intro x hx
    rw [prsRead_congr hrbprs x.off]
    exact hrd x hx
  · intro o ho
    rw [prsRead_congr hrbprs o, hoth o ho]
    exact prsRead_congr hprseq o
  · rw [hrblen]
    exact hlenS
  · rw [hrbprs]
    exact hprsS
  · exact hrbpf.trans hpfS
  · exact hrbsf.trans hsfS

/-- C10 witness: restoring the deleted Widget record revives it and its
deleted Widget→Arm spec; the files keep their sizes. -/
theorem C10_restore_witness :
    ∃ s', restore_one ⟨40, 77, 126, -1, 19,
        [⟨28, -1, 8, -1, "I", "Widget"⟩, ⟨77, 0, -1, -1, "U", "Arm"⟩],
        [⟨8, -1, 77, 5, -1⟩]⟩ "Widget" = .ok s' ∧
      (∃ nx, prdRead s' 28 = some ⟨28, 0, 8, nx, "I", "Widget"⟩) ∧
      (∀ x ∈ [(⟨8, -1, 77, 5, -1⟩ : PrsRec)], prsRead s' x.off = some { x with del_ := 0 }) ∧
      (∀ o : Int, o ∉ [(⟨8, -1, 77, 5, -1⟩ : PrsRec)].map (fun r => r.off) →
        prsRead s' o = prsRead ⟨40, 77, 126, -1, 19,
          [⟨28, -1, 8, -1, "I", "Widget"⟩, ⟨77, 0, -1, -1, "U", "Arm"⟩],
          [⟨8, -1, 77, 5, -1⟩]⟩ o) ∧
      s'.prd.length = 2 ∧ s'.prs.length = 1 ∧
      s'.prd_free = 126 ∧ s'.prs_free = 19 :=
  C10_restore_one ⟨40, 77, 126, -1, 19,
      [⟨28, -1, 8, -1, "I", "Widget"⟩, ⟨77, 0, -1, -1, "U", "Arm"⟩],
      [⟨8, -1, 77, 5, -1⟩]⟩ "Widget"
    ⟨28, -1, 8, -1, "I", "Widget"⟩ [⟨8, -1, 77, 5, -1⟩]
    (by decide) (by decide) (by decide)

/-- C3: in a well-formed state, with both names resolving to active
components and a valid quantity, the cycle guard of `add_spec` returns a
verdict, the verdict is true exactly when the two components are the same
record or the parent's offset is reachable from the child's offset
through active specs and active components, and a true verdict makes
`add_spec` fail with the CycleDetected ValueError, storing nothing. -/
theorem C3_cycle_guard (s : PSApp) (a b : String) (qty : Int) (parent child : PrdRec)
    (h : WF s)
    (hpa : find_active s a = .ok (some parent))
    (hpt : parent.typ ≠ "D")
    (hcb : find_active s b = .ok (some child))
    (hq1 : 1 ≤ qty) :
    ∃ cyc, would_create_cycle s parent.off child.off = .ok cyc ∧
      (cyc = true ↔ (parent.off = child.off ∨ Reach s parent.off child.off)) ∧
      (cyc = true →
        add_spec s a b qty
          = .error (.valueError "Cycle detected: this link would create a loop.")) := by
  have hscan := WF_scan_prd h
  have hchildmem : child ∈ s.prd := by
    have hcb' := hcb
    simp only [find_active, hscan] at hcb'
    exact List.mem_of_find?_eq_some (Except.ok.inj hcb')
  by_cases hpc : parent.off = child.off
  · refine ⟨true, ?_, ?_, ?_⟩
    · simp [would_create_cycle, hpc]
    · constructor
      · intro _
        exact Or.inl hpc
      · intro _
        rfl
    · intro _
      simp only [add_spec]
      rw [find_active_norm, hpa]
      simp only []
      rw [if_neg (by simpa using hpt)]
      rw [find_active_norm, hcb]
      simp only []
      rw [if_neg (by omega)]
      rw [show would_create_cycle s parent.off child.off = .ok true from by
        simp [would_create_cycle, hpc]]
  · have hchildoff : child.off ∈ s.prd.map (fun r => r.off) :=
      List.mem_map.mpr ⟨child, hchildmem, rfl⟩
    have hmem0 : ∀ u ∈ [child.off], u ∈ s.prd.map (fun r => r.off) := by
      intro u hu
      rcases List.mem_cons.mp hu with rfl | hu
      · exact hchildoff
      · exact absurd hu (List.not_mem_nil u)
    have hmeas : ([child.off] : List Int).length
        + ((s.prd.map (fun r => r.off)).filter
            (fun o => !(([] : List Int).contains o))).length * (s.prs.length + 1)
        < (s.prd.length + 1) * (s.prs.length + 1) + 1 := by
      have hle : ((s.prd.map (fun r => r.off)).filter
          (fun o => !(([] : List Int).contains o))).length ≤ s.prd.length := by
        calc ((s.prd.map (fun r => r.off)).filter
              (fun o => !(([] : List Int).contains o))).length
            ≤ (s.prd.map (fun r => r.off)).length := List.length_filter_le _ _
          _ = s.prd.length := List.length_map _ _
      have h2 : ((s.prd.map (fun r => r.off)).filter
          (fun o => !(([] : List Int).contains o))).length * (s.prs.length + 1)
          ≤ s.prd.length * (s.prs.length + 1) :=
        Nat.mul_le_mul_right _ hle
      have h3 : (s.prd.length + 1) * (s.prs.length + 1)
          = s.prd.length * (s.prs.length + 1) + (s.prs.length + 1) := by
        ring
      simp only [List.length_cons, List.length_nil]
      omega
    rcases hasPathLoop_ok h hmem0 hmeas with ⟨cyc, hrun⟩
    have hhp : has_path s child.off parent.off = .ok cyc := hrun
    have hwcc : would_create_cycle s parent.off child.off = .ok cyc := by
      simp only [would_create_cycle]
      rw [if_neg (by rw [beq_int_false hpc]; exact Bool.false_ne_true)]
      exact hhp
    have hiff : cyc = true ↔ Reach s parent.off child.off :=
      has_path_iff h hchildoff hhp
    refine ⟨cyc, hwcc, ?_, ?_⟩
    · constructor
      · intro hc
        exact Or.inr (hiff.mp hc)
      · intro hor
        rcases hor with hor | hor
        · exact absurd hor hpc
        · exact hiff.mpr hor
    · intro hc
      simp only [add_spec]
      rw [find_active_norm, hpa]
      simp only []
      rw [if_neg (by simpa using hpt)]
      rw [find_active_norm, hcb]
      simp only []
      rw [if_neg (by omega)]
      rw [hwcc, hc]

/-- C3 witness: with the active link Widget→Arm in place, the guard run
for `add_spec("Arm","Widget")` detects the back path and the call fails
CycleDetected. -/
theorem C3_cycle_witness :
    ∃ cyc, would_create_cycle ⟨40, 77, 126, -1, 19,
        [⟨28, 0, 8, -1, "I", "Widget"⟩, ⟨77, 0, -1, 28, "U", "Arm"⟩],
        [⟨8, 0, 77, 5, -1⟩]⟩ 77 28 = .ok cyc ∧
      (cyc = true ↔ ((77 : Int) = 28 ∨ Reach ⟨40, 77, 126, -1, 19,
        [⟨28, 0, 8, -1, "I", "Widget"⟩, ⟨77, 0, -1, 28, "U", "Arm"⟩],
        [⟨8, 0, 77, 5, -1⟩]⟩ 77 28)) ∧
      (cyc = true →
        add_spec ⟨40, 77, 126, -1, 19,
          [⟨28, 0, 8, -1, "I", "Widget"⟩, ⟨77, 0, -1, 28, "U", "Arm"⟩],
          [⟨8, 0, 77, 5, -1⟩]⟩ "Arm" "Widget" 1
          = .error (.valueError "Cycle detected: this link would create a loop.")) :=
  C3_cycle_guard ⟨40, 77, 126, -1, 19,
      [⟨28, 0, 8, -1, "I", "Widget"⟩, ⟨77, 0, -1, 28, "U", "Arm"⟩],
      [⟨8, 0, 77, 5, -1⟩]⟩ "Arm" "Widget" 1
    ⟨77, 0, -1, 28, "U", "Arm"⟩ ⟨28, 0, 8, -1, "I", "Widget"⟩
    (by decide) (by decide) (by decide) (by decide) (by decide)

/-- C1: for every well-formed open database state, `truncate` succeeds and
preserves the observable listings: `get_components` returns the same
sequence, `get_spec` returns the same result for every name — in
particular for every component active before the call — and
`build_tree_text` returns the same string for every name, in particular
for every active non-Detail root. -/
theorem C1_truncate_preserves (s : PSApp) (h : WF s) :
    ∃ t, truncate s = .ok t ∧
      get_components t = get_components s ∧
      (∀ n, get_spec t n = get_spec s n) ∧
      (∀ n, build_tree_text t n = build_tree_text s n) := by
  obtain ⟨t, htr, hsim⟩ := truncate_sim h
  have ht := WF_of_sim h hsim
  exact ⟨t, htr, get_components_sim h hsim, fun n => get_spec_sim h ht hsim n,
    fun n => build_tree_sim h ht hsim n⟩

theorem C1_truncate_witness :
    WF (⟨40, 77, 126, -1, 19,
        [⟨28, 0, 8, -1, "I", "Widget"⟩, ⟨77, 0, -1, 28, "U", "Arm"⟩],
        [⟨8, 0, 77, 5, -1⟩]⟩ : PSApp) ∧
    ∃ t, truncate (⟨40, 77, 126, -1, 19,
        [⟨28, 0, 8, -1, "I", "Widget"⟩, ⟨77, 0, -1, 28, "U", "Arm"⟩],
        [⟨8, 0, 77, 5, -1⟩]⟩ : PSApp) = .ok t ∧
      get_components t = get_components (⟨40, 77, 126, -1, 19,
        [⟨28, 0, 8, -1, "I", "Widget"⟩, ⟨77, 0, -1, 28, "U", "Arm"⟩],
        [⟨8, 0, 77, 5, -1⟩]⟩ : PSApp) ∧
      (∀ n, get_spec t n = get_spec (⟨40, 77, 126, -1, 19,
        [⟨28, 0, 8, -1, "I", "Widget"⟩, ⟨77, 0, -1, 28, "U", "Arm"⟩],
        [⟨8, 0, 77, 5, -1⟩]⟩ : PSApp) n) ∧
      (∀ n, build_tree_text t n = build_tree_text (⟨40, 77, 126, -1, 19,
        [⟨28, 0, 8, -1, "I", "Widget"⟩, ⟨77, 0, -1, 28, "U", "Arm"⟩],
        [⟨8, 0, 77, 5, -1⟩]⟩ : PSApp) n) :=
  ⟨by decide, C1_truncate_preserves _ (by decide)⟩

/-- C9: compaction is observably idempotent on every well-formed state:
the first `truncate` succeeds, a second `truncate` succeeds as well, after
the second call `get_components`, `get_spec` and `build_tree_text` return
the same results as after the first, and the second call leaves both
files' free fields (the file sizes) unchanged. -/
theorem C9_truncate_idempotent (s : PSApp) (h : WF s) :
    ∃ t t2, truncate s = .ok t ∧ truncate t = .ok t2 ∧
      get_components t2 = get_components t ∧
      (∀ n, get_spec t2 n = get_spec t n) ∧
      (∀ n, build_tree_text t2 n = build_tree_text t n) ∧
      t2.prd_free = t.prd_free ∧ t2.prs_free = t.prs_free := by
  obtain ⟨t, htr, hsim⟩ := truncate_sim h
  have ht := WF_of_sim h hsim
  obtain ⟨t2, htr2, hsim2⟩ := truncate_sim ht
  have ht2 := WF_of_sim ht hsim2
  have hflt : t.prd.filter (fun r => r.del_ == 0) = t.prd :=
    List.filter_eq_self.mpr (fun r hr => beq_iff_eq.mpr (hsim.allAct r hr))
  have hlen : t2.prd.length = t.prd.length := by
    have h1 : (sortedActive t).length = t2.prd.length := List.Forall₂.length_eq hsim2.corr
    have h2 : (sortedActive t).length = t.prd.length := by
      unfold sortedActive
      rw [(pySort_perm _).length_eq, hflt]
    omega
  have hmap2 : t.prd.map (fun P => (itemsOf t (chainOf t P.first_spec)).length)
      = (sortedActive s).map (fun p => (itemsOf s (chainOf s p.first_spec)).length) := by
    refine forall2_map_eq_mem hsim.corr ?_
    intro p hp P hP hrel
    have hchT : prsChain t (t.prs.length + 1) P.first_spec = .ok (chainOf t P.first_spec) :=
      chainOf_ok (WF_chains ht P hP)
    have hsiT : specItems t (t.prs.length + 1) P.first_spec
        = .ok (itemsOf t (chainOf t P.first_spec)) :=
      specItems_eq hchT (fun sr hsr _ =>
        WF_comp ht sr (SChain_mem (prsChain_ok_chain hchT).1 sr hsr))
    have heq : itemsOf t (chainOf t P.first_spec) = itemsOf s (chainOf s p.first_spec) :=
      Except.ok.inj (hsiT.symm.trans hrel.2.2.2)
    show (itemsOf t (chainOf t P.first_spec)).length
      = (itemsOf s (chainOf s p.first_spec)).length
    rw [heq]
  refine ⟨t, t2, htr, htr2, get_components_sim ht hsim2,
    fun n => get_spec_sim ht ht2 hsim2 n, fun n => build_tree_sim ht ht2 hsim2 n, ?_, ?_⟩
  · rw [hsim2.prdFree, WF_prdFree ht, hlen,
      show prd_rec_size t2 = prd_rec_size t from by unfold prd_rec_size; rw [hsim2.dlEq]]
  · rw [hsim2.prsFree, WF_prsFree ht,
      show t2.prs.length = t.prs.length from by
        rw [hsim2.lenPrs, sortedActive_of_sim hsim, hmap2, ← hsim.lenPrs]]

theorem C9_truncate_witness :
    WF (⟨40, 77, 126, -1, 19,
        [⟨28, 0, 8, -1, "I", "Widget"⟩, ⟨77, 0, -1, 28, "U", "Arm"⟩],
        [⟨8, 0, 77, 5, -1⟩]⟩ : PSApp) ∧
    ∃ t t2, truncate (⟨40, 77, 126, -1, 19,
        [⟨28, 0, 8, -1, "I", "Widget"⟩, ⟨77, 0, -1, 28, "U", "Arm"⟩],
        [⟨8, 0, 77, 5, -1⟩]⟩ : PSApp) = .ok t ∧ truncate t = .ok t2 ∧
      get_components t2 = get_components t ∧
      (∀ n, get_spec t2 n = get_spec t n) ∧
      (∀ n, build_tree_text t2 n = build_tree_text t n) ∧
      t2.prd_free = t.prd_free ∧ t2.prs_free = t.prs_free :=
  ⟨by decide, C9_truncate_idempotent _ (by decide)⟩

end PS
